import Mathlib

/-!
Red-black tree of `vkuksa/rbt`: pointer-level model

The Go program keeps its nodes in the garbage-collected heap and links them
with `parent`, `left` and `right` pointers.  The model below keeps the heap
explicit: an address is a natural number, a pointer is `Option Nat`
(`none` is Go's `nil`), and every operation passes the whole tree state.
An operation answers `none` when the Go code would stop with a run-time
fault (a field access through `nil`, the explicit `panic`) or when the fuel
of a loop is used up; it answers `some s` with the state after a normal
return.
-/

namespace Rbt

/-- Node colours: `black = Color(iota)`, `red`. -/
inductive Color where
  | black
  | red
deriving DecidableEq, Repr

/-- A pointer to a node: `none` is the nil pointer. -/
abbrev Ptr := Option Nat

/-- The struct `Node[K, V]`. -/
structure Node (K V : Type) where
  parent : Ptr
  left : Ptr
  right : Ptr
  key : K
  value : V
  color : Color
deriving DecidableEq, Repr

/-- The struct `RedBlackTree[K, V]` together with the heap its nodes live in.
`mem` maps an address to the node stored there, `next` is the address the next
allocation returns (every address from `next` on is unused). -/
structure RedBlackTree (K V : Type) where
  mem : Nat → Option (Node K V)
  next : Nat
  root : Ptr
  size : Int

variable {K V : Type}

/-- Reading through a pointer: faults on nil. -/
def RedBlackTree.get (t : RedBlackTree K V) (p : Ptr) : Option (Node K V) :=
  p.bind t.mem

/-- Writing the node stored at an address. -/
def RedBlackTree.put (t : RedBlackTree K V) (a : Nat) (n : Node K V) : RedBlackTree K V :=
  { t with mem := Function.update t.mem a (some n) }

/-- A field assignment through a pointer: faults on nil. -/
def RedBlackTree.modify (t : RedBlackTree K V) (p : Ptr) (f : Node K V → Node K V) :
    Option (RedBlackTree K V) :=
  match p with
  | none => none
  | some a =>
    match t.mem a with
    | none => none
    | some n => some (t.put a (f n))

/-- The function `MakeNode`: allocates a node without links. -/
def MakeNode (t : RedBlackTree K V) (k : K) (v : V) (c : Color) : RedBlackTree K V × Nat :=
  ({ t with mem := Function.update t.mem t.next
                (some { parent := none, left := none, right := none, key := k, value := v, color := c }),
            next := t.next + 1 }, t.next)

/-- The method `Color` of a node pointer: a nil node is black. -/
def RedBlackTree.Color (t : RedBlackTree K V) (p : Ptr) : Option Color :=
  match p with
  | none => some Color.black
  | some a => (t.mem a).map (fun n => n.color)

/-- The method `grandparent` of a node pointer. -/
def RedBlackTree.grandparent (t : RedBlackTree K V) (p : Ptr) : Option Ptr :=
  match p with
  | none => some none
  | some a =>
    match t.mem a with
    | none => none
    | some n =>
      match n.parent with
      | none => some none
      | some pa => (t.mem pa).map (fun pn => pn.parent)

/-- The method `inorder`; `visit` is what the closure appends for a node. -/
def inorder {α : Type} (mem : Nat → Option (Node K V)) (visit : Node K V → α) :
    Nat → Ptr → Option (List α)
  | 0, _ => none
  | _ + 1, none => some []
  | fuel + 1, some a =>
    match mem a with
    | none => none
    | some n =>
      match inorder mem visit fuel n.left, inorder mem visit fuel n.right with
      | some l, some r => some (l ++ visit n :: r)
      | _, _ => none

/-- The method `preorder`; `visit` is what the closure appends for a node. -/
def preorder {α : Type} (mem : Nat → Option (Node K V)) (visit : Node K V → α) :
    Nat → Ptr → Option (List α)
  | 0, _ => none
  | _ + 1, none => some []
  | fuel + 1, some a =>
    match mem a with
    | none => none
    | some n =>
      match preorder mem visit fuel n.left, preorder mem visit fuel n.right with
      | some l, some r => some (visit n :: l ++ r)
      | _, _ => none

/-- The loop of `minimum` on a non-nil node. -/
def minimumLoop (mem : Nat → Option (Node K V)) : Nat → Nat → Option Nat
  | 0, _ => none
  | fuel + 1, a =>
    match mem a with
    | none => none
    | some n =>
      match n.left with
      | none => some a
      | some l => minimumLoop mem fuel l

/-- The method `minimum` of a node pointer. -/
def RedBlackTree.minimum (t : RedBlackTree K V) (fuel : Nat) (p : Ptr) : Option Ptr :=
  match p with
  | none => some none
  | some a => (minimumLoop t.mem fuel a).map some

/-- The function `Make`: the empty tree, in an empty heap. -/
def Make : RedBlackTree K V :=
  { mem := fun _ => none, next := 0, root := none, size := 0 }

/-- The method `Size`. -/
def RedBlackTree.Size (t : RedBlackTree K V) : Int := t.size

/-- The method `transplant`. -/
def RedBlackTree.transplant (t : RedBlackTree K V) (x y : Ptr) : Option (RedBlackTree K V) := do
  let xn ← t.get x
  let t1 ← (match xn.parent with
    | none => some { t with root := y }
    | some pa =>
      match t.mem pa with
      | none => none
      | some pn =>
        if x = pn.left then some (t.put pa { pn with left := y })
        else some (t.put pa { pn with right := y }))
  match y with
  | none => some t1
  | some _ => do
    let xn1 ← t1.get x
    t1.modify y (fun yn => { yn with parent := xn1.parent })

/-- The method `leftRotate`. -/
def RedBlackTree.leftRotate (t : RedBlackTree K V) (n : Ptr) : Option (RedBlackTree K V) := do
  let nn ← t.get n
  let r := nn.right
  let rn ← t.get r
  let t1 ← t.modify n (fun x => { x with right := rn.left })
  let rn1 ← t1.get r
  let t2 ← (match rn1.left with
    | none => some t1
    | some _ => do
      t1.modify rn1.left (fun x => { x with parent := n }))
  let nn2 ← t2.get n
  let t3 ← t2.modify r (fun x => { x with parent := nn2.parent })
  let t4 ← t3.transplant n r
  let t5 ← t4.modify r (fun x => { x with left := n })
  t5.modify n (fun x => { x with parent := r })

/-- The method `rightRotate`. -/
def RedBlackTree.rightRotate (t : RedBlackTree K V) (n : Ptr) : Option (RedBlackTree K V) := do
  let nn ← t.get n
  let l := nn.left
  let ln ← t.get l
  let t1 ← t.modify n (fun x => { x with left := ln.right })
  let ln1 ← t1.get l
  let t2 ← (match ln1.right with
    | none => some t1
    | some _ => do
      t1.modify ln1.right (fun x => { x with parent := n }))
  let nn2 ← t2.get n
  let t3 ← t2.modify l (fun x => { x with parent := nn2.parent })
  let t4 ← t3.transplant n l
  let t5 ← t4.modify l (fun x => { x with right := n })
  t5.modify n (fun x => { x with parent := l })

/-- The method `search`: the descent from the root. -/
def searchLoop [LinearOrder K] (mem : Nat → Option (Node K V)) (k : K) : Nat → Ptr → Option Ptr
  | 0, _ => none
  | _ + 1, none => some none
  | fuel + 1, some a =>
    match mem a with
    | none => none
    | some x =>
      if k = x.key then some (some a)
      else if k < x.key then searchLoop mem k fuel x.left
      else if k > x.key then searchLoop mem k fuel x.right
      else searchLoop mem k fuel (some a)

/-- The method `search`. -/
def RedBlackTree.search [LinearOrder K] (t : RedBlackTree K V) (fuel : Nat) (k : K) : Option Ptr :=
  searchLoop t.mem k fuel t.root

/-- The method `Search`: the value and the flag `exists`; the value is absent
when the flag is false (Go returns the zero value of `V`). -/
def RedBlackTree.Search [LinearOrder K] (t : RedBlackTree K V) (fuel : Nat) (k : K) :
    Option (Option V × Bool) :=
  match t.search fuel k with
  | none => none
  | some none => some (none, false)
  | some (some a) =>
    match t.mem a with
    | none => none
    | some n => some (some n.value, true)

/-- How the descent of `Insert` ends: `attached` is `break loop` with the last
node visited, `updated` is the `return` after overwriting the value. -/
inductive Descent (K V : Type) where
  | attached (t : RedBlackTree K V) (current : Nat)
  | updated (t : RedBlackTree K V)

/-- The labelled loop of `Insert`; `n` is the new node, `current` the node compared against. -/
def insertLoop [LinearOrder K] (k : K) (v : V) (n : Nat) :
    Nat → RedBlackTree K V → Nat → Option (Descent K V)
  | 0, _, _ => none
  | fuel + 1, t, current =>
    match t.mem current with
    | none => none
    | some cn =>
      if k < cn.key then
        match cn.left with
        | none => some (Descent.attached (t.put current { cn with left := some n }) current)
        | some l => insertLoop k v n fuel t l
      else if k > cn.key then
        match cn.right with
        | none => some (Descent.attached (t.put current { cn with right := some n }) current)
        | some r => insertLoop k v n fuel t r
      else some (Descent.updated (t.put current { cn with value := v }))

/-- The last statement of `insertFixup`: `tree.root.color = black`. -/
def RedBlackTree.blackenRoot (t : RedBlackTree K V) : Option (RedBlackTree K V) :=
  t.modify t.root (fun x => { x with color := Color.black })

/-- The test `u != nil && u.color == red` on the uncle. -/
def RedBlackTree.isRedNode (t : RedBlackTree K V) (u : Ptr) : Option Bool :=
  match u with
  | none => some false
  | some a => (t.mem a).map (fun un => decide (un.color = Color.red))

/-- The recolouring branch of `insertFixup` (the uncle is red); answers the
state and the new `n`. -/
def RedBlackTree.insertRecolor (t : RedBlackTree K V) (n u : Ptr) :
    Option (RedBlackTree K V × Ptr) := do
  let nn ← t.get n
  let t1 ← t.modify nn.parent (fun x => { x with color := Color.black })
  let t2 ← t1.modify u (fun x => { x with color := Color.black })
  let g ← t2.grandparent n
  let t3 ← t2.modify g (fun x => { x with color := Color.red })
  let g3 ← t3.grandparent n
  some (t3, g3)

/-- The end of the rotating branch of `insertFixup` when the parent is a left
child: `n.parent.color = black`, `n.grandparent().color = red`,
`tree.rightRotate(n.grandparent())`. -/
def RedBlackTree.recolorRotateRight (t : RedBlackTree K V) (n : Ptr) :
    Option (RedBlackTree K V) := do
  let nn ← t.get n
  let t1 ← t.modify nn.parent (fun x => { x with color := Color.black })
  let g1 ← t1.grandparent n
  let t2 ← t1.modify g1 (fun x => { x with color := Color.red })
  let g2 ← t2.grandparent n
  t2.rightRotate g2

/-- The end of the rotating branch of `insertFixup` when the parent is a right child. -/
def RedBlackTree.recolorRotateLeft (t : RedBlackTree K V) (n : Ptr) :
    Option (RedBlackTree K V) := do
  let nn ← t.get n
  let t1 ← t.modify nn.parent (fun x => { x with color := Color.black })
  let g1 ← t1.grandparent n
  let t2 ← t1.modify g1 (fun x => { x with color := Color.red })
  let g2 ← t2.grandparent n
  t2.leftRotate g2

/-- The rotating branch of `insertFixup` when the parent is a left child (the
uncle is black or nil); answers the state and the new `n`. -/
def RedBlackTree.insertRotateL (t : RedBlackTree K V) (n : Ptr) :
    Option (RedBlackTree K V × Ptr) := do
  let nn ← t.get n
  let pn ← t.get nn.parent
  if n = pn.right then do
    let t1 ← t.leftRotate nn.parent
    let t2 ← t1.recolorRotateRight nn.parent
    some (t2, nn.parent)
  else do
    let t2 ← t.recolorRotateRight n
    some (t2, n)

/-- The rotating branch of `insertFixup` when the parent is a right child. -/
def RedBlackTree.insertRotateR (t : RedBlackTree K V) (n : Ptr) :
    Option (RedBlackTree K V × Ptr) := do
  let nn ← t.get n
  let pn ← t.get nn.parent
  if n = pn.left then do
    let t1 ← t.rightRotate nn.parent
    let t2 ← t1.recolorRotateLeft nn.parent
    some (t2, nn.parent)
  else do
    let t2 ← t.recolorRotateLeft n
    some (t2, n)

/-- One round of the loop of `insertFixup`: the loop condition and the loop
body.  The inner `none` says that the loop is left; otherwise the state and
the new `n` after the body are answered. -/
def RedBlackTree.insertRound (t : RedBlackTree K V) (n : Ptr) :
    Option (Option (RedBlackTree K V × Ptr)) :=
  if n = t.root then some none
  else
    match t.get n with
    | none => none
    | some nn =>
    match t.get nn.parent with
    | none => none
    | some pn =>
    if pn.color ≠ Color.red then some none
    else
      match t.grandparent n with
      | none => none
      | some g =>
      match t.get g with
      | none => none
      | some gn =>
      if nn.parent = gn.left then
        -- the parent is the left child of the grandparent
        match t.isRedNode gn.right with
        | none => none
        | some true => (t.insertRecolor n gn.right).map some
        | some false => (t.insertRotateL n).map some
      else if nn.parent = gn.right then
        -- the parent is the right child of the grandparent
        match t.isRedNode gn.left with
        | none => none
        | some true => (t.insertRecolor n gn.left).map some
        | some false => (t.insertRotateR n).map some
      else none

/-- The method `insertFixup`: the rounds of the loop, then `tree.root.color = black`. -/
def insertFixup : Nat → RedBlackTree K V → Ptr → Option (RedBlackTree K V)
  | 0, _, _ => none
  | fuel + 1, t, n =>
    match t.insertRound n with
    | none => none
    | some none => t.blackenRoot
    | some (some (t1, n1)) => insertFixup fuel t1 n1

/-- The method `Insert`. -/
def RedBlackTree.Insert [LinearOrder K] (t : RedBlackTree K V) (fuel : Nat) (k : K) (v : V) :
    Option (RedBlackTree K V) :=
  let (t0, n) := MakeNode t k v Color.red
  match t0.root with
  | none =>
    match insertFixup fuel { t0 with root := some n } (some n) with
    | none => none
    | some t2 => some { t2 with size := t2.size + 1 }
  | some r =>
    match insertLoop k v n fuel t0 r with
    | none => none
    | some (Descent.updated t1) => some t1
    | some (Descent.attached t1 current) =>
      match t1.modify (some n) (fun x => { x with parent := some current }) with
      | none => none
      | some t2 =>
        match insertFixup fuel t2 (some n) with
        | none => none
        | some t3 => some { t3 with size := t3.size + 1 }

/-- The test `sib.left.Color() == black && sib.right.Color() == black`. -/
def RedBlackTree.bothChildrenBlack (t : RedBlackTree K V) (sib : Ptr) : Option Bool := do
  let sn ← t.get sib
  let cl ← t.Color sn.left
  if cl = Color.black then do
    let sn1 ← t.get sib
    let cr ← t.Color sn1.right
    some (decide (cr = Color.black))
  else some false

/-- Case 2 of `deleteFixup`: the sibling becomes red, the position moves up. -/
def RedBlackTree.deleteCase2 (t : RedBlackTree K V) (sib parent : Ptr) :
    Option (RedBlackTree K V × Ptr × Ptr) := do
  let t1 ← t.modify sib (fun x => { x with color := Color.red })
  let pn ← t1.get parent
  some (t1, parent, pn.parent)

/-- Case 1 of `deleteFixup` on the left: the sibling is red.  Answers the
state and the new sibling. -/
def RedBlackTree.deleteCase1L (t : RedBlackTree K V) (parent sib : Ptr) :
    Option (RedBlackTree K V × Ptr) := do
  let t1 ← t.modify sib (fun x => { x with color := Color.black })
  let t2 ← t1.modify parent (fun x => { x with color := Color.red })
  let t3 ← t2.leftRotate parent
  let pn3 ← t3.get parent
  some (t3, pn3.right)

/-- Case 3 of `deleteFixup` on the left: the far child of the sibling is black. -/
def RedBlackTree.deleteCase3L (t : RedBlackTree K V) (parent sib : Ptr) :
    Option (RedBlackTree K V × Ptr) := do
  let sn ← t.get sib
  let t1 ← t.modify sn.left (fun x => { x with color := Color.black })
  let t2 ← t1.modify sib (fun x => { x with color := Color.red })
  let t3 ← t2.rightRotate sib
  let pn3 ← t3.get parent
  some (t3, pn3.right)

/-- Case 4 of `deleteFixup` on the left: the far child of the sibling is red. -/
def RedBlackTree.deleteCase4L (t : RedBlackTree K V) (parent sib : Ptr) :
    Option (RedBlackTree K V) := do
  let pn ← t.get parent
  let t1 ← t.modify sib (fun x => { x with color := pn.color })
  let t2 ← t1.modify parent (fun x => { x with color := Color.black })
  let sn ← t2.get sib
  let t3 ← t2.modify sn.right (fun x => { x with color := Color.black })
  t3.leftRotate parent

/-- Cases 2 to 4 of `deleteFixup` on the left, with the sibling at hand;
answers the state and the new `n` and `parent`. -/
def RedBlackTree.deleteCases24L (t : RedBlackTree K V) (parent sib : Ptr) :
    Option (RedBlackTree K V × Ptr × Ptr) := do
  let bb ← t.bothChildrenBlack sib
  if bb then t.deleteCase2 sib parent
  else do
    let sn ← t.get sib
    let cr ← t.Color sn.right
    let (tb, sibb) ← (if cr = Color.black then t.deleteCase3L parent sib else some (t, sib))
    let t4 ← tb.deleteCase4L parent sibb
    some (t4, t4.root, parent)

/-- Cases 1 to 4 of `deleteFixup` when `n` is the left child of `parent`;
answers the state and the new `n` and `parent`. -/
def RedBlackTree.deleteFixLeft (t : RedBlackTree K V) (parent : Ptr) :
    Option (RedBlackTree K V × Ptr × Ptr) := do
  let pn ← t.get parent
  let sib := pn.right
  let sn ← t.get sib
  let (ta, siba) ← (if sn.color = Color.red then t.deleteCase1L parent sib else some (t, sib))
  ta.deleteCases24L parent siba

/-- Case 1 of `deleteFixup` on the right. -/
def RedBlackTree.deleteCase1R (t : RedBlackTree K V) (parent sib : Ptr) :
    Option (RedBlackTree K V × Ptr) := do
  let t1 ← t.modify sib (fun x => { x with color := Color.black })
  let t2 ← t1.modify parent (fun x => { x with color := Color.red })
  let t3 ← t2.rightRotate parent
  let pn3 ← t3.get parent
  some (t3, pn3.left)

/-- Case 3 of `deleteFixup` on the right. -/
def RedBlackTree.deleteCase3R (t : RedBlackTree K V) (parent sib : Ptr) :
    Option (RedBlackTree K V × Ptr) := do
  let sn ← t.get sib
  let t1 ← t.modify sn.right (fun x => { x with color := Color.black })
  let t2 ← t1.modify sib (fun x => { x with color := Color.red })
  let t3 ← t2.leftRotate sib
  let pn3 ← t3.get parent
  some (t3, pn3.left)

/-- Case 4 of `deleteFixup` on the right. -/
def RedBlackTree.deleteCase4R (t : RedBlackTree K V) (parent sib : Ptr) :
    Option (RedBlackTree K V) := do
  let pn ← t.get parent
  let t1 ← t.modify sib (fun x => { x with color := pn.color })
  let t2 ← t1.modify parent (fun x => { x with color := Color.black })
  let sn ← t2.get sib
  let t3 ← t2.modify sn.left (fun x => { x with color := Color.black })
  t3.rightRotate parent

/-- Cases 2 to 4 of `deleteFixup` on the right, with the sibling at hand. -/
def RedBlackTree.deleteCases24R (t : RedBlackTree K V) (parent sib : Ptr) :
    Option (RedBlackTree K V × Ptr × Ptr) := do
  let bb ← t.bothChildrenBlack sib
  if bb then t.deleteCase2 sib parent
  else do
    let sn ← t.get sib
    let cl ← t.Color sn.left
    let (tb, sibb) ← (if cl = Color.black then t.deleteCase3R parent sib else some (t, sib))
    let t4 ← tb.deleteCase4R parent sibb
    some (t4, t4.root, parent)

/-- Cases 1 to 4 of `deleteFixup` when `n` is not the left child of `parent`. -/
def RedBlackTree.deleteFixRight (t : RedBlackTree K V) (parent : Ptr) :
    Option (RedBlackTree K V × Ptr × Ptr) := do
  let pn ← t.get parent
  let sib := pn.left
  let sc ← t.Color sib
  let (ta, siba) ← (if sc = Color.red then t.deleteCase1R parent sib else some (t, sib))
  ta.deleteCases24R parent siba

/-- The statement after the loop of `deleteFixup`: `if n != nil { n.color = black }`. -/
def RedBlackTree.blackenNode (t : RedBlackTree K V) (n : Ptr) : Option (RedBlackTree K V) :=
  match n with
  | none => some t
  | some _ => t.modify n (fun x => { x with color := Color.black })

/-- One round of the loop of `deleteFixup`: the loop condition and the loop
body.  The inner `none` says that the loop is left; otherwise the state and
the new `n` and `parent` after the body are answered. -/
def RedBlackTree.deleteRound (t : RedBlackTree K V) (n parent : Ptr) :
    Option (Option (RedBlackTree K V × Ptr × Ptr)) :=
  if n = t.root then some none
  else
    match t.Color n with
    | none => none
    | some c =>
    if c ≠ Color.black then some none
    else
      match t.get parent with
      | none => none
      | some pn =>
        if n = pn.left then (t.deleteFixLeft parent).map some
        else (t.deleteFixRight parent).map some

/-- The method `deleteFixup`: the rounds of the loop, then
`if n != nil { n.color = black }`. -/
def deleteFixup : Nat → RedBlackTree K V → Ptr → Ptr → Option (RedBlackTree K V)
  | 0, _, _, _ => none
  | fuel + 1, t, n, parent =>
    match t.deleteRound n parent with
    | none => none
    | some none => t.blackenNode n
    | some (some (t1, n1, parent1)) => deleteFixup fuel t1 n1 parent1

/-- The unlinking step of `delete`: the child `x` takes the place of the
spliced-out node `y`. -/
def RedBlackTree.spliceOut (t : RedBlackTree K V) (y x : Ptr) : Option (RedBlackTree K V) := do
  let yn ← t.get y
  let t1 ← (match x with
    | none => some t
    | some _ => t.modify x (fun xn => { xn with parent := yn.parent }))
  let yn1 ← t1.get y
  match yn1.parent with
  | none => some { t1 with root := x }
  | some pa =>
    match t1.mem pa with
    | none => none
    | some pn =>
      if y = pn.left then some (t1.put pa { pn with left := x })
      else some (t1.put pa { pn with right := x })

/-- The copying step of `delete`: `node.key = y.key`, `node.value = y.value`. -/
def RedBlackTree.copyInto (t : RedBlackTree K V) (node y : Ptr) : Option (RedBlackTree K V) := do
  let yn ← t.get y
  let t1 ← t.modify node (fun z => { z with key := yn.key })
  let yn1 ← t1.get y
  t1.modify node (fun z => { z with value := yn1.value })

/-- The method `delete`. -/
def RedBlackTree.delete (t : RedBlackTree K V) (fuel : Nat) (node : Ptr) :
    Option (RedBlackTree K V) := do
  let nd ← t.get node
  -- the node that is spliced out
  let y ← (if nd.left = none ∨ nd.right = none then some node
           else t.minimum fuel nd.right)
  let yn ← t.get y
  let x := if yn.left ≠ none then yn.left else yn.right
  let t2 ← t.spliceOut y x
  let t3 ← (if y ≠ node then t2.copyInto node y else some t2)
  let yn3 ← t3.get y
  let t4 ← (if yn3.color = Color.black then deleteFixup fuel t3 x yn3.parent else some t3)
  some { t4 with size := t4.size - 1 }

/-- The method `Remove`. -/
def RedBlackTree.Remove [LinearOrder K] (t : RedBlackTree K V) (fuel : Nat) (k : K) :
    Option (RedBlackTree K V) :=
  match t.search fuel k with
  | none => none
  | some none => some t
  | some (some a) => t.delete fuel (some a)

/-- The method `Keys`: the in-order walk with the closure that appends the key. -/
def RedBlackTree.Keys (t : RedBlackTree K V) (fuel : Nat) : Option (List K) :=
  inorder t.mem (fun n => n.key) fuel t.root

/-- The method `Preorder`: the pre-order walk with the closure that appends a
copy of the node. -/
def RedBlackTree.Preorder (t : RedBlackTree K V) (fuel : Nat) : Option (List (Node K V)) :=
  preorder t.mem (fun n => n) fuel t.root

/-- The in-order walk of the source with a closure that appends key and value
(`Keys` appends the key alone): the sequence of key-value pairs of the tree. -/
def RedBlackTree.Entries (t : RedBlackTree K V) (fuel : Nat) : Option (List (K × V)) :=
  inorder t.mem (fun n => (n.key, n.value)) fuel t.root

/-- A sequence of `Insert` calls, first to last. -/
def insertAll [LinearOrder K] (fuel : Nat) :
    List (K × V) → RedBlackTree K V → Option (RedBlackTree K V)
  | [], t => some t
  | (k, v) :: rest, t =>
    match t.Insert fuel k v with
    | none => none
    | some t1 => insertAll fuel rest t1

/-- The states a client can reach: `Make`, then `Insert` and `Remove` calls that return. -/
inductive Reachable [LinearOrder K] : RedBlackTree K V → Prop where
  | make : Reachable Make
  | insert {s s' : RedBlackTree K V} (fuel : Nat) (k : K) (v : V) :
      Reachable s → s.Insert fuel k v = some s' → Reachable s'
  | remove {s s' : RedBlackTree K V} (fuel : Nat) (k : K) :
      Reachable s → s.Remove fuel k = some s' → Reachable s'

end Rbt

/-!
The tree a heap holds

The proofs read the heap as an algebraic tree whose nodes carry their
address.  `Rep` says that the heap holds such a tree below a given parent
pointer; a `Path` is the way from a position up to the root, so that a
position inside a tree is a path together with the subtree at its end.
-/

namespace Rbt

variable {K V : Type}

/-- A binary tree whose nodes carry their address, colour, key and value. -/
inductive Tree (K V : Type) where
  | nil : Tree K V
  | node (a : Nat) (c : Color) (l : Tree K V) (k : K) (v : V) (r : Tree K V) : Tree K V

/-- The pointer to the root node of a tree. -/
def Tree.ptr : Tree K V → Ptr
  | Tree.nil => none
  | Tree.node a _ _ _ _ _ => some a

/-- The colour of the root node; the empty tree is black. -/
def Tree.color : Tree K V → Color
  | Tree.nil => Color.black
  | Tree.node _ c _ _ _ _ => c

/-- The addresses of the nodes, in order. -/
def Tree.addrs : Tree K V → List Nat
  | Tree.nil => []
  | Tree.node a _ l _ _ r => l.addrs ++ a :: r.addrs

/-- The keys with their values, in order. -/
def Tree.toList : Tree K V → List (K × V)
  | Tree.nil => []
  | Tree.node _ _ l k v r => l.toList ++ (k, v) :: r.toList

/-- The nodes as the pre-order walk meets them: address, key, value and colour. -/
def Tree.preList : Tree K V → List (Nat × K × V × Color)
  | Tree.nil => []
  | Tree.node a c l k v r => (a, k, v, c) :: l.preList ++ r.preList

/-- The number of nodes on the longest way down. -/
def Tree.height : Tree K V → Nat
  | Tree.nil => 0
  | Tree.node _ _ l _ _ r => max l.height r.height + 1

/-- The root with another colour. -/
def Tree.setColor (c : Color) : Tree K V → Tree K V
  | Tree.nil => Tree.nil
  | Tree.node a _ l k v r => Tree.node a c l k v r

/-- The heap holds the tree `t` below the parent pointer `par`: every node of
`t` is stored at its address with the links, key, value and colour `t` gives it. -/
def Rep (mem : Nat → Option (Node K V)) : Ptr → Tree K V → Prop
  | _, Tree.nil => True
  | par, Tree.node a c l k v r =>
    mem a = some { parent := par, left := l.ptr, right := r.ptr, key := k, value := v, color := c }
      ∧ Rep mem (some a) l ∧ Rep mem (some a) r

/-- One step of the way up: the node above a position, and the subtree on its other side. -/
inductive Frame (K V : Type) where
  | left (a : Nat) (c : Color) (k : K) (v : V) (r : Tree K V) : Frame K V
  | right (a : Nat) (c : Color) (l : Tree K V) (k : K) (v : V) : Frame K V

/-- The address of the node of a frame. -/
def Frame.addr : Frame K V → Nat
  | Frame.left a _ _ _ _ => a
  | Frame.right a _ _ _ _ => a

/-- The colour of the node of a frame. -/
def Frame.color : Frame K V → Color
  | Frame.left _ c _ _ _ => c
  | Frame.right _ c _ _ _ => c

/-- The subtree on the other side of the position. -/
def Frame.sib : Frame K V → Tree K V
  | Frame.left _ _ _ _ r => r
  | Frame.right _ _ l _ _ => l

/-- The node of a frame with the tree `t` at the position. -/
def Frame.fill : Frame K V → Tree K V → Tree K V
  | Frame.left a c k v r, t => Tree.node a c t k v r
  | Frame.right a c l k v, t => Tree.node a c l k v t

/-- The record stored for the node of a frame, given its parent pointer and
the pointer at the position. -/
def Frame.node : Frame K V → Ptr → Ptr → Node K V
  | Frame.left _ c k v r, par, p =>
    { parent := par, left := p, right := r.ptr, key := k, value := v, color := c }
  | Frame.right _ c l k v, par, p =>
    { parent := par, left := l.ptr, right := p, key := k, value := v, color := c }

/-- The frame with another colour. -/
def Frame.setColor (c : Color) : Frame K V → Frame K V
  | Frame.left a _ k v r => Frame.left a c k v r
  | Frame.right a _ l k v => Frame.right a c l k v

/-- The way from a position up to the root, nearest node first. -/
abbrev Path (K V : Type) := List (Frame K V)

/-- The pointer to the node right above the position. -/
def Path.ptr : Path K V → Ptr
  | [] => none
  | f :: _ => some f.addr

/-- The whole tree, with `t` at the position. -/
def Path.fill : Path K V → Tree K V → Tree K V
  | [], t => t
  | f :: fs, t => Path.fill fs (f.fill t)

/-- The addresses of the nodes outside the position. -/
def Path.addrs : Path K V → List Nat
  | [] => []
  | f :: fs => f.addr :: (f.sib.addrs ++ Path.addrs fs)

/-- The pointer to the root of the whole tree, given the pointer at the position. -/
def Path.root : Path K V → Ptr → Ptr
  | [], p => p
  | f :: fs, _ => Path.root fs (some f.addr)

/-- The heap holds the nodes of the path, with the pointer `p` at the position. -/
def RepPath (mem : Nat → Option (Node K V)) : Path K V → Ptr → Prop
  | [], _ => True
  | f :: fs, p =>
    mem f.addr = some (f.node (Path.ptr fs) p) ∧ Rep mem (some f.addr) f.sib
      ∧ RepPath mem fs (some f.addr)

/-- The state `s` holds the tree `path.fill t`: the root pointer points to
its root, every node is stored once, at an allocated address, with consistent
links; the allocation counter is `nx` and the size field is `sz`. -/
structure Models (nx : Nat) (sz : Int) (s : RedBlackTree K V) (path : Path K V) (t : Tree K V) :
    Prop where
  next_eq : s.next = nx
  size_eq : s.size = sz
  root_eq : s.root = Path.root path t.ptr
  onPath : RepPath s.mem path t.ptr
  onTree : Rep s.mem (Path.ptr path) t
  nodup : (Path.addrs path ++ t.addrs).Nodup
  bound : ∀ a ∈ Path.addrs path ++ t.addrs, a < nx

/-- Red-black shape: `RB t c n` says that `t` has root colour `c`, that no red
node of `t` has a red child, and that every way from the root down to an
absent child passes `n` black nodes. -/
inductive RB : Tree K V → Color → Nat → Prop where
  | nil : RB Tree.nil Color.black 0
  | red {a l k v r n} : RB l Color.black n → RB r Color.black n →
      RB (Tree.node a Color.red l k v r) Color.red n
  | black {a l k v r c₁ c₂ n} : RB l c₁ n → RB r c₂ n →
      RB (Tree.node a Color.black l k v r) Color.black (n + 1)

/-- A path of a red-black tree with a black root: `PathRB path c n` says that
putting a tree with `RB t c n` at the position gives a red-black tree. -/
inductive PathRB : Path K V → Color → Nat → Prop where
  | root {n} : PathRB [] Color.black n
  | redL {a k v r fs n} : RB r Color.black n → PathRB fs Color.red n →
      PathRB (Frame.left a Color.red k v r :: fs) Color.black n
  | redR {a l k v fs n} : RB l Color.black n → PathRB fs Color.red n →
      PathRB (Frame.right a Color.red l k v :: fs) Color.black n
  | blackL {a k v r fs c c₂ n} : RB r c₂ n → PathRB fs Color.black (n + 1) →
      PathRB (Frame.left a Color.black k v r :: fs) c n
  | blackR {a l k v fs c c₁ n} : RB l c₁ n → PathRB fs Color.black (n + 1) →
      PathRB (Frame.right a Color.black l k v :: fs) c n

/-- The keys, in order. -/
def Tree.keys (t : Tree K V) : List K := t.toList.map Prod.fst

/-- The number of nodes. -/
def Tree.count : Tree K V → Nat
  | Tree.nil => 0
  | Tree.node _ _ l _ _ r => l.count + r.count + 1

/-- Binary search tree ordering: at every node the keys of the left subtree
are smaller and the keys of the right subtree are greater. -/
def Tree.BST [LinearOrder K] : Tree K V → Prop
  | Tree.nil => True
  | Tree.node _ _ l k _ r =>
    (∀ x ∈ l.keys, x < k) ∧ (∀ x ∈ r.keys, k < x) ∧ l.BST ∧ r.BST

/-- No red node has a red child. -/
def Tree.NoRedRed : Tree K V → Prop
  | Tree.nil => True
  | Tree.node _ c l _ _ r =>
    (c = Color.red → l.color = Color.black ∧ r.color = Color.black) ∧ l.NoRedRed ∧ r.NoRedRed

/-- The black nodes on the leftmost way down. -/
def Tree.blackHeight : Tree K V → Nat
  | Tree.nil => 0
  | Tree.node _ c l _ _ _ => l.blackHeight + (if c = Color.black then 1 else 0)

/-- Every way from a node down to an absent child passes the same number of
black nodes: at every node both subtrees have the same black height. -/
def Tree.BlackBalanced : Tree K V → Prop
  | Tree.nil => True
  | Tree.node _ _ l _ _ r => l.blackHeight = r.blackHeight ∧ l.BlackBalanced ∧ r.BlackBalanced

/-- The descent of `search` and of `Insert`: from the position `path` with
subtree `t` down to the node with key `k`, or to the absent child where `k`
belongs. -/
def Tree.zoom [LinearOrder K] (k : K) : Tree K V → Path K V → Path K V × Tree K V
  | Tree.nil, path => (path, Tree.nil)
  | Tree.node a c l k' v r, path =>
    if k < k' then Tree.zoom k l (Frame.left a c k' v r :: path)
    else if k' < k then Tree.zoom k r (Frame.right a c l k' v :: path)
    else (path, Tree.node a c l k' v r)

/-- The descent of `minimum`: down the left children to the node without a
left child. -/
def Tree.zoomMin : Tree K V → Path K V → Path K V × Tree K V
  | Tree.nil, path => (path, Tree.nil)
  | Tree.node a c Tree.nil k v r, path => (path, Tree.node a c Tree.nil k v r)
  | Tree.node a c (Tree.node b cb lb kb vb rb) k v r, path =>
    Tree.zoomMin (Tree.node b cb lb kb vb rb) (Frame.left a c k v r :: path)

/-- The keys and values before the position, in order. -/
def Path.before : Path K V → List (K × V)
  | [] => []
  | Frame.left _ _ _ _ _ :: fs => Path.before fs
  | Frame.right _ _ l k v :: fs => Path.before fs ++ (l.toList ++ [(k, v)])

/-- The keys and values after the position, in order. -/
def Path.after : Path K V → List (K × V)
  | [] => []
  | Frame.left _ _ k v r :: fs => (k, v) :: r.toList ++ Path.after fs
  | Frame.right _ _ _ _ _ :: fs => Path.after fs

/-- The records the heap stores for the nodes of a tree, in order. -/
def Tree.recs : Ptr → Tree K V → List (Node K V)
  | _, Tree.nil => []
  | par, Tree.node a c l k v r =>
    Tree.recs (some a) l ++
      { parent := par, left := l.ptr, right := r.ptr, key := k, value := v, color := c } ::
      Tree.recs (some a) r

/-- The tree with the value `v` at every node whose key is `k`. -/
def Tree.setValue [DecidableEq K] (k : K) (v : V) : Tree K V → Tree K V
  | Tree.nil => Tree.nil
  | Tree.node a c l k' v' r =>
    Tree.node a c (Tree.setValue k v l) k' (if k' = k then v else v') (Tree.setValue k v r)

/-- The state holds the tree `T` as its whole tree: the root pointer points
to the root of `T`, every node of `T` is stored once at an allocated address,
and the child and parent links agree with `T`. -/
def Holds (s : RedBlackTree K V) (T : Tree K V) : Prop :=
  Models s.next s.size s [] T

/-- The red-black invariants of the specification on a tree: the root is
black, no red node has a red child, and the black heights agree at every node. -/
def Tree.RedBlack (T : Tree K V) : Prop :=
  T.color = Color.black ∧ T.NoRedRed ∧ T.BlackBalanced

/-- The position `path` separates the keys around `k`: smaller before, greater after. -/
def Path.Cut [LinearOrder K] (k : K) (path : Path K V) : Prop :=
  (∀ x ∈ Path.before path, x.1 < k) ∧ (∀ x ∈ Path.after path, k < x.1)

/-- The state of a tree that is well formed: it holds a red-black binary
search tree and `size` counts its nodes. -/
def Inv [LinearOrder K] (s : RedBlackTree K V) : Prop :=
  ∃ T, Holds s T ∧ T.RedBlack ∧ T.BST ∧ s.size = T.count

end Rbt

namespace Rbt

/-! ## A worked example -/

/-- The pairs of the example, in the order they are inserted. -/
def demoPairs : List (Nat × Nat) := [(2, 20), (1, 10), (3, 30)]

/-- The state after `Insert(2, 20)`, `Insert(1, 10)`, `Insert(3, 30)` on `Make()`. -/
def demo : RedBlackTree Nat Nat := (insertAll 8 demoPairs Make).getD Make

/-- The tree that `demo` holds: a black root with two red children. -/
def demoTree : Tree Nat Nat :=
  Tree.node 0 Color.black (Tree.node 1 Color.red Tree.nil 1 10 Tree.nil) 2 20
    (Tree.node 2 Color.red Tree.nil 3 30 Tree.nil)

end Rbt

namespace Rbt

variable {K V : Type}

/-! ## The validator `IsValidRBTree` -/

/-- The method `isBinarySearchTree`: the keys of the subtree lie strictly
between `minKey` and `maxKey`, recursively; `&&` does not evaluate its right
side after a false left side. -/
def isBinarySearchTree [LinearOrder K] (mem : Nat → Option (Node K V)) :
    Nat → Ptr → K → K → Option Bool
  | 0, _, _, _ => none
  | _ + 1, none, _, _ => some true
  | fuel + 1, some a, minKey, maxKey =>
    match mem a with
    | none => none
    | some n =>
      if n.key ≤ minKey ∨ n.key ≥ maxKey then some false
      else
        match isBinarySearchTree mem fuel n.left minKey n.key with
        | none => none
        | some false => some false
        | some true => isBinarySearchTree mem fuel n.right n.key maxKey

/-- The loop of `getBlackHeight`: down the left children, counting the black nodes. -/
def getBlackHeightLoop (mem : Nat → Option (Node K V)) : Nat → Ptr → Nat → Option Nat
  | 0, _, _ => none
  | _ + 1, none, height => some height
  | fuel + 1, some a, height =>
    match mem a with
    | none => none
    | some n =>
      getBlackHeightLoop mem fuel n.left (if n.color = Color.black then height + 1 else height)

/-- The method `getBlackHeight`. -/
def getBlackHeight (mem : Nat → Option (Node K V)) (fuel : Nat) (p : Ptr) : Option Nat :=
  match p with
  | none => some 0
  | some a => getBlackHeightLoop mem fuel (some a) 0

/-- The method `hasSameBlackHeight`. -/
def hasSameBlackHeight (mem : Nat → Option (Node K V)) : Nat → Ptr → Option Bool
  | 0, _ => none
  | _ + 1, none => some true
  | fuel + 1, some a =>
    match mem a with
    | none => none
    | some n =>
      match getBlackHeight mem fuel n.left, getBlackHeight mem fuel n.right with
      | some leftBlackHeight, some rightBlackHeight =>
        if leftBlackHeight ≠ rightBlackHeight then some false
        else
          match hasSameBlackHeight mem fuel n.left with
          | none => none
          | some false => some false
          | some true => hasSameBlackHeight mem fuel n.right
      | _, _ => none

/-- The test `p != nil && p.color == red` on a child. -/
def isRedChild (mem : Nat → Option (Node K V)) (p : Ptr) : Option Bool :=
  match p with
  | none => some false
  | some a => (mem a).map (fun n => decide (n.color = Color.red))

/-- The method `containsConsecutiveRedNodes`; `&&` and `||` evaluate their
right side only when the left side does not decide. -/
def containsConsecutiveRedNodes (mem : Nat → Option (Node K V)) : Nat → Ptr → Option Bool
  | 0, _ => none
  | _ + 1, none => some false
  | fuel + 1, some a =>
    match mem a with
    | none => none
    | some n =>
      let rest : Option Bool :=
        match containsConsecutiveRedNodes mem fuel n.left with
        | none => none
        | some true => some true
        | some false => containsConsecutiveRedNodes mem fuel n.right
      if n.color = Color.red then
        match isRedChild mem n.left with
        | none => none
        | some true => some true
        | some false =>
          match isRedChild mem n.right with
          | none => none
          | some true => some true
          | some false => rest
      else rest

/-- The method `IsValidRBTree`.  `minValue` and `maxValue` are what
`utils.MinValue[K]()` and `utils.MaxValue[K]()` return for the key type. -/
def RedBlackTree.IsValidRBTree [LinearOrder K] (t : RedBlackTree K V) (minValue maxValue : K)
    (fuel : Nat) : Option Bool :=
  match t.root with
  | none => some false
  | some a =>
    match t.mem a with
    | none => none
    | some n =>
      if n.color ≠ Color.black then some false
      else
        match isBinarySearchTree t.mem fuel t.root minValue maxValue with
        | none => none
        | some false => some false
        | some true =>
          match containsConsecutiveRedNodes t.mem fuel t.root with
          | none => none
          | some true => some false
          | some false =>
            match hasSameBlackHeight t.mem fuel t.root with
            | none => none
            | some false => some false
            | some true => some true

/-- The value of `utils.MinValue[int]()`: `math.MinInt` of a 64-bit platform. -/
def MinValueInt : Int := -9223372036854775808

/-- The value of `utils.MaxValue[int]()`: `math.MaxInt` of a 64-bit platform. -/
def MaxValueInt : Int := 9223372036854775807

/-- The value of `utils.MinValue[uint64]()`: the zero value. -/
def MinValueUint : Nat := 0

/-- The value of `utils.MaxValue[uint64]()`: all 64 bits set. -/
def MaxValueUint : Nat := 18446744073709551615

/-! ## Walks and call sequences used to state the contract -/

/-- The in-order walk of the source with a closure that appends key, value
and colour of the node. -/
def RedBlackTree.Nodes (t : RedBlackTree K V) (fuel : Nat) : Option (List (K × V × Rbt.Color)) :=
  inorder t.mem (fun n => (n.key, n.value, n.color)) fuel t.root

/-- The pre-order walk of `Preorder`, showing of every node copy what
`String` prints of it: the key and the colour. -/
def RedBlackTree.PreorderKeys (t : RedBlackTree K V) (fuel : Nat) : Option (List (K × Rbt.Color)) :=
  (t.Preorder fuel).map (fun ns => ns.map (fun n => (n.key, n.color)))

/-- A sequence of `Remove` calls, first to last. -/
def removeAll [LinearOrder K] (fuel : Nat) :
    List K → RedBlackTree K V → Option (RedBlackTree K V)
  | [], t => some t
  | k :: rest, t =>
    match t.Remove fuel k with
    | none => none
    | some t1 => removeAll fuel rest t1

/-- The answers of `IsValidRBTree` after each call of a sequence of `Insert` calls. -/
def insertAllValid [LinearOrder K] (minValue maxValue : K) (fuel : Nat) :
    List (K × V) → RedBlackTree K V → Option (List Bool)
  | [], _ => some []
  | (k, v) :: rest, t =>
    match t.Insert fuel k v with
    | none => none
    | some t1 =>
      match t1.IsValidRBTree minValue maxValue fuel, insertAllValid minValue maxValue fuel rest t1 with
      | some b, some bs => some (b :: bs)
      | _, _ => none

/-- The key and the colour of the node a pointer points to. -/
def RedBlackTree.keyColor (t : RedBlackTree K V) (p : Ptr) : Option (K × Rbt.Color) :=
  (t.get p).map (fun n => (n.key, n.color))

/-- The pointer to the left child of the node a pointer points to. -/
def RedBlackTree.leftOf (t : RedBlackTree K V) (p : Ptr) : Option Ptr :=
  (t.get p).map (fun n => n.left)

/-- The pointer to the right child of the node a pointer points to. -/
def RedBlackTree.rightOf (t : RedBlackTree K V) (p : Ptr) : Option Ptr :=
  (t.get p).map (fun n => n.right)

/-! ## Trees seen through the child links alone -/

/-- The heap holds the tree `t` as far as the validator looks: keys, values,
colours and child links; the parent links are not read. -/
def RepDown (mem : Nat → Option (Node K V)) : Tree K V → Prop
  | Tree.nil => True
  | Tree.node a c l k v r =>
    (∃ n, mem a = some n ∧ n.left = l.ptr ∧ n.right = r.ptr ∧ n.key = k ∧ n.value = v ∧
      n.color = c) ∧ RepDown mem l ∧ RepDown mem r

/-- The numbers of black nodes on the ways from the root down to an absent
child, one entry for every such way. -/
def Tree.blackCounts : Tree K V → List Nat
  | Tree.nil => [0]
  | Tree.node _ c l _ _ r =>
    (l.blackCounts ++ r.blackCounts).map (fun n => n + (if c = Color.black then 1 else 0))

/-- For every node, every way from it down to an absent child passes the same
number of black nodes. -/
def Tree.AllPathsEqual : Tree K V → Prop
  | Tree.nil => True
  | Tree.node a c l k v r =>
    (∀ x ∈ (Tree.node a c l k v r).blackCounts, ∀ y ∈ (Tree.node a c l k v r).blackCounts, x = y) ∧
      l.AllPathsEqual ∧ r.AllPathsEqual

/-- The nodes in order: address, key, value and colour. -/
def Tree.inList : Tree K V → List (Nat × K × V × Color)
  | Tree.nil => []
  | Tree.node a c l k v r => l.inList ++ (a, k, v, c) :: r.inList

/-! ## The validator on a tree -/

/-- What `isBinarySearchTree` computes, on a tree. -/
def Tree.isBinarySearchTree [LinearOrder K] : Tree K V → K → K → Bool
  | Tree.nil, _, _ => true
  | Tree.node _ _ l k _ r, minKey, maxKey =>
    if k ≤ minKey ∨ k ≥ maxKey then false
    else l.isBinarySearchTree minKey k && r.isBinarySearchTree k maxKey

/-- What `hasSameBlackHeight` computes, on a tree. -/
def Tree.hasSameBlackHeight : Tree K V → Bool
  | Tree.nil => true
  | Tree.node _ _ l _ _ r =>
    if l.blackHeight ≠ r.blackHeight then false
    else l.hasSameBlackHeight && r.hasSameBlackHeight

/-- What `containsConsecutiveRedNodes` computes, on a tree. -/
def Tree.containsConsecutiveRedNodes : Tree K V → Bool
  | Tree.nil => false
  | Tree.node _ c l _ _ r =>
    if c = Color.red ∧ (l.color = Color.red ∨ r.color = Color.red) then true
    else l.containsConsecutiveRedNodes || r.containsConsecutiveRedNodes

/-- What `IsValidRBTree` computes, on a tree. -/
def Tree.IsValidRBTree [LinearOrder K] (t : Tree K V) (minValue maxValue : K) : Bool :=
  match t with
  | Tree.nil => false
  | Tree.node _ c _ _ _ _ =>
    if c ≠ Color.black then false
    else if !(t.isBinarySearchTree minValue maxValue) then false
    else if t.containsConsecutiveRedNodes then false
    else t.hasSameBlackHeight

/-! ## The scenarios of the tests -/

/-- The insertions of `TestInsert`, first eight. -/
def scenarioEight : List (Int × Int) :=
  [(8, 1), (18, 2), (5, 3), (15, 4), (17, 5), (25, 6), (40, 7), (80, 8)]

/-- The insertions of `TestPreorder`: the same keys in pre-order. -/
def scenarioPreorder : List (Int × Int) :=
  [(17, 17), (8, 8), (5, 5), (15, 15), (25, 25), (18, 18), (40, 40), (80, 80)]

/-- The insertions of `TestDelete`. -/
def scenarioTwelve : List (Int × Int) :=
  [(8, 1), (18, 2), (5, 3), (15, 4), (17, 5), (25, 6), (40, 7), (80, 8), (3, 9), (1, 10),
    (-3, 11), (60, 12)]

/-- The state after the eight insertions of `TestInsert`. -/
def eightState : RedBlackTree Int Int := (insertAll 20 scenarioEight Make).getD Make

/-- The state after the eight insertions of `TestPreorder`. -/
def preorderState : RedBlackTree Int Int := (insertAll 20 scenarioPreorder Make).getD Make

/-- The state after the twelve insertions of `TestDelete`. -/
def twelveState : RedBlackTree Int Int := (insertAll 20 scenarioTwelve Make).getD Make

/-- The state of `TestDelete` after `Remove(8)`. -/
def removed8 : RedBlackTree Int Int := (twelveState.Remove 20 8).getD Make

/-- The state of `TestDelete` after `Remove(8)` and `Remove(80)`. -/
def removed80 : RedBlackTree Int Int := (removed8.Remove 20 80).getD Make

/-- The state of `TestDelete` after `Remove(8)`, `Remove(80)` and `Remove(60)`. -/
def removed60 : RedBlackTree Int Int := (removed80.Remove 20 60).getD Make

/-- The state after `Insert(math.MinInt, 0)` on `Make()`, for `int` keys. -/
def minKeyState : RedBlackTree Int Int := ((Make : RedBlackTree Int Int).Insert 2 MinValueInt 0).getD Make

/-- The tree that `minKeyState` holds: a single black root with the key `math.MinInt`. -/
def minKeyTree : Tree Int Int := Tree.node 0 Color.black Tree.nil MinValueInt 0 Tree.nil

/-- The state after `Insert(0, 1)` on `Make()`, for `uint64` keys. -/
def zeroKeyState : RedBlackTree Nat Nat := ((Make : RedBlackTree Nat Nat).Insert 2 0 1).getD Make

end Rbt

namespace Rbt

variable {K V : Type}

/-! ## Nodes of the tree of a state -/

/-- The nodes of the tree of a state: the node the root pointer points to, and
the nodes the child links of its nodes point to. -/
inductive IsNode (s : RedBlackTree K V) : Nat → Prop where
  | root {a : Nat} : s.root = some a → IsNode s a
  | left {a l : Nat} {n : Node K V} : IsNode s a → s.mem a = some n → n.left = some l →
      IsNode s l
  | right {a r : Nat} {n : Node K V} : IsNode s a → s.mem a = some n → n.right = some r →
      IsNode s r

/-- The records the heap stores for the nodes of a tree, in pre-order: the
node, then its left subtree, then its right subtree. -/
def Tree.preRecs : Ptr → Tree K V → List (Node K V)
  | _, Tree.nil => []
  | par, Tree.node a c l k v r =>
    { parent := par, left := l.ptr, right := r.ptr, key := k, value := v, color := c } ::
      (Tree.preRecs (some a) l ++ Tree.preRecs (some a) r)

/-! ## States inside `Insert` and `Remove`, where the fixup loops start -/

/-- The state that `Insert(0, 5)` on `demo` hands to `insertFixup`: the new
red node, at address 3, is attached as the left child of the red node with
the key 1, so the loop has a red parent to repair. -/
def attachedState : RedBlackTree Nat Nat :=
  match insertLoop 0 5 3 8 (MakeNode demo 0 5 Color.red).1 0 with
  | some (Descent.attached t1 current) =>
    (t1.modify (some 3) (fun x => { x with parent := some current })).getD Make
  | _ => Make

/-- The state after `Insert` of the keys 1, 2, 3, 4 and `Remove(4)`: the root
2 with the children 1 and 3, all three black. -/
def blackThree : RedBlackTree Nat Nat :=
  ((insertAll 8 [(1, 10), (2, 20), (3, 30), (4, 40)] Make).bind
    (fun s => s.Remove 8 4)).getD Make

/-- The state that `Remove(1)` on `blackThree` hands to `deleteFixup`: the
black leaf with the key 1, at address 0, is spliced out, so the left side of
the root is one black node short. -/
def splicedState : RedBlackTree Nat Nat :=
  (blackThree.spliceOut (some 0) none).getD Make

end Rbt

namespace Rbt

variable {K V : Type}

/-! ## Pointers, addresses and the heap outside a tree -/

theorem Tree.ptr_mem_addrs {t : Tree K V} {a : Nat} (h : t.ptr = some a) : a ∈ t.addrs := by
  cases t with
  | nil => simp [Tree.ptr] at h
  | node b c l k v r =>
    simp only [Tree.ptr, Option.some.injEq] at h
    simp [Tree.addrs, h]

theorem Tree.ptr_ne_of_not_mem {t : Tree K V} {a : Nat} (h : a ∉ t.addrs) : t.ptr ≠ some a :=
  fun e => h (Tree.ptr_mem_addrs e)

theorem Rep.congr {mem mem' : Nat → Option (Node K V)} {t : Tree K V} {par : Ptr}
    (hm : ∀ b ∈ t.addrs, mem' b = mem b) (h : Rep mem par t) : Rep mem' par t := by
  induction t generalizing par with
  | nil => trivial
  | node a c l k v r ihl ihr =>
    obtain ⟨h1, h2, h3⟩ := h
    refine ⟨?_, ihl (fun b hb => hm b ?_) h2, ihr (fun b hb => hm b ?_) h3⟩
    · rw [hm a (by simp [Tree.addrs])]; exact h1
    · simp [Tree.addrs, hb]
    · simp [Tree.addrs, hb]

theorem RepPath.congr_mem {mem mem' : Nat → Option (Node K V)} {path : Path K V} {p : Ptr}
    (hm : ∀ b ∈ Path.addrs path, mem' b = mem b) (h : RepPath mem path p) :
    RepPath mem' path p := by
  induction path generalizing p with
  | nil => trivial
  | cons f fs ih =>
    obtain ⟨h1, h2, h3⟩ := h
    refine ⟨?_, Rep.congr (fun b hb => hm b ?_) h2, ih (fun b hb => hm b ?_) h3⟩
    · rw [hm f.addr (by simp [Path.addrs])]; exact h1
    · simp [Path.addrs, hb]
    · simp [Path.addrs, hb]

/-- Replacing the pointer at the position only changes the node right above it. -/
theorem RepPath.replace {mem mem' : Nat → Option (Node K V)} {f : Frame K V} {fs : Path K V}
    {p p' : Ptr} (h : RepPath mem (f :: fs) p)
    (hf : mem' f.addr = some (f.node (Path.ptr fs) p'))
    (hm : ∀ b ∈ f.sib.addrs ++ Path.addrs fs, mem' b = mem b) :
    RepPath mem' (f :: fs) p' := by
  obtain ⟨_, h2, h3⟩ := h
  exact ⟨hf, Rep.congr (fun b hb => hm b (by simp [hb])) h2,
    RepPath.congr_mem (fun b hb => hm b (by simp [hb])) h3⟩

theorem Frame.fill_ptr (f : Frame K V) (t : Tree K V) : (f.fill t).ptr = some f.addr := by
  cases f <;> rfl

theorem Frame.fill_addrs_perm (f : Frame K V) (t : Tree K V) :
    (f.fill t).addrs.Perm (f.addr :: (f.sib.addrs ++ t.addrs)) := by
  cases f with
  | left a c k v r =>
    simp only [Frame.fill, Tree.addrs, Frame.addr, Frame.sib]
    exact List.perm_middle.trans (List.Perm.cons a List.perm_append_comm)
  | right a c l k v =>
    simp only [Frame.fill, Tree.addrs, Frame.addr, Frame.sib]
    exact List.perm_middle

theorem Path.addrs_cons_perm (f : Frame K V) (fs : Path K V) (t : Tree K V) :
    (Path.addrs (f :: fs) ++ t.addrs).Perm (Path.addrs fs ++ (f.fill t).addrs) := by
  have h1 := (Frame.fill_addrs_perm f t).symm
  have h2 : (Path.addrs (f :: fs) ++ t.addrs).Perm
      ((f.addr :: (f.sib.addrs ++ t.addrs)) ++ Path.addrs fs) := by
    simp only [Path.addrs, List.cons_append, List.append_assoc]
    exact List.Perm.cons _ (List.Perm.append_left _ List.perm_append_comm)
  exact h2.trans ((List.Perm.append_right _ h1).trans List.perm_append_comm)

theorem Path.fill_ptr_root (path : Path K V) (t : Tree K V) :
    (Path.fill path t).ptr = Path.root path t.ptr := by
  induction path generalizing t with
  | nil => rfl
  | cons f fs ih => simp [Path.fill, Path.root, ih, Frame.fill_ptr]

/-! ## Moving the position -/

theorem Models.up {nx : Nat} {sz : Int} {s : RedBlackTree K V} {f : Frame K V} {fs : Path K V}
    {t : Tree K V} (h : Models nx sz s (f :: fs) t) : Models nx sz s fs (f.fill t) := by
  have hp := Path.addrs_cons_perm f fs t
  refine ⟨h.next_eq, h.size_eq, ?_, ?_, ?_, hp.nodup_iff.1 h.nodup,
    fun a ha => h.bound a (hp.mem_iff.2 ha)⟩
  · rw [h.root_eq, Frame.fill_ptr]; rfl
  · rw [Frame.fill_ptr]; exact h.onPath.2.2
  · have h1 := h.onPath.1
    have h2 := h.onPath.2.1
    have h3 := h.onTree
    cases f <;> exact ⟨h1, by first | exact h3 | exact h2, by first | exact h2 | exact h3⟩

theorem Models.down {nx : Nat} {sz : Int} {s : RedBlackTree K V} {f : Frame K V} {fs : Path K V}
    {t : Tree K V} (h : Models nx sz s fs (f.fill t)) : Models nx sz s (f :: fs) t := by
  have hp := Path.addrs_cons_perm f fs t
  have h0 := h.onPath
  rw [Frame.fill_ptr] at h0
  refine ⟨h.next_eq, h.size_eq, ?_, ?_, ?_, hp.nodup_iff.2 h.nodup,
    fun a ha => h.bound a (hp.mem_iff.1 ha)⟩
  · rw [h.root_eq, Frame.fill_ptr]; rfl
  · have h3 := h.onTree
    cases f <;> exact ⟨h3.1, by first | exact h3.2.2 | exact h3.2.1, h0⟩
  · have h3 := h.onTree
    cases f <;> first | exact h3.2.1 | exact h3.2.2

theorem Models.top {nx : Nat} {sz : Int} {s : RedBlackTree K V} {path : Path K V}
    {t : Tree K V} (h : Models nx sz s path t) : Models nx sz s [] (Path.fill path t) := by
  induction path generalizing t with
  | nil => exact h
  | cons f fs ih => exact ih h.up

theorem Models.of_top {nx : Nat} {sz : Int} {s : RedBlackTree K V} {path : Path K V}
    {t : Tree K V} (h : Models nx sz s [] (Path.fill path t)) : Models nx sz s path t := by
  induction path generalizing t with
  | nil => exact h
  | cons f fs ih => exact (ih h).down

/-! ## Reading at the position -/

theorem Models.mem_focus {nx : Nat} {sz : Int} {s : RedBlackTree K V} {path : Path K V}
    {a : Nat} {c : Color} {l r : Tree K V} {k : K} {v : V}
    (h : Models nx sz s path (Tree.node a c l k v r)) :
    s.mem a = some { parent := Path.ptr path, left := l.ptr, right := r.ptr,
                     key := k, value := v, color := c } :=
  h.onTree.1

theorem Models.mem_parent {nx : Nat} {sz : Int} {s : RedBlackTree K V} {f : Frame K V}
    {fs : Path K V} {t : Tree K V} (h : Models nx sz s (f :: fs) t) :
    s.mem f.addr = some (f.node (Path.ptr fs) t.ptr) :=
  h.onPath.1

end Rbt

namespace Rbt

variable {K V : Type}

/-! ## Evaluating reads and writes -/

@[simp] theorem Tree.ptr_nil : (Tree.nil : Tree K V).ptr = none := rfl

@[simp] theorem Tree.ptr_node {a : Nat} {c : Color} {l r : Tree K V} {k : K} {v : V} :
    (Tree.node a c l k v r).ptr = some a := rfl

@[simp] theorem Tree.color_nil : (Tree.nil : Tree K V).color = Color.black := rfl

@[simp] theorem Tree.color_node {a : Nat} {c : Color} {l r : Tree K V} {k : K} {v : V} :
    (Tree.node a c l k v r).color = c := rfl

@[simp] theorem Path.ptr_empty : Path.ptr ([] : Path K V) = none := rfl

@[simp] theorem Path.ptr_cons (f : Frame K V) (fs : Path K V) :
    Path.ptr (f :: fs) = some f.addr := rfl

@[simp] theorem Frame.addr_left {a : Nat} {c : Color} {k : K} {v : V} {r : Tree K V} :
    (Frame.left a c k v r).addr = a := rfl

@[simp] theorem Frame.addr_right {a : Nat} {c : Color} {k : K} {v : V} {l : Tree K V} :
    (Frame.right a c l k v).addr = a := rfl

@[simp] theorem Frame.sib_left {a : Nat} {c : Color} {k : K} {v : V} {r : Tree K V} :
    (Frame.left a c k v r).sib = r := rfl

@[simp] theorem Frame.sib_right {a : Nat} {c : Color} {k : K} {v : V} {l : Tree K V} :
    (Frame.right a c l k v).sib = l := rfl

@[simp] theorem Frame.node_left {a : Nat} {c : Color} {k : K} {v : V} {r : Tree K V}
    {par p : Ptr} : (Frame.left a c k v r).node par p =
      { parent := par, left := p, right := r.ptr, key := k, value := v, color := c } := rfl

@[simp] theorem Frame.node_right {a : Nat} {c : Color} {k : K} {v : V} {l : Tree K V}
    {par p : Ptr} : (Frame.right a c l k v).node par p =
      { parent := par, left := l.ptr, right := p, key := k, value := v, color := c } := rfl

theorem RedBlackTree.get_some (s : RedBlackTree K V) (a : Nat) : s.get (some a) = s.mem a := rfl

theorem RedBlackTree.modify_some (s : RedBlackTree K V) (a : Nat) (f : Node K V → Node K V) :
    s.modify (some a) f = (s.mem a).map (fun n => s.put a (f n)) := by
  simp only [RedBlackTree.modify]
  cases s.mem a <;> rfl

theorem RedBlackTree.mem_put_same (s : RedBlackTree K V) (a : Nat) (n : Node K V) :
    (s.put a n).mem a = some n := by simp [RedBlackTree.put]

theorem RedBlackTree.mem_put_ne (s : RedBlackTree K V) {a b : Nat} (n : Node K V) (h : b ≠ a) :
    (s.put a n).mem b = s.mem b := by simp [RedBlackTree.put, Function.update, h]

theorem RedBlackTree.mem_put_ne' (s : RedBlackTree K V) {a b : Nat} (n : Node K V) (h : a ≠ b) :
    (s.put a n).mem b = s.mem b := by simp [RedBlackTree.put, Function.update, h.symm]

@[simp] theorem RedBlackTree.root_put (s : RedBlackTree K V) (a : Nat) (n : Node K V) :
    (s.put a n).root = s.root := rfl

@[simp] theorem RedBlackTree.next_put (s : RedBlackTree K V) (a : Nat) (n : Node K V) :
    (s.put a n).next = s.next := rfl

@[simp] theorem RedBlackTree.size_put (s : RedBlackTree K V) (a : Nat) (n : Node K V) :
    (s.put a n).size = s.size := rfl

theorem Tree.some_ne_ptr {t : Tree K V} {a : Nat} (h : a ∉ t.addrs) :
    (some a = t.ptr) = False := by
  simp only [eq_iff_iff, iff_false]
  exact fun e => h (Tree.ptr_mem_addrs e.symm)

theorem Rep.put_iff {s : RedBlackTree K V} {t : Tree K V} {par : Ptr} {a : Nat}
    {x : Node K V} (h : a ∉ t.addrs) :
    Rep (s.put a x).mem par t ↔ Rep s.mem par t := by
  constructor
  · exact Rep.congr (fun b hb => by
      have : b ≠ a := by rintro rfl; exact h hb
      simp [RedBlackTree.put, Function.update, this])
  · exact Rep.congr (fun b hb => by
      have : b ≠ a := by rintro rfl; exact h hb
      simp [RedBlackTree.put, Function.update, this])

theorem RepPath.put_path_iff {s : RedBlackTree K V} {path : Path K V} {p : Ptr} {a : Nat}
    {x : Node K V} (h : a ∉ Path.addrs path) :
    RepPath (s.put a x).mem path p ↔ RepPath s.mem path p := by
  constructor
  · exact RepPath.congr_mem (fun b hb => by
      have : b ≠ a := by rintro rfl; exact h hb
      simp [RedBlackTree.put, Function.update, this])
  · exact RepPath.congr_mem (fun b hb => by
      have : b ≠ a := by rintro rfl; exact h hb
      simp [RedBlackTree.put, Function.update, this])

theorem models_iff {nx : Nat} {sz : Int} {s : RedBlackTree K V} {path : Path K V}
    {t : Tree K V} :
    Models nx sz s path t ↔ (s.next = nx ∧ s.size = sz ∧ s.root = Path.root path t.ptr ∧
      RepPath s.mem path t.ptr ∧ Rep s.mem (Path.ptr path) t ∧
      (Path.addrs path ++ t.addrs).Nodup ∧ ∀ a ∈ Path.addrs path ++ t.addrs, a < nx) :=
  ⟨fun h => ⟨h.1, h.2, h.3, h.4, h.5, h.6, h.7⟩,
   fun h => ⟨h.1, h.2.1, h.2.2.1, h.2.2.2.1, h.2.2.2.2.1, h.2.2.2.2.2.1, h.2.2.2.2.2.2⟩⟩

/-! ## Writing at the position -/

theorem Models.put_focus {nx : Nat} {sz : Int} {s : RedBlackTree K V} {path : Path K V}
    {a : Nat} {c : Color} {l r : Tree K V} {k : K} {v : V}
    (h : Models nx sz s path (Tree.node a c l k v r)) (c' : Color) (k' : K) (v' : V) :
    Models nx sz (s.put a { parent := Path.ptr path, left := l.ptr, right := r.ptr,
                            key := k', value := v', color := c' })
      path (Tree.node a c' l k' v' r) := by
  have hn := h.nodup
  simp only [Tree.addrs, List.nodup_append, List.nodup_cons, List.mem_append, List.mem_cons,
    List.disjoint_append_right, List.disjoint_append_left, List.disjoint_cons_right,
    List.disjoint_cons_left] at hn
  refine ⟨h.next_eq, h.size_eq, h.root_eq, ?_, ⟨?_, ?_, ?_⟩, h.nodup, h.bound⟩
  · exact (RepPath.put_path_iff (by tauto)).2 h.onPath
  · exact RedBlackTree.mem_put_same _ _ _
  · exact (Rep.put_iff (by tauto)).2 h.onTree.2.1
  · exact (Rep.put_iff (by tauto)).2 h.onTree.2.2

theorem Models.setColor_focus {nx : Nat} {sz : Int} {s : RedBlackTree K V} {path : Path K V}
    {a : Nat} {c : Color} {l r : Tree K V} {k : K} {v : V}
    (h : Models nx sz s path (Tree.node a c l k v r)) (c' : Color) :
    ∃ s', s.modify (some a) (fun x => { x with color := c' }) = some s' ∧
      Models nx sz s' path (Tree.node a c' l k v r) :=
  ⟨_, by simp [RedBlackTree.modify, h.mem_focus], h.put_focus c' k v⟩

/-! ## Rotations at the position -/

theorem Models.leftRotate_focus {nx : Nat} {sz : Int} {s : RedBlackTree K V} {path : Path K V}
    {a b : Nat} {c c' : Color} {l rl rr : Tree K V} {k k' : K} {v v' : V}
    (h : Models nx sz s path (Tree.node a c l k v (Tree.node b c' rl k' v' rr))) :
    ∃ s', s.leftRotate (some a) = some s' ∧
      Models nx sz s' path (Tree.node b c' (Tree.node a c l k v rl) k' v' rr) := by
  obtain ⟨h1, h2, h3, h4, h5, h6, h7⟩ := models_iff.1 h
  have h6' : (Path.addrs path ++
      (Tree.node b c' (Tree.node a c l k v rl) k' v' rr).addrs).Nodup := by
    simpa [Tree.addrs] using h6
  have h7' : ∀ y ∈ Path.addrs path ++
      (Tree.node b c' (Tree.node a c l k v rl) k' v' rr).addrs, y < nx := by
    simpa [Tree.addrs] using h7
  clear h7 h
  rcases rl with _ | ⟨x, cx, xl, kx, vx, xr⟩ <;>
    rcases path with _ | ⟨⟨p, cp, kp, vp, pr⟩ | ⟨p, cp, pl, kp, vp⟩, fs⟩
  all_goals
    simp only [Tree.addrs, Path.addrs, List.nodup_append, List.nodup_cons, List.mem_append,
      List.mem_cons, List.disjoint_append_right, List.disjoint_append_left,
      List.disjoint_cons_right, List.disjoint_cons_left, List.nil_append, List.append_nil,
      List.not_mem_nil, not_false_eq_true, true_and, List.nodup_nil, not_or, Frame.addr_left,
      Frame.addr_right, Frame.sib_left, Frame.sib_right] at h6
    simp only [Rep, RepPath, Tree.ptr_nil, Tree.ptr_node, Path.ptr_empty, Path.ptr_cons, Path.root,
      Frame.addr_left, Frame.addr_right, Frame.sib_left, Frame.sib_right, Frame.node_left,
      Frame.node_right] at h3 h4 h5
    simp only [RedBlackTree.leftRotate, RedBlackTree.get_some, RedBlackTree.modify_some,
      Option.bind_eq_bind, Option.some_bind, Option.map_some', RedBlackTree.mem_put_same,
      RedBlackTree.mem_put_ne, RedBlackTree.mem_put_ne', ne_eq, not_false_eq_true, h3, h4, h5, h6]
    simp only [RedBlackTree.transplant, RedBlackTree.get_some, RedBlackTree.modify_some,
      Option.bind_eq_bind, Option.some_bind, Option.map_some', RedBlackTree.mem_put_same,
      RedBlackTree.mem_put_ne, RedBlackTree.mem_put_ne', ne_eq, not_false_eq_true, ↓reduceIte,
      Tree.some_ne_ptr, h3, h4, h5, h6]
    refine ⟨_, rfl, ⟨h1, h2, ?_, ?_, ?_, h6', h7'⟩⟩
    all_goals
      simp only [Rep, RepPath, Rep.put_iff, RepPath.put_path_iff, Tree.ptr_nil, Tree.ptr_node,
        Path.ptr_empty, Path.ptr_cons, Path.root, Frame.addr_left, Frame.addr_right, Frame.sib_left,
        Frame.sib_right, Frame.node_left, Frame.node_right, RedBlackTree.mem_put_same,
        RedBlackTree.mem_put_ne, RedBlackTree.mem_put_ne', RedBlackTree.root_put, ne_eq,
        not_false_eq_true, h3, h4, h5, h6, and_self, and_true, true_and]

theorem Models.rightRotate_focus {nx : Nat} {sz : Int} {s : RedBlackTree K V} {path : Path K V}
    {a b : Nat} {c c' : Color} {ll lr r : Tree K V} {k k' : K} {v v' : V}
    (h : Models nx sz s path (Tree.node a c (Tree.node b c' ll k' v' lr) k v r)) :
    ∃ s', s.rightRotate (some a) = some s' ∧
      Models nx sz s' path (Tree.node b c' ll k' v' (Tree.node a c lr k v r)) := by
  obtain ⟨h1, h2, h3, h4, h5, h6, h7⟩ := models_iff.1 h
  have h6' : (Path.addrs path ++
      (Tree.node b c' ll k' v' (Tree.node a c lr k v r)).addrs).Nodup := by
    simpa [Tree.addrs] using h6
  have h7' : ∀ y ∈ Path.addrs path ++
      (Tree.node b c' ll k' v' (Tree.node a c lr k v r)).addrs, y < nx := by
    simpa [Tree.addrs] using h7
  clear h7 h
  rcases lr with _ | ⟨x, cx, xl, kx, vx, xr⟩ <;>
    rcases path with _ | ⟨⟨p, cp, kp, vp, pr⟩ | ⟨p, cp, pl, kp, vp⟩, fs⟩
  all_goals
    simp only [Tree.addrs, Path.addrs, List.nodup_append, List.nodup_cons, List.mem_append,
      List.mem_cons, List.disjoint_append_right, List.disjoint_append_left,
      List.disjoint_cons_right, List.disjoint_cons_left, List.nil_append, List.append_nil,
      List.not_mem_nil, not_false_eq_true, true_and, List.nodup_nil, not_or, Frame.addr_left,
      Frame.addr_right, Frame.sib_left, Frame.sib_right] at h6
    simp only [Rep, RepPath, Tree.ptr_nil, Tree.ptr_node, Path.ptr_empty, Path.ptr_cons, Path.root,
      Frame.addr_left, Frame.addr_right, Frame.sib_left, Frame.sib_right, Frame.node_left,
      Frame.node_right] at h3 h4 h5
    simp only [RedBlackTree.rightRotate, RedBlackTree.get_some, RedBlackTree.modify_some,
      Option.bind_eq_bind, Option.some_bind, Option.map_some', RedBlackTree.mem_put_same,
      RedBlackTree.mem_put_ne, RedBlackTree.mem_put_ne', ne_eq, not_false_eq_true, h3, h4, h5, h6]
    simp only [RedBlackTree.transplant, RedBlackTree.get_some, RedBlackTree.modify_some,
      Option.bind_eq_bind, Option.some_bind, Option.map_some', RedBlackTree.mem_put_same,
      RedBlackTree.mem_put_ne, RedBlackTree.mem_put_ne', ne_eq, not_false_eq_true, ↓reduceIte,
      Tree.some_ne_ptr, h3, h4, h5, h6]
    refine ⟨_, rfl, ⟨h1, h2, ?_, ?_, ?_, h6', h7'⟩⟩
    all_goals
      simp only [Rep, RepPath, Rep.put_iff, RepPath.put_path_iff, Tree.ptr_nil, Tree.ptr_node,
        Path.ptr_empty, Path.ptr_cons, Path.root, Frame.addr_left, Frame.addr_right, Frame.sib_left,
        Frame.sib_right, Frame.node_left, Frame.node_right, RedBlackTree.mem_put_same,
        RedBlackTree.mem_put_ne, RedBlackTree.mem_put_ne', RedBlackTree.root_put, ne_eq,
        not_false_eq_true, h3, h4, h5, h6, and_self, and_true, true_and]

/-! ## Stepping down and up -/

theorem Models.downL {nx : Nat} {sz : Int} {s : RedBlackTree K V} {path : Path K V}
    {a : Nat} {c : Color} {l r : Tree K V} {k : K} {v : V}
    (h : Models nx sz s path (Tree.node a c l k v r)) :
    Models nx sz s (Frame.left a c k v r :: path) l :=
  Models.down (f := Frame.left a c k v r) h

theorem Models.downR {nx : Nat} {sz : Int} {s : RedBlackTree K V} {path : Path K V}
    {a : Nat} {c : Color} {l r : Tree K V} {k : K} {v : V}
    (h : Models nx sz s path (Tree.node a c l k v r)) :
    Models nx sz s (Frame.right a c l k v :: path) r :=
  Models.down (f := Frame.right a c l k v) h

theorem Models.upL {nx : Nat} {sz : Int} {s : RedBlackTree K V} {path : Path K V}
    {a : Nat} {c : Color} {l r : Tree K V} {k : K} {v : V}
    (h : Models nx sz s (Frame.left a c k v r :: path) l) :
    Models nx sz s path (Tree.node a c l k v r) :=
  h.up

theorem Models.upR {nx : Nat} {sz : Int} {s : RedBlackTree K V} {path : Path K V}
    {a : Nat} {c : Color} {l r : Tree K V} {k : K} {v : V}
    (h : Models nx sz s (Frame.right a c l k v :: path) r) :
    Models nx sz s path (Tree.node a c l k v r) :=
  h.up

end Rbt

namespace Rbt

variable {K V : Type}

/-! ## Reading around the position -/

@[simp] theorem Frame.setColor_addr (f : Frame K V) (c : Color) : (f.setColor c).addr = f.addr := by
  cases f <;> rfl

@[simp] theorem Frame.setColor_sib (f : Frame K V) (c : Color) : (f.setColor c).sib = f.sib := by
  cases f <;> rfl

@[simp] theorem Frame.node_parent (f : Frame K V) (par p : Ptr) : (f.node par p).parent = par := by
  cases f <;> rfl

@[simp] theorem Frame.node_color (f : Frame K V) (par p : Ptr) : (f.node par p).color = f.color := by
  cases f <;> rfl

theorem Path.root_mem {fs : Path K V} {a b : Nat} (h : Path.root fs (some a) = some b) :
    b = a ∨ b ∈ Path.addrs fs := by
  induction fs generalizing a with
  | nil => simp only [Path.root, Option.some.injEq] at h; exact Or.inl h.symm
  | cons f fs ih =>
    rcases ih h with e | e
    · right; simp [Path.addrs, e]
    · right; simp [Path.addrs, e]

theorem Models.disjoint {nx : Nat} {sz : Int} {s : RedBlackTree K V} {path : Path K V}
    {t : Tree K V} (h : Models nx sz s path t) {a : Nat} (h1 : a ∈ Path.addrs path)
    (h2 : a ∈ t.addrs) : False :=
  List.disjoint_of_nodup_append h.nodup h1 h2

theorem Models.root_ne_focus {nx : Nat} {sz : Int} {s : RedBlackTree K V} {f : Frame K V}
    {fs : Path K V} {n : Nat} {c : Color} {l r : Tree K V} {k : K} {v : V}
    (h : Models nx sz s (f :: fs) (Tree.node n c l k v r)) : (some n = s.root) = False := by
  simp only [eq_iff_iff, iff_false]
  intro e
  have hr := h.root_eq
  rw [← e] at hr
  have hr' : Path.root fs (some f.addr) = some n := hr.symm
  refine h.disjoint (a := n) ?_ (by simp [Tree.addrs])
  rcases Path.root_mem hr' with e | e
  · simp [Path.addrs, e]
  · simp [Path.addrs, e]

theorem Models.grandparent_focus {nx : Nat} {sz : Int} {s : RedBlackTree K V} {f : Frame K V}
    {fs : Path K V} {n : Nat} {c : Color} {l r : Tree K V} {k : K} {v : V}
    (h : Models nx sz s (f :: fs) (Tree.node n c l k v r)) :
    s.grandparent (some n) = some (Path.ptr fs) := by
  simp only [RedBlackTree.grandparent, h.mem_focus, Path.ptr_cons, h.mem_parent, Option.map_some',
    Frame.node_parent]

/-! ## Recolouring around the position -/

theorem Models.setColor_parent {nx : Nat} {sz : Int} {s : RedBlackTree K V} {f : Frame K V}
    {fs : Path K V} {t : Tree K V} (h : Models nx sz s (f :: fs) t) (c' : Color) :
    ∃ s', s.modify (some f.addr) (fun x => { x with color := c' }) = some s' ∧
      Models nx sz s' (f.setColor c' :: fs) t := by
  cases f with
  | left a c k v r =>
    obtain ⟨s', e, h'⟩ := h.upL.setColor_focus c'
    exact ⟨s', e, h'.downL⟩
  | right a c l k v =>
    obtain ⟨s', e, h'⟩ := h.upR.setColor_focus c'
    exact ⟨s', e, h'.downR⟩

theorem Models.not_mem_sib' {nx : Nat} {sz : Int} {s : RedBlackTree K V} {f : Frame K V}
    {fs : Path K V} {t : Tree K V} {n : Nat}
    (h : Models nx sz s (f :: fs) t) (hp : t.ptr = some n) : n ∉ f.sib.addrs := fun hm =>
  h.disjoint (a := n) (by simp [Path.addrs, hm]) (Tree.ptr_mem_addrs hp)

theorem Models.not_mem_sib {nx : Nat} {sz : Int} {s : RedBlackTree K V} {f : Frame K V}
    {fs : Path K V} {n : Nat} {c : Color} {l r : Tree K V} {k : K} {v : V}
    (h : Models nx sz s (f :: fs) (Tree.node n c l k v r)) : n ∉ f.sib.addrs :=
  h.not_mem_sib' rfl

/-! ## The branches of `insertFixup` -/

theorem Models.insertRecolorL {nx : Nat} {sz : Int} {s : RedBlackTree K V} {f : Frame K V}
    {fs : Path K V} {g u : Nat} {cg cu : Color} {kg ku : K} {vg vu : V} {ul ur : Tree K V}
    {n : Nat} {c : Color} {l r : Tree K V} {k : K} {v : V}
    (h : Models nx sz s (f :: Frame.left g cg kg vg (Tree.node u cu ul ku vu ur) :: fs)
      (Tree.node n c l k v r)) :
    ∃ s', s.insertRecolor (some n) (some u) = some (s', some g) ∧
      Models nx sz s' fs (Tree.node g Color.red
        ((f.setColor Color.black).fill (Tree.node n c l k v r)) kg vg
        (Tree.node u Color.black ul ku vu ur)) := by
  obtain ⟨s1, e1, h1⟩ := h.setColor_parent Color.black
  obtain ⟨s2, e2, h2⟩ := h1.up.upL.downR.setColor_focus Color.black
  obtain ⟨s3, e3, h3⟩ := h2.upR.setColor_focus Color.red
  have g2 := (Models.down h2.upR.downL).grandparent_focus
  have g3 := (Models.down h3.downL).grandparent_focus
  refine ⟨s3, ?_, h3⟩
  simp only [RedBlackTree.insertRecolor, RedBlackTree.get_some, h.mem_focus, Option.bind_eq_bind,
    Option.some_bind, Path.ptr_cons, e1, e2, g2, Frame.addr_left, e3, g3]

theorem Models.insertRecolorR {nx : Nat} {sz : Int} {s : RedBlackTree K V} {f : Frame K V}
    {fs : Path K V} {g u : Nat} {cg cu : Color} {kg ku : K} {vg vu : V} {ul ur : Tree K V}
    {n : Nat} {c : Color} {l r : Tree K V} {k : K} {v : V}
    (h : Models nx sz s (f :: Frame.right g cg (Tree.node u cu ul ku vu ur) kg vg :: fs)
      (Tree.node n c l k v r)) :
    ∃ s', s.insertRecolor (some n) (some u) = some (s', some g) ∧
      Models nx sz s' fs (Tree.node g Color.red (Tree.node u Color.black ul ku vu ur) kg vg
        ((f.setColor Color.black).fill (Tree.node n c l k v r))) := by
  obtain ⟨s1, e1, h1⟩ := h.setColor_parent Color.black
  obtain ⟨s2, e2, h2⟩ := h1.up.upR.downL.setColor_focus Color.black
  obtain ⟨s3, e3, h3⟩ := h2.upL.setColor_focus Color.red
  have g2 := (Models.down h2.upL.downR).grandparent_focus
  have g3 := (Models.down h3.downR).grandparent_focus
  refine ⟨s3, ?_, h3⟩
  simp only [RedBlackTree.insertRecolor, RedBlackTree.get_some, h.mem_focus, Option.bind_eq_bind,
    Option.some_bind, Path.ptr_cons, e1, e2, g2, Frame.addr_right, e3, g3]

theorem Models.recolorRotateRight {nx : Nat} {sz : Int} {s : RedBlackTree K V}
    {fs : Path K V} {g p : Nat} {cg cp : Color} {kg kp : K} {vg vp : V} {pr u : Tree K V}
    {n : Nat} {c : Color} {l r : Tree K V} {k : K} {v : V}
    (h : Models nx sz s (Frame.left p cp kp vp pr :: Frame.left g cg kg vg u :: fs)
      (Tree.node n c l k v r)) :
    ∃ s', s.recolorRotateRight (some n) = some s' ∧
      Models nx sz s' fs (Tree.node p Color.black (Tree.node n c l k v r) kp vp
        (Tree.node g Color.red pr kg vg u)) := by
  obtain ⟨s1, e1, h1⟩ := h.setColor_parent Color.black
  obtain ⟨s2, e2, h2⟩ := h1.upL.upL.setColor_focus Color.red
  obtain ⟨s3, e3, h3⟩ := h2.rightRotate_focus
  have g1 := h1.grandparent_focus
  have g2 := h2.downL.downL.grandparent_focus
  refine ⟨s3, ?_, h3⟩
  simp only [Frame.addr_left] at e1
  simp only [RedBlackTree.recolorRotateRight, RedBlackTree.get_some, h.mem_focus,
    Option.bind_eq_bind, Option.some_bind, Path.ptr_cons, e1, e2, g1, g2, Frame.addr_left, e3]

theorem Models.recolorRotateLeft {nx : Nat} {sz : Int} {s : RedBlackTree K V}
    {fs : Path K V} {g p : Nat} {cg cp : Color} {kg kp : K} {vg vp : V} {pl u : Tree K V}
    {n : Nat} {c : Color} {l r : Tree K V} {k : K} {v : V}
    (h : Models nx sz s (Frame.right p cp pl kp vp :: Frame.right g cg u kg vg :: fs)
      (Tree.node n c l k v r)) :
    ∃ s', s.recolorRotateLeft (some n) = some s' ∧
      Models nx sz s' fs (Tree.node p Color.black (Tree.node g Color.red u kg vg pl) kp vp
        (Tree.node n c l k v r)) := by
  obtain ⟨s1, e1, h1⟩ := h.setColor_parent Color.black
  obtain ⟨s2, e2, h2⟩ := h1.upR.upR.setColor_focus Color.red
  obtain ⟨s3, e3, h3⟩ := h2.leftRotate_focus
  have g1 := h1.grandparent_focus
  have g2 := h2.downR.downR.grandparent_focus
  refine ⟨s3, ?_, h3⟩
  simp only [Frame.addr_right] at e1
  simp only [RedBlackTree.recolorRotateLeft, RedBlackTree.get_some, h.mem_focus,
    Option.bind_eq_bind, Option.some_bind, Path.ptr_cons, e1, e2, g1, g2, Frame.addr_right, e3]

theorem Models.insertRotateL_outer {nx : Nat} {sz : Int} {s : RedBlackTree K V}
    {fs : Path K V} {g p : Nat} {cg cp : Color} {kg kp : K} {vg vp : V} {pr u : Tree K V}
    {n : Nat} {c : Color} {l r : Tree K V} {k : K} {v : V}
    (h : Models nx sz s (Frame.left p cp kp vp pr :: Frame.left g cg kg vg u :: fs)
      (Tree.node n c l k v r)) :
    ∃ s', s.insertRotateL (some n) = some (s', some n) ∧
      Models nx sz s' fs (Tree.node p Color.black (Tree.node n c l k v r) kp vp
        (Tree.node g Color.red pr kg vg u)) := by
  obtain ⟨s1, e1, h1⟩ := h.recolorRotateRight
  refine ⟨s1, ?_, h1⟩
  have hp := h.mem_parent
  simp only [Frame.addr_left, Frame.node_left] at hp
  have hne := Tree.some_ne_ptr h.not_mem_sib
  simp only [Frame.sib_left] at hne
  simp only [RedBlackTree.insertRotateL, RedBlackTree.get_some, h.mem_focus,
    Option.bind_eq_bind, Option.some_bind, Path.ptr_cons, Frame.addr_left, hp,
    hne, ↓reduceIte, e1]

theorem Models.insertRotateL_inner {nx : Nat} {sz : Int} {s : RedBlackTree K V}
    {fs : Path K V} {g p : Nat} {cg cp : Color} {kg kp : K} {vg vp : V} {pl u : Tree K V}
    {n : Nat} {c : Color} {l r : Tree K V} {k : K} {v : V}
    (h : Models nx sz s (Frame.right p cp pl kp vp :: Frame.left g cg kg vg u :: fs)
      (Tree.node n c l k v r)) :
    ∃ s', s.insertRotateL (some n) = some (s', some p) ∧
      Models nx sz s' fs (Tree.node n Color.black (Tree.node p cp pl kp vp l) k v
        (Tree.node g Color.red r kg vg u)) := by
  obtain ⟨s1, e1, h1⟩ := h.upR.leftRotate_focus
  obtain ⟨s2, e2, h2⟩ := h1.downL.recolorRotateRight
  refine ⟨s2, ?_, h2⟩
  have hp := h.mem_parent
  simp only [Frame.addr_right, Frame.node_right, Tree.ptr_node] at hp
  simp only [RedBlackTree.insertRotateL, RedBlackTree.get_some, h.mem_focus,
    Option.bind_eq_bind, Option.some_bind, Path.ptr_cons, Frame.addr_right, hp,
    ↓reduceIte, e1, e2]

theorem Models.insertRotateR_outer {nx : Nat} {sz : Int} {s : RedBlackTree K V}
    {fs : Path K V} {g p : Nat} {cg cp : Color} {kg kp : K} {vg vp : V} {pl u : Tree K V}
    {n : Nat} {c : Color} {l r : Tree K V} {k : K} {v : V}
    (h : Models nx sz s (Frame.right p cp pl kp vp :: Frame.right g cg u kg vg :: fs)
      (Tree.node n c l k v r)) :
    ∃ s', s.insertRotateR (some n) = some (s', some n) ∧
      Models nx sz s' fs (Tree.node p Color.black (Tree.node g Color.red u kg vg pl) kp vp
        (Tree.node n c l k v r)) := by
  obtain ⟨s1, e1, h1⟩ := h.recolorRotateLeft
  refine ⟨s1, ?_, h1⟩
  have hp := h.mem_parent
  simp only [Frame.addr_right, Frame.node_right] at hp
  have hne := Tree.some_ne_ptr h.not_mem_sib
  simp only [Frame.sib_right] at hne
  simp only [RedBlackTree.insertRotateR, RedBlackTree.get_some, h.mem_focus,
    Option.bind_eq_bind, Option.some_bind, Path.ptr_cons, Frame.addr_right, hp,
    hne, ↓reduceIte, e1]

theorem Models.insertRotateR_inner {nx : Nat} {sz : Int} {s : RedBlackTree K V}
    {fs : Path K V} {g p : Nat} {cg cp : Color} {kg kp : K} {vg vp : V} {pr u : Tree K V}
    {n : Nat} {c : Color} {l r : Tree K V} {k : K} {v : V}
    (h : Models nx sz s (Frame.left p cp kp vp pr :: Frame.right g cg u kg vg :: fs)
      (Tree.node n c l k v r)) :
    ∃ s', s.insertRotateR (some n) = some (s', some p) ∧
      Models nx sz s' fs (Tree.node n Color.black (Tree.node g Color.red u kg vg l) k v
        (Tree.node p cp r kp vp pr)) := by
  obtain ⟨s1, e1, h1⟩ := h.upL.rightRotate_focus
  obtain ⟨s2, e2, h2⟩ := h1.downR.recolorRotateLeft
  refine ⟨s2, ?_, h2⟩
  have hp := h.mem_parent
  simp only [Frame.addr_left, Frame.node_left, Tree.ptr_node] at hp
  simp only [RedBlackTree.insertRotateR, RedBlackTree.get_some, h.mem_focus,
    Option.bind_eq_bind, Option.some_bind, Path.ptr_cons, Frame.addr_left, hp,
    ↓reduceIte, e1, e2]

theorem Models.blackenRoot {nx : Nat} {sz : Int} {s : RedBlackTree K V}
    {a : Nat} {c : Color} {l r : Tree K V} {k : K} {v : V}
    (h : Models nx sz s [] (Tree.node a c l k v r)) :
    ∃ s', s.blackenRoot = some s' ∧ Models nx sz s' [] (Tree.node a Color.black l k v r) := by
  obtain ⟨s1, e1, h1⟩ := h.setColor_focus Color.black
  refine ⟨s1, ?_, h1⟩
  have hr := h.root_eq
  simp only [Path.root, Tree.ptr_node] at hr
  simp only [RedBlackTree.blackenRoot, hr, e1]

end Rbt

namespace Rbt

variable {K V : Type}

/-! ## Red-black shape -/

theorem Frame.fill_toList_congr (f : Frame K V) {t t' : Tree K V} (h : t.toList = t'.toList) :
    (f.fill t).toList = (f.fill t').toList := by
  cases f <;> simp [Frame.fill, Tree.toList, h]

theorem Path.fill_toList_of_eq (path : Path K V) {t t' : Tree K V} (h : t.toList = t'.toList) :
    (Path.fill path t).toList = (Path.fill path t').toList := by
  induction path generalizing t t' with
  | nil => exact h
  | cons f fs ih => exact ih (Frame.fill_toList_congr f h)

@[simp] theorem Frame.setColor_fill_toList (f : Frame K V) (c : Color) (t : Tree K V) :
    ((f.setColor c).fill t).toList = (f.fill t).toList := by
  cases f <;> rfl

@[simp] theorem Tree.setColor_toList (t : Tree K V) (c : Color) :
    (t.setColor c).toList = t.toList := by
  cases t <;> rfl

theorem RB.color_eq {t : Tree K V} {c : Color} {n : Nat} (h : RB t c n) : t.color = c := by
  cases h <;> rfl

theorem RB.setBlack {t : Tree K V} {c : Color} {n : Nat} (h : RB t c n) :
    ∃ m, RB (t.setColor Color.black) Color.black m := by
  cases h with
  | nil => exact ⟨0, RB.nil⟩
  | red hl hr => exact ⟨_, RB.black hl hr⟩
  | black hl hr => exact ⟨_, RB.black hl hr⟩

theorem PathRB.fill {path : Path K V} {t : Tree K V} {c : Color} {n : Nat}
    (hp : PathRB path c n) (ht : RB t c n) : ∃ m, RB (Path.fill path t) Color.black m := by
  induction hp generalizing t with
  | root => exact ⟨_, ht⟩
  | redL hr _ ih => exact ih (RB.red ht hr)
  | redR hl _ ih => exact ih (RB.red hl ht)
  | blackL hr _ ih => exact ih (RB.black ht hr)
  | blackR hl _ ih => exact ih (RB.black hl ht)

/-- A path takes a black tree at its position whatever colour stood there. -/
theorem PathRB.black {path : Path K V} {c : Color} {n : Nat} (hp : PathRB path c n) :
    PathRB path Color.black n := by
  cases hp with
  | root => exact PathRB.root
  | redL hr h => exact PathRB.redL hr h
  | redR hl h => exact PathRB.redR hl h
  | blackL hr h => exact PathRB.blackL hr h
  | blackR hl h => exact PathRB.blackR hl h

/-! ## `insertFixup` -/

theorem Models.not_mem_sib_ptr {nx : Nat} {sz : Int} {s : RedBlackTree K V} {f : Frame K V}
    {fs : Path K V} {t : Tree K V} (h : Models nx sz s (f :: fs) t) :
    (t.ptr = f.sib.ptr) = (t.ptr = none ∧ f.sib.ptr = none) := by
  cases t with
  | nil =>
    simp only [Tree.ptr_nil, true_and, eq_iff_iff]
    exact eq_comm
  | node n c l k v r =>
    simp only [Tree.ptr_node, Tree.some_ne_ptr h.not_mem_sib, reduceCtorEq, false_and]

theorem Models.isRedNode_focus {nx : Nat} {sz : Int} {s : RedBlackTree K V}
    {path : Path K V} {t : Tree K V} (h : Models nx sz s path t) :
    s.isRedNode t.ptr = some (decide (t.color = Color.red)) := by
  cases t with
  | nil => rfl
  | node n c l k v r =>
    simp only [RedBlackTree.isRedNode, Tree.ptr_node, h.mem_focus, Option.map_some', Tree.color_node]

theorem Models.insertFixup_exit_root {nx : Nat} {sz : Int} {s : RedBlackTree K V}
    {n : Nat} {c : Color} {l r : Tree K V} {k : K} {v : V} (fuel : Nat)
    (h : Models nx sz s [] (Tree.node n c l k v r)) :
    ∃ s', insertFixup (fuel + 1) s (some n) = some s' ∧
      Models nx sz s' [] (Tree.node n Color.black l k v r) := by
  obtain ⟨s1, e1, h1⟩ := h.blackenRoot
  refine ⟨s1, ?_, h1⟩
  have hr := h.root_eq
  simp only [Path.root, Tree.ptr_node] at hr
  simp only [insertFixup, RedBlackTree.insertRound, hr, ↓reduceIte, e1]

theorem Path.fill_eq_node (f : Frame K V) (fs : Path K V) (t : Tree K V) :
    ∃ a c l k v r, Path.fill (f :: fs) t = Tree.node a c l k v r := by
  induction fs generalizing f t with
  | nil => cases f <;> exact ⟨_, _, _, _, _, _, rfl⟩
  | cons f' fs ih => exact ih f' (f.fill t)

theorem Models.insertFixup_exit_black {nx : Nat} {sz : Int} {s : RedBlackTree K V}
    {f : Frame K V} {fs : Path K V}
    {n : Nat} {c : Color} {l r : Tree K V} {k : K} {v : V} (fuel : Nat)
    (h : Models nx sz s (f :: fs) (Tree.node n c l k v r)) (hf : f.color = Color.black) :
    ∃ s', insertFixup (fuel + 1) s (some n) = some s' ∧
      Models nx sz s' [] ((Path.fill (f :: fs) (Tree.node n c l k v r)).setColor Color.black) := by
  obtain ⟨a, c', l', k', v', r', e⟩ := Path.fill_eq_node f fs (Tree.node n c l k v r)
  have ht := h.top
  rw [e] at ht ⊢
  obtain ⟨s1, e1, h1⟩ := ht.blackenRoot
  refine ⟨s1, ?_, h1⟩
  simp only [insertFixup, RedBlackTree.insertRound, h.root_ne_focus, ↓reduceIte,
    RedBlackTree.get_some, h.mem_focus, Path.ptr_cons, h.mem_parent, Frame.node_color, hf, ne_eq,
    reduceCtorEq, not_false_eq_true, e1]

theorem Models.insertRound_L {nx : Nat} {sz : Int} {s : RedBlackTree K V}
    {f : Frame K V} {fs : Path K V} {g : Nat} {cg : Color} {kg : K} {vg : V} {u : Tree K V}
    {n : Nat} {c : Color} {l r : Tree K V} {k : K} {v : V}
    (h : Models nx sz s (f :: Frame.left g cg kg vg u :: fs) (Tree.node n c l k v r))
    (hf : f.color = Color.red) :
    s.insertRound (some n) =
      if u.color = Color.red then (s.insertRecolor (some n) u.ptr).map some
      else (s.insertRotateL (some n)).map some := by
  have hu := h.up.upL.downR.isRedNode_focus
  have hg := h.up.mem_parent
  simp only [Frame.addr_left, Frame.node_left, Frame.fill_ptr] at hg
  simp only [RedBlackTree.insertRound, h.root_ne_focus, ↓reduceIte, RedBlackTree.get_some,
    h.mem_focus, Path.ptr_cons, h.mem_parent, Frame.node_color, hf, ne_eq, not_true_eq_false,
    h.grandparent_focus, Frame.addr_left, hg, hu]
  by_cases hc : u.color = Color.red <;> simp only [hc, decide_True, decide_False, ↓reduceIte]
  
theorem Models.insertRound_R {nx : Nat} {sz : Int} {s : RedBlackTree K V}
    {f : Frame K V} {fs : Path K V} {g : Nat} {cg : Color} {kg : K} {vg : V} {u : Tree K V}
    {n : Nat} {c : Color} {l r : Tree K V} {k : K} {v : V}
    (h : Models nx sz s (f :: Frame.right g cg u kg vg :: fs) (Tree.node n c l k v r))
    (hf : f.color = Color.red) :
    s.insertRound (some n) =
      if u.color = Color.red then (s.insertRecolor (some n) u.ptr).map some
      else (s.insertRotateR (some n)).map some := by
  have hu := h.up.upR.downL.isRedNode_focus
  have hg := h.up.mem_parent
  have hne := Tree.some_ne_ptr (h.up.not_mem_sib' (Frame.fill_ptr f _))
  simp only [Frame.sib_right] at hne
  simp only [Frame.addr_right, Frame.node_right, Frame.fill_ptr] at hg
  simp only [RedBlackTree.insertRound, h.root_ne_focus, ↓reduceIte, RedBlackTree.get_some,
    h.mem_focus, Path.ptr_cons, h.mem_parent, Frame.node_color, hf, ne_eq, not_true_eq_false,
    h.grandparent_focus, Frame.addr_right, hg, hu, hne]
  by_cases hc : u.color = Color.red <;> simp only [hc, decide_True, decide_False, ↓reduceIte]

/-- What `insertFixup` is to deliver: a state that holds a red-black tree with
the same keys and values in the same order. -/
theorem insertFixup_done {nx : Nat} {sz : Int} {s : RedBlackTree K V}
    {f : Frame K V} {fs : Path K V} {n : Nat} {c cr : Color} {l r : Tree K V} {k : K} {v : V}
    {m : Nat} (fuel : Nat) {L : List (K × V)}
    (h : Models nx sz s (f :: fs) (Tree.node n c l k v r)) (hf : f.color = Color.black)
    (hrb : RB (f.fill (Tree.node n c l k v r)) Color.black (m + 1))
    (hp : PathRB fs cr (m + 1))
    (hL : (Path.fill (f :: fs) (Tree.node n c l k v r)).toList = L) :
    ∃ s' T', insertFixup (fuel + 1) s (some n) = some s' ∧ Models nx sz s' [] T' ∧
      (∃ m', RB T' Color.black m') ∧ T'.toList = L := by
  obtain ⟨s1, e1, h1⟩ := h.insertFixup_exit_black fuel hf
  obtain ⟨m1, hm1⟩ := hp.black.fill hrb
  exact ⟨s1, _, e1, h1, hm1.setBlack, by rw [Tree.setColor_toList]; exact hL⟩

theorem insertFixup_spec {nx : Nat} {sz : Int} (N : Nat) :
    ∀ (path : Path K V) (fuel : Nat) (s : RedBlackTree K V) (n : Nat) (l r : Tree K V) (k : K)
      (v : V) (c0 : Color) (m : Nat),
      path.length ≤ N → path.length < fuel →
      Models nx sz s path (Tree.node n Color.red l k v r) →
      RB l Color.black m → RB r Color.black m → PathRB path c0 m →
      ∃ s' T', insertFixup fuel s (some n) = some s' ∧ Models nx sz s' [] T' ∧
        (∃ m', RB T' Color.black m') ∧
        T'.toList = (Path.fill path (Tree.node n Color.red l k v r)).toList := by
  induction N using Nat.strong_induction_on with
  | _ N ih =>
  intro path fuel s n l r k v c0 m hN hfuel h hl hr hp
  obtain ⟨fuel, rfl⟩ : ∃ f', fuel = f' + 1 := ⟨fuel - 1, by omega⟩
  cases hp with
  | root =>
    obtain ⟨s1, e1, h1⟩ := h.insertFixup_exit_root fuel
    exact ⟨s1, _, e1, h1, ⟨_, RB.black hl hr⟩, rfl⟩
  | blackL hsib hfs =>
    exact insertFixup_done fuel h rfl (RB.black (RB.red hl hr) hsib) hfs rfl
  | blackR hsib hfs =>
    exact insertFixup_done fuel h rfl (RB.black hsib (RB.red hl hr)) hfs rfl
  | @redL p kp vp pr fs _ hsib hfs =>
    obtain ⟨fuel, rfl⟩ : ∃ f', fuel = f' + 1 := ⟨fuel - 1, by
      cases hfs <;> simp only [List.length_cons] at hfuel <;> omega⟩
    cases hfs with
    | @blackL g kg vg u rest _ c₂ _ hu hrest =>
      rw [insertFixup, h.insertRound_L rfl]
      cases c₂ with
      | red =>
        cases hu with
        | @red ua ul uk uv ur _ hul hur =>
        obtain ⟨s1, e1, h1⟩ := h.insertRecolorL
        simp only [Tree.color_node, ↓reduceIte, Tree.ptr_node, e1, Option.map_some']
        simp only [List.length_cons] at hN hfuel
        obtain ⟨s2, T2, e2, h2, hrb2, hL2⟩ := ih (N - 2) (by omega) rest (fuel + 1) s1 g _ _ kg vg
          Color.black (m + 1) (by omega) (by omega) h1
          (RB.black (RB.red hl hr) hsib) (RB.black hul hur) hrest
        exact ⟨s2, T2, e2, h2, hrb2, by
          rw [hL2]; exact Path.fill_toList_of_eq rest (by simp [Tree.toList, Frame.fill, Frame.setColor])⟩
      | black =>
        obtain ⟨s1, e1, h1⟩ := h.insertRotateL_outer
        simp only [hu.color_eq, reduceCtorEq, ↓reduceIte, e1, Option.map_some']
        refine insertFixup_done fuel h1.downL rfl (RB.black (RB.red hl hr) (RB.red hsib hu))
          hrest ?_
        exact Path.fill_toList_of_eq rest (by simp [Tree.toList, Frame.fill])
    | @blackR g u kg vg rest _ c₂ _ hu hrest =>
      rw [insertFixup, h.insertRound_R rfl]
      cases c₂ with
      | red =>
        cases hu with
        | @red ua ul uk uv ur _ hul hur =>
        obtain ⟨s1, e1, h1⟩ := h.insertRecolorR
        simp only [Tree.color_node, ↓reduceIte, Tree.ptr_node, e1, Option.map_some']
        simp only [List.length_cons] at hN hfuel
        obtain ⟨s2, T2, e2, h2, hrb2, hL2⟩ := ih (N - 2) (by omega) rest (fuel + 1) s1 g _ _ kg vg
          Color.black (m + 1) (by omega) (by omega) h1
          (RB.black hul hur) (RB.black (RB.red hl hr) hsib) hrest
        exact ⟨s2, T2, e2, h2, hrb2, by
          rw [hL2]; exact Path.fill_toList_of_eq rest (by simp [Tree.toList, Frame.fill, Frame.setColor])⟩
      | black =>
        obtain ⟨s1, e1, h1⟩ := h.insertRotateR_inner
        simp only [hu.color_eq, reduceCtorEq, ↓reduceIte, e1, Option.map_some']
        refine insertFixup_done fuel h1.downR rfl ?_ hrest ?_
        · exact RB.black (RB.red hu hl) (RB.red hr hsib)
        · exact Path.fill_toList_of_eq rest (by simp [Tree.toList, Frame.fill])
  | @redR p pl kp vp fs _ hsib hfs =>
    obtain ⟨fuel, rfl⟩ : ∃ f', fuel = f' + 1 := ⟨fuel - 1, by
      cases hfs <;> simp only [List.length_cons] at hfuel <;> omega⟩
    cases hfs with
    | @blackL g kg vg u rest _ c₂ _ hu hrest =>
      rw [insertFixup, h.insertRound_L rfl]
      cases c₂ with
      | red =>
        cases hu with
        | @red ua ul uk uv ur _ hul hur =>
        obtain ⟨s1, e1, h1⟩ := h.insertRecolorL
        simp only [Tree.color_node, ↓reduceIte, Tree.ptr_node, e1, Option.map_some']
        simp only [List.length_cons] at hN hfuel
        obtain ⟨s2, T2, e2, h2, hrb2, hL2⟩ := ih (N - 2) (by omega) rest (fuel + 1) s1 g _ _ kg vg
          Color.black (m + 1) (by omega) (by omega) h1
          (RB.black hsib (RB.red hl hr)) (RB.black hul hur) hrest
        exact ⟨s2, T2, e2, h2, hrb2, by
          rw [hL2]; exact Path.fill_toList_of_eq rest (by simp [Tree.toList, Frame.fill, Frame.setColor])⟩
      | black =>
        obtain ⟨s1, e1, h1⟩ := h.insertRotateL_inner
        simp only [hu.color_eq, reduceCtorEq, ↓reduceIte, e1, Option.map_some']
        refine insertFixup_done fuel h1.downL rfl ?_ hrest ?_
        · exact RB.black (RB.red hsib hl) (RB.red hr hu)
        · exact Path.fill_toList_of_eq rest (by simp [Tree.toList, Frame.fill])
    | @blackR g u kg vg rest _ c₂ _ hu hrest =>
      rw [insertFixup, h.insertRound_R rfl]
      cases c₂ with
      | red =>
        cases hu with
        | @red ua ul uk uv ur _ hul hur =>
        obtain ⟨s1, e1, h1⟩ := h.insertRecolorR
        simp only [Tree.color_node, ↓reduceIte, Tree.ptr_node, e1, Option.map_some']
        simp only [List.length_cons] at hN hfuel
        obtain ⟨s2, T2, e2, h2, hrb2, hL2⟩ := ih (N - 2) (by omega) rest (fuel + 1) s1 g _ _ kg vg
          Color.black (m + 1) (by omega) (by omega) h1
          (RB.black hul hur) (RB.black hsib (RB.red hl hr)) hrest
        exact ⟨s2, T2, e2, h2, hrb2, by
          rw [hL2]; exact Path.fill_toList_of_eq rest (by simp [Tree.toList, Frame.fill, Frame.setColor])⟩
      | black =>
        obtain ⟨s1, e1, h1⟩ := h.insertRotateR_outer
        simp only [hu.color_eq, reduceCtorEq, ↓reduceIte, e1, Option.map_some']
        refine insertFixup_done fuel h1.downR rfl (RB.black (RB.red hu hsib) (RB.red hl hr))
          hrest ?_
        exact Path.fill_toList_of_eq rest (by simp [Tree.toList, Frame.fill])


end Rbt

namespace Rbt

variable {K V : Type}

/-! ## Allocating and attaching the new node -/

theorem Models.mono_next {nx : Nat} {sz : Int} {s : RedBlackTree K V} {path : Path K V}
    {t : Tree K V} (h : Models nx sz s path t) (x : Option (Node K V)) :
    Models (nx + 1) sz { s with mem := Function.update s.mem nx x, next := s.next + 1 } path t := by
  have hne : ∀ b ∈ Path.addrs path ++ t.addrs, b ≠ nx := fun b hb => Nat.ne_of_lt (h.bound b hb)
  refine ⟨by simp [h.next_eq], h.size_eq, h.root_eq, ?_, ?_, h.nodup,
    fun a ha => Nat.lt_succ_of_lt (h.bound a ha)⟩
  · exact RepPath.congr_mem (fun b hb => by
      simp [Function.update, hne b (by simp [hb])]) h.onPath
  · exact Rep.congr (fun b hb => by
      simp [Function.update, hne b (by simp [hb])]) h.onTree

theorem Models.makeNode {nx : Nat} {sz : Int} {s : RedBlackTree K V} {path : Path K V}
    {t : Tree K V} (h : Models nx sz s path t) (k : K) (v : V) (c : Color) :
    (MakeNode s k v c).2 = nx ∧ Models (nx + 1) sz (MakeNode s k v c).1 path t ∧
      (MakeNode s k v c).1.mem nx = some { parent := none, left := none, right := none,
                                           key := k, value := v, color := c } ∧
      nx ∉ Path.addrs path ++ t.addrs := by
  refine ⟨h.next_eq, ?_, ?_, fun hm => Nat.lt_irrefl _ (h.bound nx hm)⟩
  · have := h.mono_next (some { parent := none, left := none, right := none,
                                           key := k, value := v, color := c })
    simpa [MakeNode, h.next_eq] using this
  · simp [MakeNode, h.next_eq]

theorem Models.attachL {nx : Nat} {sz : Int} {s : RedBlackTree K V} {path : Path K V}
    {a : Nat} {c : Color} {r : Tree K V} {k' : K} {v' : V} {n : Nat}
    (h : Models nx sz s path (Tree.node a c Tree.nil k' v' r))
    (hf : n ∉ Path.addrs path ++ (Tree.node a c Tree.nil k' v' r).addrs) (hlt : n < nx)
    (k : K) (v : V) :
    Models nx sz ((s.put a { parent := Path.ptr path, left := some n, right := r.ptr,
                             key := k', value := v', color := c }).put n
                    { parent := some a, left := none, right := none, key := k, value := v,
                      color := Color.red })
      (Frame.left a c k' v' r :: path) (Tree.node n Color.red Tree.nil k v Tree.nil) := by
  obtain ⟨h1, h2, h3, h4, h5, h6, h7⟩ := models_iff.1 h
  have hp := Path.addrs_cons_perm (Frame.left a c k' v' r) path
    (Tree.node n Color.red Tree.nil k v Tree.nil)
  have hnd : (Path.addrs (Frame.left a c k' v' r :: path) ++
      (Tree.node n Color.red Tree.nil k v Tree.nil).addrs).Nodup := by
    refine hp.nodup_iff.2 ?_
    simp only [Frame.fill, Tree.addrs, List.nil_append]
    exact List.nodup_middle.2 (List.nodup_cons.2 ⟨by simpa [Tree.addrs] using hf,
      by simpa [Tree.addrs] using h6⟩)
  have hbd : ∀ y ∈ Path.addrs (Frame.left a c k' v' r :: path) ++
      (Tree.node n Color.red Tree.nil k v Tree.nil).addrs, y < nx := by
    intro y hy
    have hy' := hp.mem_iff.1 hy
    simp only [Frame.fill, Tree.addrs, List.nil_append, List.mem_append, List.mem_cons,
      List.not_mem_nil, or_false] at hy'
    rcases hy' with e | e | e | e
    · exact h7 y (by simp [e])
    · exact e ▸ hlt
    · exact h7 y (by simp [Tree.addrs, e])
    · exact h7 y (by simp [Tree.addrs, e])
  simp only [Tree.addrs, Path.addrs, List.nodup_append, List.nodup_cons, List.mem_append,
    List.mem_cons, List.disjoint_append_right, List.disjoint_append_left,
    List.disjoint_cons_right, List.disjoint_cons_left, List.nil_append, List.append_nil,
    List.not_mem_nil, not_false_eq_true, true_and, List.nodup_nil, not_or, Frame.addr_left,
    Frame.sib_left, List.disjoint_nil_right, List.disjoint_nil_left, and_true] at h6 hf
  simp only [Rep, Tree.ptr_nil, Tree.ptr_node, Path.root, true_and] at h3 h4 h5
  refine models_iff.2 ⟨h1, h2, ?_, ?_, ?_, hnd, hbd⟩
  · simp only [RedBlackTree.root_put, h3, Path.root, Frame.addr_left]
  · simp only [RepPath, Rep.put_iff, RepPath.put_path_iff, Frame.addr_left, Frame.sib_left,
      Frame.node_left, Path.ptr_cons, Tree.ptr_node, RedBlackTree.mem_put_same,
      RedBlackTree.mem_put_ne, RedBlackTree.mem_put_ne', ne_eq, not_false_eq_true, h4, h5, h6, hf,
      and_self, and_true, true_and]
  · simp only [Rep, Tree.ptr_nil, Path.ptr_cons, Frame.addr_left, RedBlackTree.mem_put_same,
      and_self]

theorem Models.attachR {nx : Nat} {sz : Int} {s : RedBlackTree K V} {path : Path K V}
    {a : Nat} {c : Color} {l : Tree K V} {k' : K} {v' : V} {n : Nat}
    (h : Models nx sz s path (Tree.node a c l k' v' Tree.nil))
    (hf : n ∉ Path.addrs path ++ (Tree.node a c l k' v' Tree.nil).addrs) (hlt : n < nx)
    (k : K) (v : V) :
    Models nx sz ((s.put a { parent := Path.ptr path, left := l.ptr, right := some n,
                             key := k', value := v', color := c }).put n
                    { parent := some a, left := none, right := none, key := k, value := v,
                      color := Color.red })
      (Frame.right a c l k' v' :: path) (Tree.node n Color.red Tree.nil k v Tree.nil) := by
  obtain ⟨h1, h2, h3, h4, h5, h6, h7⟩ := models_iff.1 h
  have hp := Path.addrs_cons_perm (Frame.right a c l k' v') path
    (Tree.node n Color.red Tree.nil k v Tree.nil)
  have hnd : (Path.addrs (Frame.right a c l k' v' :: path) ++
      (Tree.node n Color.red Tree.nil k v Tree.nil).addrs).Nodup := by
    refine hp.nodup_iff.2 ?_
    simp only [Frame.fill, Tree.addrs, List.nil_append]
    have h6' : (Path.addrs path ++ (l.addrs ++ [a])).Nodup := by simpa [Tree.addrs] using h6
    have hf' : n ∉ Path.addrs path ++ (l.addrs ++ [a]) := by simpa [Tree.addrs] using hf
    have h8 : ((Path.addrs path ++ (l.addrs ++ [a])) ++ [n]).Nodup :=
      List.nodup_append_comm.1 (List.nodup_cons.2 ⟨hf', h6'⟩)
    simpa [List.append_assoc] using h8
  have hbd : ∀ y ∈ Path.addrs (Frame.right a c l k' v' :: path) ++
      (Tree.node n Color.red Tree.nil k v Tree.nil).addrs, y < nx := by
    intro y hy
    have hy' := hp.mem_iff.1 hy
    simp only [Frame.fill, Tree.addrs, List.nil_append, List.mem_append, List.mem_cons,
      List.not_mem_nil, or_false] at hy'
    rcases hy' with e | e | e | e
    · exact h7 y (by simp [e])
    · exact h7 y (by simp [Tree.addrs, e])
    · exact h7 y (by simp [Tree.addrs, e])
    · exact e ▸ hlt
  simp only [Tree.addrs, Path.addrs, List.nodup_append, List.nodup_cons, List.mem_append,
    List.mem_cons, List.disjoint_append_right, List.disjoint_append_left,
    List.disjoint_cons_right, List.disjoint_cons_left, List.nil_append, List.append_nil,
    List.not_mem_nil, not_false_eq_true, true_and, List.nodup_nil, not_or, Frame.addr_right,
    Frame.sib_right, List.disjoint_nil_right, List.disjoint_nil_left, and_true] at h6 hf
  simp only [Rep, Tree.ptr_nil, Tree.ptr_node, Path.root, true_and, and_true] at h3 h4 h5
  refine models_iff.2 ⟨h1, h2, ?_, ?_, ?_, hnd, hbd⟩
  · simp only [RedBlackTree.root_put, h3, Path.root, Frame.addr_right]
  · simp only [RepPath, Rep.put_iff, RepPath.put_path_iff, Frame.addr_right, Frame.sib_right,
      Frame.node_right, Path.ptr_cons, Tree.ptr_node, RedBlackTree.mem_put_same,
      RedBlackTree.mem_put_ne, RedBlackTree.mem_put_ne', ne_eq, not_false_eq_true, h4, h5, h6, hf,
      and_self, and_true, true_and]
  · simp only [Rep, Tree.ptr_nil, Path.ptr_cons, Frame.addr_right, RedBlackTree.mem_put_same,
      and_self]

/-! ## The descent of `Insert` -/

theorem insertLoop_spec [LinearOrder K] {nx : Nat} {sz : Int} (k : K) (v : V) (n : Nat) :
    ∀ (t : Tree K V) (path : Path K V) (fuel : Nat) (s : RedBlackTree K V) (a : Nat),
      Models nx sz s path t → t.ptr = some a → t.height ≤ fuel →
      s.mem n = some { parent := none, left := none, right := none, key := k, value := v,
                       color := Color.red } →
      n ∉ Path.addrs path ++ t.addrs → n < nx →
      (∀ path', t.zoom k path = (path', Tree.nil) →
        ∃ s1 cur s2, insertLoop k v n fuel s a = some (Descent.attached s1 cur) ∧
          s1.modify (some n) (fun x => { x with parent := some cur }) = some s2 ∧
          Models nx sz s2 path' (Tree.node n Color.red Tree.nil k v Tree.nil)) ∧
      (∀ path' b c l k' v' r, t.zoom k path = (path', Tree.node b c l k' v' r) →
        ∃ s1, insertLoop k v n fuel s a = some (Descent.updated s1) ∧
          Models nx sz s1 path' (Tree.node b c l k' v r)) := by
  intro t
  induction t with
  | nil => intro path fuel s a _ hp; simp at hp
  | node a0 c0 l0 k0 v0 r0 ihl ihr =>
    intro path fuel s a h hp hfuel hn hfresh hlt
    simp only [Tree.ptr_node, Option.some.injEq] at hp
    subst hp
    obtain ⟨fuel, rfl⟩ : ∃ f', fuel = f' + 1 := ⟨fuel - 1, by
      simp only [Tree.height] at hfuel; omega⟩
    simp only [Tree.height, Nat.add_le_add_iff_right, max_le_iff] at hfuel
    have hna : n ≠ a0 := by
      rintro rfl; exact hfresh (by simp [Tree.addrs])
    simp only [Tree.zoom, insertLoop, h.mem_focus, gt_iff_lt]
    by_cases h1 : k < k0
    · simp only [h1, ↓reduceIte]
      cases l0 with
      | nil =>
        simp only [Tree.ptr_nil, Tree.zoom, Prod.mk.injEq, reduceCtorEq, and_false, false_imp_iff,
          implies_true, and_true]
        rintro path' ⟨rfl, -⟩
        refine ⟨_, _, _, rfl, ?_, h.attachL hfresh hlt k v⟩
        simp only [RedBlackTree.modify_some, RedBlackTree.mem_put_ne _ _ hna, hn, Option.map_some']
      | node b cb lb kb vb rb =>
        simp only [Tree.ptr_node]
        refine ihl _ fuel s b h.downL rfl hfuel.1 hn (fun hm => hfresh ?_) hlt
        exact (Path.addrs_cons_perm (Frame.left a0 c0 k0 v0 r0) path _).mem_iff.1 hm
    · simp only [h1, ↓reduceIte]
      by_cases h2 : k0 < k
      · simp only [h2, ↓reduceIte]
        cases r0 with
        | nil =>
          simp only [Tree.ptr_nil, Tree.zoom, Prod.mk.injEq, reduceCtorEq, and_false, false_imp_iff,
            implies_true, and_true]
          rintro path' ⟨rfl, -⟩
          refine ⟨_, _, _, rfl, ?_, h.attachR hfresh hlt k v⟩
          simp only [RedBlackTree.modify_some, RedBlackTree.mem_put_ne _ _ hna, hn,
            Option.map_some']
        | node b cb lb kb vb rb =>
          simp only [Tree.ptr_node]
          refine ihr _ fuel s b h.downR rfl hfuel.2 hn (fun hm => hfresh ?_) hlt
          exact (Path.addrs_cons_perm (Frame.right a0 c0 l0 k0 v0) path _).mem_iff.1 hm
      · simp only [h2, ↓reduceIte, Prod.mk.injEq, reduceCtorEq, and_false, false_imp_iff,
          implies_true, true_and, Tree.node.injEq]
        rintro path' b c l k' v' r ⟨rfl, rfl, rfl, rfl, rfl, rfl, rfl⟩
        exact ⟨_, rfl, h.put_focus _ _ _⟩


/-! ## The descent on trees -/

theorem Tree.zoom_fill [LinearOrder K] (k : K) :
    ∀ (t : Tree K V) (path : Path K V),
      Path.fill (t.zoom k path).1 (t.zoom k path).2 = Path.fill path t := by
  intro t
  induction t with
  | nil => intro path; rfl
  | node a c l k' v r ihl ihr =>
    intro path
    simp only [Tree.zoom]
    split
    · rw [ihl]; rfl
    · split
      · rw [ihr]; rfl
      · rfl

theorem Tree.zoom_length [LinearOrder K] (k : K) :
    ∀ (t : Tree K V) (path : Path K V),
      (t.zoom k path).1.length + (t.zoom k path).2.height ≤ path.length + t.height := by
  intro t
  induction t with
  | nil => intro path; simp [Tree.zoom]
  | node a c l k' v r ihl ihr =>
    intro path
    simp only [Tree.zoom]
    split
    · have := ihl (Frame.left a c k' v r :: path)
      simp only [List.length_cons, Tree.height] at this ⊢
      omega
    · split
      · have := ihr (Frame.right a c l k' v :: path)
        simp only [List.length_cons, Tree.height] at this ⊢
        omega
      · exact le_rfl

theorem Tree.zoom_rb [LinearOrder K] (k : K) :
    ∀ (t : Tree K V) (path : Path K V) (c : Color) (m : Nat), RB t c m → PathRB path c m →
      ∃ c' m', RB (t.zoom k path).2 c' m' ∧ PathRB (t.zoom k path).1 c' m' := by
  intro t
  induction t with
  | nil => intro path c m ht hp; exact ⟨c, m, ht, hp⟩
  | node a c0 l k' v r ihl ihr =>
    intro path c m ht hp
    simp only [Tree.zoom]
    split
    · cases ht with
      | red hl hr => exact ihl _ _ _ hl (PathRB.redL hr hp)
      | black hl hr => exact ihl _ _ _ hl (PathRB.blackL hr hp)
    · split
      · cases ht with
        | red hl hr => exact ihr _ _ _ hr (PathRB.redR hl hp)
        | black hl hr => exact ihr _ _ _ hr (PathRB.blackR hl hp)
      · exact ⟨c, m, ht, hp⟩

/-! ## `Insert` -/

theorem Models.setSize {nx : Nat} {sz : Int} {s : RedBlackTree K V} {path : Path K V}
    {t : Tree K V} (h : Models nx sz s path t) (sz' : Int) :
    Models nx sz' { s with size := sz' } path t :=
  ⟨h.next_eq, rfl, h.root_eq, h.onPath, h.onTree, h.nodup, h.bound⟩

theorem Models.attachRoot {nx : Nat} {sz : Int} {s : RedBlackTree K V} {n : Nat} {k : K} {v : V}
    (h : Models nx sz s [] Tree.nil)
    (hn : s.mem n = some { parent := none, left := none, right := none, key := k, value := v,
                           color := Color.red }) (hlt : n < nx) :
    Models nx sz { s with root := some n } [] (Tree.node n Color.red Tree.nil k v Tree.nil) := by
  refine ⟨h.next_eq, h.size_eq, rfl, trivial, ⟨hn, trivial, trivial⟩, by simp [Path.addrs, Tree.addrs],
    by simpa [Path.addrs, Tree.addrs] using hlt⟩

theorem RB.setValue {a : Nat} {c c' : Color} {l r : Tree K V} {k : K} {v : V} {m : Nat}
    (h : RB (Tree.node a c l k v r) c' m) (v' : V) : RB (Tree.node a c l k v' r) c' m := by
  cases h with
  | red hl hr => exact RB.red hl hr
  | black hl hr => exact RB.black hl hr

theorem Insert_spec [LinearOrder K] {nx : Nat} {sz : Int} {s : RedBlackTree K V} {T : Tree K V}
    {m : Nat} (h : Models nx sz s [] T) (hrb : RB T Color.black m) (k : K) (v : V) (fuel : Nat)
    (hfuel : T.height < fuel) :
    (∀ path', T.zoom k [] = (path', Tree.nil) →
      ∃ s' T', s.Insert fuel k v = some s' ∧ Models (nx + 1) (sz + 1) s' [] T' ∧
        (∃ m', RB T' Color.black m') ∧
        T'.toList = (Path.fill path' (Tree.node nx Color.red Tree.nil k v Tree.nil)).toList) ∧
    (∀ path' b c l k' v' r, T.zoom k [] = (path', Tree.node b c l k' v' r) →
      ∃ s', s.Insert fuel k v = some s' ∧
        Models (nx + 1) sz s' [] (Path.fill path' (Tree.node b c l k' v r)) ∧
        (∃ m', RB (Path.fill path' (Tree.node b c l k' v r)) Color.black m')) := by
  obtain ⟨hn, h0, hm, hfr⟩ := h.makeNode k v Color.red
  have hsz := h0.size_eq
  simp only [RedBlackTree.Insert]
  generalize MakeNode s k v Color.red = p at hn h0 hm hfr hsz
  obtain ⟨s0, n⟩ := p
  simp only at hn h0 hm hfr hsz
  subst hn
  have hroot := h0.root_eq
  simp only [Path.root] at hroot
  obtain ⟨c1, m1, hz1, hz2⟩ := Tree.zoom_rb k T [] _ _ hrb PathRB.root
  have hlen := Tree.zoom_length k T []
  cases T with
  | nil =>
    simp only [Tree.ptr_nil] at hroot
    simp only [hroot, Tree.zoom, Prod.mk.injEq, reduceCtorEq, and_false, false_imp_iff,
      implies_true, and_true]
    rintro path' ⟨rfl, -⟩
    obtain ⟨s1, T1, e1, h1, hrb1, hL1⟩ := insertFixup_spec 0 [] fuel _ n Tree.nil Tree.nil k v
      Color.black 0 (le_refl _) (by simpa using Nat.lt_of_le_of_lt (Nat.zero_le _) hfuel)
      (h0.attachRoot hm (Nat.lt_succ_self _)) RB.nil RB.nil PathRB.root
    refine ⟨_, T1, by simp only [e1]; rfl, ?_, hrb1, hL1⟩
    have := h1.setSize (sz + 1)
    rw [h1.size_eq]
    exact this
  | node r0 cr lr kr vr rr =>
    simp only [Tree.ptr_node] at hroot
    simp only [hroot]
    have hspec := insertLoop_spec k v n (Tree.node r0 cr lr kr vr rr) [] fuel s0 r0 h0 rfl
      (Nat.le_of_lt hfuel) hm hfr (Nat.lt_succ_self _)
    constructor
    · intro path' hz
      obtain ⟨s1, cur, s2, e1, e2, h2⟩ := hspec.1 path' hz
      rw [hz] at hz1 hz2 hlen
      cases hz1
      simp only [Tree.height, List.length_nil] at hlen hfuel
      obtain ⟨s3, T3, e3, h3, hrb3, hL3⟩ := insertFixup_spec path'.length path' fuel s2 n Tree.nil
        Tree.nil k v Color.black 0 (le_refl _) (by omega) h2 RB.nil RB.nil hz2
      refine ⟨_, T3, by simp only [e1, e2, e3]; rfl, ?_, hrb3, hL3⟩
      have := h3.setSize (sz + 1)
      rw [h3.size_eq]
      exact this
    · intro path' b c l k' v' r hz
      obtain ⟨s1, e1, h1⟩ := hspec.2 path' b c l k' v' r hz
      rw [hz] at hz1 hz2
      exact ⟨s1, by simp only [e1], h1.top, hz2.fill (hz1.setValue v)⟩


end Rbt

namespace Rbt

variable {K V : Type}

/-! ## The cases of `deleteFixup` -/

theorem Models.color_focus {nx : Nat} {sz : Int} {s : RedBlackTree K V}
    {path : Path K V} {t : Tree K V} (h : Models nx sz s path t) :
    s.Color t.ptr = some t.color := by
  cases t with
  | nil => rfl
  | node n c l k v r =>
    simp only [RedBlackTree.Color, Tree.ptr_node, h.mem_focus, Option.map_some', Tree.color_node]

theorem Models.bothChildrenBlack {nx : Nat} {sz : Int} {s : RedBlackTree K V}
    {path : Path K V} {w : Nat} {cw : Color} {wl wr : Tree K V} {kw : K} {vw : V}
    (h : Models nx sz s path (Tree.node w cw wl kw vw wr)) :
    s.bothChildrenBlack (some w) =
      some (decide (wl.color = Color.black ∧ wr.color = Color.black)) := by
  simp only [RedBlackTree.bothChildrenBlack, RedBlackTree.get_some, h.mem_focus,
    Option.bind_eq_bind, Option.some_bind, h.downL.color_focus, h.downR.color_focus]
  by_cases h1 : wl.color = Color.black
  · simp only [h1, ↓reduceIte, Option.some_bind, true_and]
  · simp only [h1, ↓reduceIte, false_and, decide_False]

theorem Models.deleteCase2L {nx : Nat} {sz : Int} {s : RedBlackTree K V}
    {path : Path K V} {p w : Nat} {cp cw : Color} {x wl wr : Tree K V} {kp kw : K} {vp vw : V}
    (h : Models nx sz s path (Tree.node p cp x kp vp (Tree.node w cw wl kw vw wr))) :
    ∃ s', s.deleteCase2 (some w) (some p) = some (s', some p, Path.ptr path) ∧
      Models nx sz s' path (Tree.node p cp x kp vp (Tree.node w Color.red wl kw vw wr)) := by
  obtain ⟨s1, e1, h1⟩ := h.downR.setColor_focus Color.red
  refine ⟨s1, ?_, h1.upR⟩
  simp only [RedBlackTree.deleteCase2, e1, Option.bind_eq_bind, Option.some_bind,
    RedBlackTree.get_some, h1.upR.mem_focus]

theorem Models.deleteCase2R {nx : Nat} {sz : Int} {s : RedBlackTree K V}
    {path : Path K V} {p w : Nat} {cp cw : Color} {x wl wr : Tree K V} {kp kw : K} {vp vw : V}
    (h : Models nx sz s path (Tree.node p cp (Tree.node w cw wl kw vw wr) kp vp x)) :
    ∃ s', s.deleteCase2 (some w) (some p) = some (s', some p, Path.ptr path) ∧
      Models nx sz s' path (Tree.node p cp (Tree.node w Color.red wl kw vw wr) kp vp x) := by
  obtain ⟨s1, e1, h1⟩ := h.downL.setColor_focus Color.red
  refine ⟨s1, ?_, h1.upL⟩
  simp only [RedBlackTree.deleteCase2, e1, Option.bind_eq_bind, Option.some_bind,
    RedBlackTree.get_some, h1.upL.mem_focus]

theorem Models.deleteCase1L {nx : Nat} {sz : Int} {s : RedBlackTree K V}
    {path : Path K V} {p w : Nat} {cp cw : Color} {x wl wr : Tree K V} {kp kw : K} {vp vw : V}
    (h : Models nx sz s path (Tree.node p cp x kp vp (Tree.node w cw wl kw vw wr))) :
    ∃ s', s.deleteCase1L (some p) (some w) = some (s', wl.ptr) ∧
      Models nx sz s' path
        (Tree.node w Color.black (Tree.node p Color.red x kp vp wl) kw vw wr) := by
  obtain ⟨s1, e1, h1⟩ := h.downR.setColor_focus Color.black
  obtain ⟨s2, e2, h2⟩ := h1.upR.setColor_focus Color.red
  obtain ⟨s3, e3, h3⟩ := h2.leftRotate_focus
  refine ⟨s3, ?_, h3⟩
  simp only [RedBlackTree.deleteCase1L, e1, e2, e3, Option.bind_eq_bind, Option.some_bind,
    RedBlackTree.get_some, h3.downL.mem_focus]

theorem Models.deleteCase1R {nx : Nat} {sz : Int} {s : RedBlackTree K V}
    {path : Path K V} {p w : Nat} {cp cw : Color} {x wl wr : Tree K V} {kp kw : K} {vp vw : V}
    (h : Models nx sz s path (Tree.node p cp (Tree.node w cw wl kw vw wr) kp vp x)) :
    ∃ s', s.deleteCase1R (some p) (some w) = some (s', wr.ptr) ∧
      Models nx sz s' path
        (Tree.node w Color.black wl kw vw (Tree.node p Color.red wr kp vp x)) := by
  obtain ⟨s1, e1, h1⟩ := h.downL.setColor_focus Color.black
  obtain ⟨s2, e2, h2⟩ := h1.upL.setColor_focus Color.red
  obtain ⟨s3, e3, h3⟩ := h2.rightRotate_focus
  refine ⟨s3, ?_, h3⟩
  simp only [RedBlackTree.deleteCase1R, e1, e2, e3, Option.bind_eq_bind, Option.some_bind,
    RedBlackTree.get_some, h3.downR.mem_focus]

theorem Models.deleteCase3L {nx : Nat} {sz : Int} {s : RedBlackTree K V}
    {path : Path K V} {p w a : Nat} {cp cw ca : Color} {x al ar wr : Tree K V} {kp kw ka : K}
    {vp vw va : V}
    (h : Models nx sz s path
      (Tree.node p cp x kp vp (Tree.node w cw (Tree.node a ca al ka va ar) kw vw wr))) :
    ∃ s', s.deleteCase3L (some p) (some w) = some (s', some a) ∧
      Models nx sz s' path (Tree.node p cp x kp vp
        (Tree.node a Color.black al ka va (Tree.node w Color.red ar kw vw wr))) := by
  obtain ⟨s1, e1, h1⟩ := h.downR.downL.setColor_focus Color.black
  obtain ⟨s2, e2, h2⟩ := h1.upL.setColor_focus Color.red
  obtain ⟨s3, e3, h3⟩ := h2.rightRotate_focus
  refine ⟨s3, ?_, h3.upR⟩
  simp only [RedBlackTree.deleteCase3L, e1, e2, e3, Option.bind_eq_bind, Option.some_bind,
    RedBlackTree.get_some, h.downR.mem_focus, Tree.ptr_node, h3.upR.mem_focus]

theorem Models.deleteCase3R {nx : Nat} {sz : Int} {s : RedBlackTree K V}
    {path : Path K V} {p w a : Nat} {cp cw ca : Color} {x al ar wl : Tree K V} {kp kw ka : K}
    {vp vw va : V}
    (h : Models nx sz s path
      (Tree.node p cp (Tree.node w cw wl kw vw (Tree.node a ca al ka va ar)) kp vp x)) :
    ∃ s', s.deleteCase3R (some p) (some w) = some (s', some a) ∧
      Models nx sz s' path (Tree.node p cp
        (Tree.node a Color.black (Tree.node w Color.red wl kw vw al) ka va ar) kp vp x) := by
  obtain ⟨s1, e1, h1⟩ := h.downL.downR.setColor_focus Color.black
  obtain ⟨s2, e2, h2⟩ := h1.upR.setColor_focus Color.red
  obtain ⟨s3, e3, h3⟩ := h2.leftRotate_focus
  refine ⟨s3, ?_, h3.upL⟩
  simp only [RedBlackTree.deleteCase3R, e1, e2, e3, Option.bind_eq_bind, Option.some_bind,
    RedBlackTree.get_some, h.downL.mem_focus, Tree.ptr_node, h3.upL.mem_focus]

theorem Models.deleteCase4L {nx : Nat} {sz : Int} {s : RedBlackTree K V}
    {path : Path K V} {p w a : Nat} {cp cw ca : Color} {x wl al ar : Tree K V} {kp kw ka : K}
    {vp vw va : V}
    (h : Models nx sz s path
      (Tree.node p cp x kp vp (Tree.node w cw wl kw vw (Tree.node a ca al ka va ar)))) :
    ∃ s', s.deleteCase4L (some p) (some w) = some s' ∧
      Models nx sz s' path (Tree.node w cp (Tree.node p Color.black x kp vp wl) kw vw
        (Tree.node a Color.black al ka va ar)) := by
  obtain ⟨s1, e1, h1⟩ := h.downR.setColor_focus cp
  obtain ⟨s2, e2, h2⟩ := h1.upR.setColor_focus Color.black
  obtain ⟨s3, e3, h3⟩ := h2.downR.downR.setColor_focus Color.black
  obtain ⟨s4, e4, h4⟩ := h3.upR.upR.leftRotate_focus
  refine ⟨s4, ?_, h4⟩
  simp only [RedBlackTree.deleteCase4L, e1, e2, e3, e4, Option.bind_eq_bind, Option.some_bind,
    RedBlackTree.get_some, h.mem_focus, h2.downR.mem_focus, Tree.ptr_node]

theorem Models.deleteCase4R {nx : Nat} {sz : Int} {s : RedBlackTree K V}
    {path : Path K V} {p w a : Nat} {cp cw ca : Color} {x wr al ar : Tree K V} {kp kw ka : K}
    {vp vw va : V}
    (h : Models nx sz s path
      (Tree.node p cp (Tree.node w cw (Tree.node a ca al ka va ar) kw vw wr) kp vp x)) :
    ∃ s', s.deleteCase4R (some p) (some w) = some s' ∧
      Models nx sz s' path (Tree.node w cp (Tree.node a Color.black al ka va ar) kw vw
        (Tree.node p Color.black wr kp vp x)) := by
  obtain ⟨s1, e1, h1⟩ := h.downL.setColor_focus cp
  obtain ⟨s2, e2, h2⟩ := h1.upL.setColor_focus Color.black
  obtain ⟨s3, e3, h3⟩ := h2.downL.downL.setColor_focus Color.black
  obtain ⟨s4, e4, h4⟩ := h3.upL.upL.rightRotate_focus
  refine ⟨s4, ?_, h4⟩
  simp only [RedBlackTree.deleteCase4R, e1, e2, e3, e4, Option.bind_eq_bind, Option.some_bind,
    RedBlackTree.get_some, h.mem_focus, h2.downL.mem_focus, Tree.ptr_node]

/-- Cases 2 to 4 on the left under a black sibling: either the sibling turns
red and the position moves up (case 2), or the subtree is repaired (cases 3, 4). -/
theorem Models.deleteCases24L_rb {nx : Nat} {sz : Int} {s : RedBlackTree K V}
    {path : Path K V} {p w : Nat} {cp : Color} {x wl wr : Tree K V} {kp kw : K} {vp vw : V}
    {c1 c2 : Color} {m : Nat}
    (h : Models nx sz s path (Tree.node p cp x kp vp (Tree.node w Color.black wl kw vw wr)))
    (hx : RB x Color.black m) (hwl : RB wl c1 m) (hwr : RB wr c2 m) :
    (c1 = Color.black ∧ c2 = Color.black ∧
      ∃ s', s.deleteCases24L (some p) (some w) = some (s', some p, Path.ptr path) ∧
        Models nx sz s' path (Tree.node p cp x kp vp (Tree.node w Color.red wl kw vw wr))) ∨
    (∃ s' a l k v r, s.deleteCases24L (some p) (some w) = some (s', s'.root, some p) ∧
        Models nx sz s' path (Tree.node a cp l k v r) ∧
        RB l Color.black (m + 1) ∧ RB r Color.black (m + 1) ∧
        (Tree.node a cp l k v r).toList =
          (Tree.node p cp x kp vp (Tree.node w Color.black wl kw vw wr)).toList) := by
  have hb := h.downR.bothChildrenBlack
  have hcr := h.downR.downR.color_focus
  have hw := h.downR.mem_focus
  cases c2 with
  | red =>
    right
    cases hwr with
    | @red a al ka va ar _ hal har =>
    obtain ⟨s1, e1, h1⟩ := h.deleteCase4L
    refine ⟨s1, _, _, _, _, _, ?_, h1, RB.black hx hwl, RB.black hal har, by simp [Tree.toList]⟩
    simp only [RedBlackTree.deleteCases24L, hb, Tree.color_node, reduceCtorEq, and_false, decide_False,
      Option.bind_eq_bind, Option.some_bind, Bool.false_eq_true, ↓reduceIte,
      RedBlackTree.get_some, hw, hcr, e1]
  | black =>
    cases c1 with
    | red =>
      right
      cases hwl with
      | @red a al ka va ar _ hal har =>
      obtain ⟨s1, e1, h1⟩ := h.deleteCase3L
      obtain ⟨s2, e2, h2⟩ := h1.deleteCase4L
      refine ⟨s2, _, _, _, _, _, ?_, h2, RB.black hx hal, RB.black har hwr, by simp [Tree.toList]⟩
      simp only [RedBlackTree.deleteCases24L, hb, Tree.color_node, reduceCtorEq, false_and,
        decide_False, Option.bind_eq_bind, Option.some_bind, Bool.false_eq_true, ↓reduceIte,
        RedBlackTree.get_some, hw, hcr, hwr.color_eq, e1, e2]
    | black =>
      left
      obtain ⟨s1, e1, h1⟩ := h.deleteCase2L
      refine ⟨rfl, rfl, s1, ?_, h1⟩
      simp only [RedBlackTree.deleteCases24L, hb, hwl.color_eq, hwr.color_eq, and_self,
        decide_True, Option.bind_eq_bind, Option.some_bind, ↓reduceIte, e1]

theorem Models.deleteCases24R_rb {nx : Nat} {sz : Int} {s : RedBlackTree K V}
    {path : Path K V} {p w : Nat} {cp : Color} {x wl wr : Tree K V} {kp kw : K} {vp vw : V}
    {c1 c2 : Color} {m : Nat}
    (h : Models nx sz s path (Tree.node p cp (Tree.node w Color.black wl kw vw wr) kp vp x))
    (hx : RB x Color.black m) (hwl : RB wl c1 m) (hwr : RB wr c2 m) :
    (c1 = Color.black ∧ c2 = Color.black ∧
      ∃ s', s.deleteCases24R (some p) (some w) = some (s', some p, Path.ptr path) ∧
        Models nx sz s' path (Tree.node p cp (Tree.node w Color.red wl kw vw wr) kp vp x)) ∨
    (∃ s' a l k v r, s.deleteCases24R (some p) (some w) = some (s', s'.root, some p) ∧
        Models nx sz s' path (Tree.node a cp l k v r) ∧
        RB l Color.black (m + 1) ∧ RB r Color.black (m + 1) ∧
        (Tree.node a cp l k v r).toList =
          (Tree.node p cp (Tree.node w Color.black wl kw vw wr) kp vp x).toList) := by
  have hb := h.downL.bothChildrenBlack
  have hcl := h.downL.downL.color_focus
  have hw := h.downL.mem_focus
  cases c1 with
  | red =>
    right
    cases hwl with
    | @red a al ka va ar _ hal har =>
    obtain ⟨s1, e1, h1⟩ := h.deleteCase4R
    refine ⟨s1, _, _, _, _, _, ?_, h1, RB.black hal har, RB.black hwr hx, by simp [Tree.toList]⟩
    simp only [RedBlackTree.deleteCases24R, hb, Tree.color_node, reduceCtorEq, false_and, decide_False,
      Option.bind_eq_bind, Option.some_bind, Bool.false_eq_true, ↓reduceIte,
      RedBlackTree.get_some, hw, hcl, e1]
  | black =>
    cases c2 with
    | red =>
      right
      cases hwr with
      | @red a al ka va ar _ hal har =>
      obtain ⟨s1, e1, h1⟩ := h.deleteCase3R
      obtain ⟨s2, e2, h2⟩ := h1.deleteCase4R
      refine ⟨s2, _, _, _, _, _, ?_, h2, RB.black hwl hal, RB.black har hx, by simp [Tree.toList]⟩
      simp only [RedBlackTree.deleteCases24R, hb, Tree.color_node, reduceCtorEq, and_false,
        decide_False, Option.bind_eq_bind, Option.some_bind, Bool.false_eq_true, ↓reduceIte,
        RedBlackTree.get_some, hw, hcl, hwl.color_eq, e1, e2]
    | black =>
      left
      obtain ⟨s1, e1, h1⟩ := h.deleteCase2R
      refine ⟨rfl, rfl, s1, ?_, h1⟩
      simp only [RedBlackTree.deleteCases24R, hb, hwl.color_eq, hwr.color_eq, and_self,
        decide_True, Option.bind_eq_bind, Option.some_bind, ↓reduceIte, e1]


theorem Models.deleteFixLeft_black {nx : Nat} {sz : Int} {s : RedBlackTree K V}
    {path : Path K V} {p w : Nat} {cp : Color} {x wl wr : Tree K V} {kp kw : K} {vp vw : V}
    (h : Models nx sz s path (Tree.node p cp x kp vp (Tree.node w Color.black wl kw vw wr))) :
    s.deleteFixLeft (some p) = s.deleteCases24L (some p) (some w) := by
  simp only [RedBlackTree.deleteFixLeft, RedBlackTree.get_some, h.mem_focus, Option.bind_eq_bind,
    Option.some_bind, Tree.ptr_node, h.downR.mem_focus, reduceCtorEq, ↓reduceIte]

theorem Models.deleteFixLeft_red {nx : Nat} {sz : Int} {s : RedBlackTree K V}
    {path : Path K V} {p w : Nat} {cp : Color} {x wl wr : Tree K V} {kp kw : K} {vp vw : V}
    (h : Models nx sz s path (Tree.node p cp x kp vp (Tree.node w Color.red wl kw vw wr))) :
    ∃ s1, s.deleteFixLeft (some p) = s1.deleteCases24L (some p) wl.ptr ∧
      Models nx sz s1 path
        (Tree.node w Color.black (Tree.node p Color.red x kp vp wl) kw vw wr) := by
  obtain ⟨s1, e1, h1⟩ := h.deleteCase1L
  refine ⟨s1, ?_, h1⟩
  simp only [RedBlackTree.deleteFixLeft, RedBlackTree.get_some, h.mem_focus, Option.bind_eq_bind,
    Option.some_bind, Tree.ptr_node, h.downR.mem_focus, ↓reduceIte, e1]

theorem Models.deleteFixRight_black {nx : Nat} {sz : Int} {s : RedBlackTree K V}
    {path : Path K V} {p w : Nat} {cp : Color} {x wl wr : Tree K V} {kp kw : K} {vp vw : V}
    (h : Models nx sz s path (Tree.node p cp (Tree.node w Color.black wl kw vw wr) kp vp x)) :
    s.deleteFixRight (some p) = s.deleteCases24R (some p) (some w) := by
  have hc := h.downL.color_focus
  simp only [Tree.ptr_node, Tree.color_node] at hc
  simp only [RedBlackTree.deleteFixRight, RedBlackTree.get_some, h.mem_focus,
    Option.bind_eq_bind, Option.some_bind, Tree.ptr_node, hc, reduceCtorEq, ↓reduceIte]

theorem Models.deleteFixRight_red {nx : Nat} {sz : Int} {s : RedBlackTree K V}
    {path : Path K V} {p w : Nat} {cp : Color} {x wl wr : Tree K V} {kp kw : K} {vp vw : V}
    (h : Models nx sz s path (Tree.node p cp (Tree.node w Color.red wl kw vw wr) kp vp x)) :
    ∃ s1, s.deleteFixRight (some p) = s1.deleteCases24R (some p) wr.ptr ∧
      Models nx sz s1 path
        (Tree.node w Color.black wl kw vw (Tree.node p Color.red wr kp vp x)) := by
  obtain ⟨s1, e1, h1⟩ := h.deleteCase1R
  refine ⟨s1, ?_, h1⟩
  have hc := h.downL.color_focus
  simp only [Tree.ptr_node, Tree.color_node] at hc
  simp only [RedBlackTree.deleteFixRight, RedBlackTree.get_some, h.mem_focus,
    Option.bind_eq_bind, Option.some_bind, Tree.ptr_node, hc, ↓reduceIte, e1]

/-! ## `deleteFixup` -/

theorem Path.root_isSome (fs : Path K V) (a : Nat) : Path.root fs (some a) ≠ none := by
  induction fs generalizing a with
  | nil => simp [Path.root]
  | cons f fs ih => exact ih f.addr

theorem Models.ptr_ne_root {nx : Nat} {sz : Int} {s : RedBlackTree K V} {f : Frame K V}
    {fs : Path K V} {x : Tree K V} (h : Models nx sz s (f :: fs) x) :
    (x.ptr = s.root) = False := by
  cases x with
  | nil =>
    simp only [Tree.ptr_nil, eq_iff_iff, iff_false]
    intro e
    have hr := h.root_eq
    rw [← e] at hr
    exact Path.root_isSome fs f.addr hr.symm
  | node n c l k v r => exact h.root_ne_focus

theorem Models.deleteFixup_exit_root {nx : Nat} {sz : Int} {s : RedBlackTree K V}
    {T : Tree K V} (fuel : Nat) (par : Ptr) (h : Models nx sz s [] T) :
    ∃ s', deleteFixup (fuel + 1) s s.root par = some s' ∧
      Models nx sz s' [] (T.setColor Color.black) := by
  have hr := h.root_eq
  simp only [Path.root] at hr
  cases T with
  | nil =>
    simp only [Tree.ptr_nil] at hr
    exact ⟨s, by simp only [deleteFixup, RedBlackTree.deleteRound, hr, ↓reduceIte,
      RedBlackTree.blackenNode], h⟩
  | node a c l k v r =>
    simp only [Tree.ptr_node] at hr
    obtain ⟨s1, e1, h1⟩ := h.setColor_focus Color.black
    exact ⟨s1, by simp only [deleteFixup, RedBlackTree.deleteRound, hr, ↓reduceIte,
      RedBlackTree.blackenNode, e1], h1⟩

theorem Models.deleteFixup_exit_red {nx : Nat} {sz : Int} {s : RedBlackTree K V}
    {path : Path K V} {n : Nat} {l r : Tree K V} {k : K} {v : V} (fuel : Nat) (par : Ptr)
    (h : Models nx sz s path (Tree.node n Color.red l k v r)) :
    ∃ s', deleteFixup (fuel + 1) s (some n) par = some s' ∧
      Models nx sz s' path (Tree.node n Color.black l k v r) := by
  obtain ⟨s1, e1, h1⟩ := h.setColor_focus Color.black
  refine ⟨s1, ?_, h1⟩
  have hc := h.color_focus
  simp only [Tree.ptr_node, Tree.color_node] at hc
  simp only [deleteFixup, RedBlackTree.deleteRound, RedBlackTree.blackenNode, e1, hc, ne_eq,
    reduceCtorEq, not_false_eq_true, ↓reduceIte, ite_self]

theorem Models.deleteRound_L {nx : Nat} {sz : Int} {s : RedBlackTree K V}
    {fs : Path K V} {p : Nat} {cp : Color} {kp : K} {vp : V} {w x : Tree K V}
    (h : Models nx sz s (Frame.left p cp kp vp w :: fs) x) (hx : x.color = Color.black) :
    s.deleteRound x.ptr (some p) = (s.deleteFixLeft (some p)).map some := by
  have hp := h.mem_parent
  simp only [Frame.addr_left, Frame.node_left] at hp
  simp only [RedBlackTree.deleteRound, h.ptr_ne_root, ↓reduceIte, h.color_focus, hx, ne_eq,
    not_true_eq_false, RedBlackTree.get_some, hp]

theorem Models.deleteRound_R {nx : Nat} {sz : Int} {s : RedBlackTree K V}
    {fs : Path K V} {p : Nat} {cp : Color} {kp : K} {vp : V} {w x : Tree K V}
    (h : Models nx sz s (Frame.right p cp w kp vp :: fs) x) (hx : x.color = Color.black)
    (hw : w.ptr ≠ none) :
    s.deleteRound x.ptr (some p) = (s.deleteFixRight (some p)).map some := by
  have hp := h.mem_parent
  simp only [Frame.addr_right, Frame.node_right] at hp
  have hne := h.not_mem_sib_ptr
  simp only [Frame.sib_right, hw, and_false] at hne
  simp only [RedBlackTree.deleteRound, h.ptr_ne_root, ↓reduceIte, h.color_focus, hx, ne_eq,
    not_true_eq_false, RedBlackTree.get_some, hp, hne]


theorem deleteFixup_finish_root {nx : Nat} {sz : Int} {s : RedBlackTree K V}
    {path : Path K V} {t : Tree K V} {L : List (K × V)} (fuel : Nat) (par : Ptr)
    (h : Models nx sz s path t) (hrb : ∃ m, RB (Path.fill path t) Color.black m)
    (hL : (Path.fill path t).toList = L) :
    ∃ s' T', deleteFixup (fuel + 1) s s.root par = some s' ∧ Models nx sz s' [] T' ∧
      (∃ m', RB T' Color.black m') ∧ T'.toList = L := by
  obtain ⟨s1, e1, h1⟩ := h.top.deleteFixup_exit_root fuel par
  obtain ⟨m, hm⟩ := hrb
  exact ⟨s1, _, e1, h1, hm.setBlack, by rw [Tree.setColor_toList]; exact hL⟩

theorem deleteFixup_finish_red {nx : Nat} {sz : Int} {s : RedBlackTree K V}
    {path : Path K V} {n : Nat} {l r : Tree K V} {k : K} {v : V} {L : List (K × V)}
    (fuel : Nat) (par : Ptr)
    (h : Models nx sz s path (Tree.node n Color.red l k v r))
    (hrb : ∃ m, RB (Path.fill path (Tree.node n Color.black l k v r)) Color.black m)
    (hL : (Path.fill path (Tree.node n Color.red l k v r)).toList = L) :
    ∃ s' T', deleteFixup (fuel + 1) s (some n) par = some s' ∧ Models nx sz s' [] T' ∧
      (∃ m', RB T' Color.black m') ∧ T'.toList = L := by
  obtain ⟨s1, e1, h1⟩ := h.deleteFixup_exit_red fuel par
  exact ⟨s1, _, e1, h1.top, hrb, by
    rw [← hL]; exact Path.fill_toList_of_eq path (by simp [Tree.toList])⟩

theorem deleteFixup_spec {nx : Nat} {sz : Int} (N : Nat) :
    ∀ (path : Path K V) (fuel : Nat) (s : RedBlackTree K V) (x : Tree K V) (cx : Color) (m : Nat),
      path.length ≤ N → path.length < fuel →
      Models nx sz s path x → RB x cx m → PathRB path Color.black (m + 1) →
      ∃ s' T', deleteFixup fuel s x.ptr (Path.ptr path) = some s' ∧ Models nx sz s' [] T' ∧
        (∃ m', RB T' Color.black m') ∧ T'.toList = (Path.fill path x).toList := by
  induction N using Nat.strong_induction_on with
  | _ N ih =>
  intro path fuel s x cx m hN hfuel h hx hp
  obtain ⟨fuel, rfl⟩ : ∃ f', fuel = f' + 1 := ⟨fuel - 1, by omega⟩
  cases cx with
  | red =>
    cases hx with
    | red hl hr =>
    exact deleteFixup_finish_red fuel _ h (hp.fill (RB.black hl hr)) rfl
  | black =>
  cases hp with
  | root =>
    have hr := h.root_eq
    simp only [Path.root] at hr
    rw [← hr]
    obtain ⟨s1, e1, h1⟩ := h.deleteFixup_exit_root fuel none
    exact ⟨s1, _, e1, h1, hx.setBlack, by rw [Tree.setColor_toList]; rfl⟩
  | @redL p kp vp W fs _ hsib hfs =>
    obtain ⟨fuel, rfl⟩ : ∃ f', fuel = f' + 1 := ⟨fuel - 1, by
      simp only [List.length_cons] at hfuel; omega⟩
    cases hsib with
    | @black w wl kw vw wr c1 c2 _ hwl hwr =>
    rw [Path.ptr_cons, Frame.addr_left, deleteFixup, h.deleteRound_L hx.color_eq,
      h.upL.deleteFixLeft_black]
    rcases h.upL.deleteCases24L_rb hx hwl hwr with
      ⟨rfl, rfl, s1, e1, h1⟩ | ⟨s1, a, l, k, v, r, e1, h1, hl, hr, hL⟩
    · simp only [e1, Option.map_some']
      exact deleteFixup_finish_red fuel _ h1 (hfs.black.fill (RB.black hx (RB.red hwl hwr)))
        (Path.fill_toList_of_eq fs (by simp [Tree.toList, Frame.fill]))
    · simp only [e1, Option.map_some']
      exact deleteFixup_finish_root fuel _ h1 (hfs.fill (RB.red hl hr))
        (Path.fill_toList_of_eq fs (by rw [hL]; simp [Tree.toList, Frame.fill]))
  | @redR p W kp vp fs _ hsib hfs =>
    obtain ⟨fuel, rfl⟩ : ∃ f', fuel = f' + 1 := ⟨fuel - 1, by
      simp only [List.length_cons] at hfuel; omega⟩
    cases hsib with
    | @black w wl kw vw wr c1 c2 _ hwl hwr =>
    rw [Path.ptr_cons, Frame.addr_right,
      deleteFixup, h.deleteRound_R hx.color_eq (by simp), h.upR.deleteFixRight_black]
    rcases h.upR.deleteCases24R_rb hx hwl hwr with
      ⟨rfl, rfl, s1, e1, h1⟩ | ⟨s1, a, l, k, v, r, e1, h1, hl, hr, hL⟩
    · simp only [e1, Option.map_some']
      exact deleteFixup_finish_red fuel _ h1 (hfs.black.fill (RB.black (RB.red hwl hwr) hx))
        (Path.fill_toList_of_eq fs (by simp [Tree.toList, Frame.fill]))
    · simp only [e1, Option.map_some']
      exact deleteFixup_finish_root fuel _ h1 (hfs.fill (RB.red hl hr))
        (Path.fill_toList_of_eq fs (by rw [hL]; simp [Tree.toList, Frame.fill]))
  | @blackL p kp vp W fs _ c₂ _ hsib hfs =>
    obtain ⟨fuel, rfl⟩ : ∃ f', fuel = f' + 1 := ⟨fuel - 1, by
      simp only [List.length_cons] at hfuel; omega⟩
    simp only [List.length_cons] at hfuel hN
    rw [Path.ptr_cons, Frame.addr_left, deleteFixup, h.deleteRound_L hx.color_eq]
    cases c₂ with
    | black =>
      cases hsib with
      | @black w wl kw vw wr c1 c2 _ hwl hwr =>
      rw [h.upL.deleteFixLeft_black]
      rcases h.upL.deleteCases24L_rb hx hwl hwr with
        ⟨rfl, rfl, s1, e1, h1⟩ | ⟨s1, a, l, k, v, r, e1, h1, hl, hr, hL⟩
      · simp only [e1, Option.map_some']
        obtain ⟨s2, T2, e2, h2, hrb2, hL2⟩ := ih (N - 1) (by omega) fs (fuel + 1) s1 _
          Color.black (m + 1) (by omega) (by omega) h1 (RB.black hx (RB.red hwl hwr)) hfs
        exact ⟨s2, T2, e2, h2, hrb2, by
          rw [hL2]; exact Path.fill_toList_of_eq fs (by simp [Tree.toList, Frame.fill])⟩
      · simp only [e1, Option.map_some']
        exact deleteFixup_finish_root fuel _ h1 (hfs.fill (RB.black hl hr))
          (Path.fill_toList_of_eq fs (by rw [hL]; simp [Tree.toList, Frame.fill]))
    | red =>
      cases hsib with
      | @red w wl kw vw wr _ hwl hwr =>
      cases hwl with
      | @black b bl kb vb br c1 c2 _ hbl hbr =>
      obtain ⟨s1, e1, h1⟩ := h.upL.deleteFixLeft_red
      rw [e1]
      rcases h1.downL.deleteCases24L_rb hx hbl hbr with
        ⟨rfl, rfl, s2, e2, h2⟩ | ⟨s2, a, l, k, v, r, e2, h2, hl, hr, hL⟩
      · simp only [Tree.ptr_node, e2, Option.map_some']
        exact deleteFixup_finish_red fuel _ h2
          (hfs.fill (RB.black (RB.black hx (RB.red hbl hbr)) hwr))
          (Path.fill_toList_of_eq fs (by simp [Tree.toList, Frame.fill]))
      · simp only [Tree.ptr_node, e2, Option.map_some']
        exact deleteFixup_finish_root fuel _ h2
          (hfs.fill (RB.black (RB.red hl hr) hwr))
          (Path.fill_toList_of_eq fs (by
            have e := congrArg (fun z => z ++ (kw, vw) :: wr.toList) hL
            simp only [Frame.fill, Tree.toList, List.append_assoc, List.cons_append] at e ⊢
            exact e))
  | @blackR p W kp vp fs _ c₂ _ hsib hfs =>
    obtain ⟨fuel, rfl⟩ : ∃ f', fuel = f' + 1 := ⟨fuel - 1, by
      simp only [List.length_cons] at hfuel; omega⟩
    simp only [List.length_cons] at hfuel hN
    have hW : W.ptr ≠ none := by cases hsib <;> simp
    rw [Path.ptr_cons, Frame.addr_right, deleteFixup, h.deleteRound_R hx.color_eq hW]
    cases c₂ with
    | black =>
      cases hsib with
      | @black w wl kw vw wr c1 c2 _ hwl hwr =>
      rw [h.upR.deleteFixRight_black]
      rcases h.upR.deleteCases24R_rb hx hwl hwr with
        ⟨rfl, rfl, s1, e1, h1⟩ | ⟨s1, a, l, k, v, r, e1, h1, hl, hr, hL⟩
      · simp only [e1, Option.map_some']
        obtain ⟨s2, T2, e2, h2, hrb2, hL2⟩ := ih (N - 1) (by omega) fs (fuel + 1) s1 _
          Color.black (m + 1) (by omega) (by omega) h1 (RB.black (RB.red hwl hwr) hx) hfs
        exact ⟨s2, T2, e2, h2, hrb2, by
          rw [hL2]; exact Path.fill_toList_of_eq fs (by simp [Tree.toList, Frame.fill])⟩
      · simp only [e1, Option.map_some']
        exact deleteFixup_finish_root fuel _ h1 (hfs.fill (RB.black hl hr))
          (Path.fill_toList_of_eq fs (by rw [hL]; simp [Tree.toList, Frame.fill]))
    | red =>
      cases hsib with
      | @red w wl kw vw wr _ hwl hwr =>
      cases hwr with
      | @black b bl kb vb br c1 c2 _ hbl hbr =>
      obtain ⟨s1, e1, h1⟩ := h.upR.deleteFixRight_red
      rw [e1]
      rcases h1.downR.deleteCases24R_rb hx hbl hbr with
        ⟨rfl, rfl, s2, e2, h2⟩ | ⟨s2, a, l, k, v, r, e2, h2, hl, hr, hL⟩
      · simp only [Tree.ptr_node, e2, Option.map_some']
        exact deleteFixup_finish_red fuel _ h2
          (hfs.fill (RB.black hwl (RB.black (RB.red hbl hbr) hx)))
          (Path.fill_toList_of_eq fs (by simp [Tree.toList, Frame.fill]))
      · simp only [Tree.ptr_node, e2, Option.map_some']
        exact deleteFixup_finish_root fuel _ h2
          (hfs.fill (RB.black hwl (RB.red hl hr)))
          (Path.fill_toList_of_eq fs (by
            have e := congrArg (fun z => wl.toList ++ (kw, vw) :: z) hL
            simp only [Frame.fill, Tree.toList, List.append_assoc, List.cons_append] at e ⊢
            exact e))


end Rbt

namespace Rbt

variable {K V : Type}

/-! ## Unlinking a node with at most one child -/

theorem Models.spliceOutR {nx : Nat} {sz : Int} {s : RedBlackTree K V} {path : Path K V}
    {y : Nat} {cy : Color} {x : Tree K V} {ky : K} {vy : V}
    (h : Models nx sz s path (Tree.node y cy Tree.nil ky vy x)) :
    ∃ s', s.spliceOut (some y) x.ptr = some s' ∧ Models nx sz s' path x ∧
      s'.mem y = s.mem y := by
  obtain ⟨h1, h2, h3, h4, h5, h6, h7⟩ := models_iff.1 h
  have h6' : (Path.addrs path ++ x.addrs).Nodup :=
    h6.sublist (List.Sublist.append (List.Sublist.refl _) (by simp [Tree.addrs]))
  have h7' : ∀ z ∈ Path.addrs path ++ x.addrs, z < nx := fun z hz =>
    h7 z (by
      simp only [Tree.addrs, List.mem_append, List.mem_cons] at hz ⊢
      tauto)
  clear h7 h
  rcases x with _ | ⟨x, cx, xl, kx, vx, xr⟩ <;>
    rcases path with _ | ⟨⟨p, cp, kp, vp, pr⟩ | ⟨p, cp, pl, kp, vp⟩, fs⟩
  all_goals
    simp only [Tree.addrs, Path.addrs, List.nodup_append, List.nodup_cons, List.mem_append,
      List.mem_cons, List.disjoint_append_right, List.disjoint_append_left,
      List.disjoint_cons_right, List.disjoint_cons_left, List.nil_append, List.append_nil,
      List.not_mem_nil, not_false_eq_true, true_and, List.nodup_nil, not_or, Frame.addr_left,
      Frame.addr_right, Frame.sib_left, Frame.sib_right] at h6
    simp only [Rep, RepPath, Tree.ptr_nil, Tree.ptr_node, Path.ptr_empty, Path.ptr_cons, Path.root,
      Frame.addr_left, Frame.addr_right, Frame.sib_left, Frame.sib_right, Frame.node_left,
      Frame.node_right] at h3 h4 h5
    simp only [RedBlackTree.spliceOut, RedBlackTree.get_some, RedBlackTree.modify_some,
      Option.bind_eq_bind, Option.some_bind, Option.map_some', RedBlackTree.mem_put_same,
      RedBlackTree.mem_put_ne, RedBlackTree.mem_put_ne', ne_eq, not_false_eq_true, ↓reduceIte,
      Tree.some_ne_ptr, Tree.ptr_nil, Tree.ptr_node, h3, h4, h5, h6]
    refine ⟨_, rfl, ⟨h1, h2, ?_, ?_, ?_, h6', h7'⟩, ?_⟩
    all_goals
      simp only [Rep, RepPath, Rep.put_iff, RepPath.put_path_iff, Tree.ptr_nil, Tree.ptr_node,
        Path.ptr_empty, Path.ptr_cons, Path.root, Frame.addr_left, Frame.addr_right, Frame.sib_left,
        Frame.sib_right, Frame.node_left, Frame.node_right, RedBlackTree.mem_put_same,
        RedBlackTree.mem_put_ne, RedBlackTree.mem_put_ne', RedBlackTree.root_put, ne_eq,
        not_false_eq_true, h3, h4, h5, h6, and_self, and_true, true_and]

theorem Models.spliceOutL {nx : Nat} {sz : Int} {s : RedBlackTree K V} {path : Path K V}
    {y : Nat} {cy : Color} {x : Tree K V} {ky : K} {vy : V}
    (h : Models nx sz s path (Tree.node y cy x ky vy Tree.nil)) :
    ∃ s', s.spliceOut (some y) x.ptr = some s' ∧ Models nx sz s' path x ∧
      s'.mem y = s.mem y := by
  obtain ⟨h1, h2, h3, h4, h5, h6, h7⟩ := models_iff.1 h
  have h6' : (Path.addrs path ++ x.addrs).Nodup :=
    h6.sublist (List.Sublist.append (List.Sublist.refl _) (by simp [Tree.addrs]))
  have h7' : ∀ z ∈ Path.addrs path ++ x.addrs, z < nx := fun z hz =>
    h7 z (by
      simp only [Tree.addrs, List.mem_append, List.mem_cons] at hz ⊢
      tauto)
  clear h7 h
  rcases x with _ | ⟨x, cx, xl, kx, vx, xr⟩ <;>
    rcases path with _ | ⟨⟨p, cp, kp, vp, pr⟩ | ⟨p, cp, pl, kp, vp⟩, fs⟩
  all_goals
    simp only [Tree.addrs, Path.addrs, List.nodup_append, List.nodup_cons, List.mem_append,
      List.mem_cons, List.disjoint_append_right, List.disjoint_append_left,
      List.disjoint_cons_right, List.disjoint_cons_left, List.nil_append, List.append_nil,
      List.not_mem_nil, not_false_eq_true, true_and, List.nodup_nil, not_or, Frame.addr_left,
      Frame.addr_right, Frame.sib_left, Frame.sib_right] at h6
    simp only [Rep, RepPath, Tree.ptr_nil, Tree.ptr_node, Path.ptr_empty, Path.ptr_cons, Path.root,
      Frame.addr_left, Frame.addr_right, Frame.sib_left, Frame.sib_right, Frame.node_left,
      Frame.node_right] at h3 h4 h5
    simp only [RedBlackTree.spliceOut, RedBlackTree.get_some, RedBlackTree.modify_some,
      Option.bind_eq_bind, Option.some_bind, Option.map_some', RedBlackTree.mem_put_same,
      RedBlackTree.mem_put_ne, RedBlackTree.mem_put_ne', ne_eq, not_false_eq_true, ↓reduceIte,
      Tree.some_ne_ptr, Tree.ptr_nil, Tree.ptr_node, h3, h4, h5, h6]
    refine ⟨_, rfl, ⟨h1, h2, ?_, ?_, ?_, h6', h7'⟩, ?_⟩
    all_goals
      simp only [Rep, RepPath, Rep.put_iff, RepPath.put_path_iff, Tree.ptr_nil, Tree.ptr_node,
        Path.ptr_empty, Path.ptr_cons, Path.root, Frame.addr_left, Frame.addr_right, Frame.sib_left,
        Frame.sib_right, Frame.node_left, Frame.node_right, RedBlackTree.mem_put_same,
        RedBlackTree.mem_put_ne, RedBlackTree.mem_put_ne', RedBlackTree.root_put, ne_eq,
        not_false_eq_true, h3, h4, h5, h6, and_self, and_true, true_and]

/-! ## Moving the position along a descent -/

theorem Path.fill_append (ps path : Path K V) (t : Tree K V) :
    Path.fill (ps ++ path) t = Path.fill path (Path.fill ps t) := by
  induction ps generalizing t with
  | nil => rfl
  | cons f ps ih => exact ih (f.fill t)

theorem Models.up_many {nx : Nat} {sz : Int} {s : RedBlackTree K V} {ps path : Path K V}
    {t : Tree K V} (h : Models nx sz s (ps ++ path) t) : Models nx sz s path (Path.fill ps t) := by
  induction ps generalizing t with
  | nil => exact h
  | cons f ps ih => exact ih h.up

theorem Models.down_many {nx : Nat} {sz : Int} {s : RedBlackTree K V} {ps path : Path K V}
    {t : Tree K V} (h : Models nx sz s path (Path.fill ps t)) : Models nx sz s (ps ++ path) t := by
  induction ps generalizing t with
  | nil => exact h
  | cons f ps ih => exact (ih h).down

theorem Tree.zoomMin_spec :
    ∀ (t : Tree K V) (path : Path K V), t ≠ Tree.nil →
      ∃ ps y cy ky vy yr, t.zoomMin path = (ps ++ path, Tree.node y cy Tree.nil ky vy yr) ∧
        Path.fill ps (Tree.node y cy Tree.nil ky vy yr) = t ∧ Path.before ps = [] ∧
        ps.length < t.height := by
  intro t
  induction t with
  | nil => intro path h; exact absurd rfl h
  | node a c l k v r ihl _ =>
    intro path _
    cases l with
    | nil => exact ⟨[], a, c, k, v, r, rfl, rfl, rfl, by simp [Tree.height]⟩
    | node b cb lb kb vb rb =>
      obtain ⟨ps, y, cy, ky, vy, yr, e1, e2, e3, e4⟩ :=
        ihl (Frame.left a c k v r :: path) (by simp)
      refine ⟨ps ++ [Frame.left a c k v r], y, cy, ky, vy, yr, ?_, ?_, ?_, ?_⟩
      · simp only [Tree.zoomMin, e1, List.append_assoc, List.singleton_append]
      · rw [Path.fill_append, e2]; rfl
      · clear e1 e2 e4
        induction ps with
        | nil => rfl
        | cons f ps ih =>
          cases f with
          | left _ _ _ _ _ => exact ih e3
          | right _ _ _ _ _ => simp [Path.before] at e3
      · simp only [List.length_append, List.length_singleton, Tree.height] at e4 ⊢
        omega

theorem Tree.zoomMin_rb :
    ∀ (t : Tree K V) (path : Path K V) (c : Color) (m : Nat), RB t c m → PathRB path c m →
      ∃ c' m', RB (t.zoomMin path).2 c' m' ∧ PathRB (t.zoomMin path).1 c' m' := by
  intro t
  induction t with
  | nil => intro path c m ht hp; exact ⟨c, m, ht, hp⟩
  | node a c0 l k v r ihl _ =>
    intro path c m ht hp
    cases l with
    | nil => exact ⟨c, m, ht, hp⟩
    | node b cb lb kb vb rb =>
      simp only [Tree.zoomMin]
      cases ht with
      | red hl hr => exact ihl _ _ _ hl (PathRB.redL hr hp)
      | black hl hr => exact ihl _ _ _ hl (PathRB.blackL hr hp)

theorem minimumLoop_spec {nx : Nat} {sz : Int} {s : RedBlackTree K V} :
    ∀ (t : Tree K V) (path : Path K V) (fuel : Nat) (a : Nat),
      Models nx sz s path t → t.ptr = some a → t.height ≤ fuel →
      (minimumLoop s.mem fuel a).map some = some (t.zoomMin path).2.ptr := by
  intro t
  induction t with
  | nil => intro path fuel a _ hp; simp at hp
  | node a0 c l k v r ihl _ =>
    intro path fuel a h hp hfuel
    simp only [Tree.ptr_node, Option.some.injEq] at hp
    subst hp
    obtain ⟨fuel, rfl⟩ : ∃ f', fuel = f' + 1 := ⟨fuel - 1, by
      simp only [Tree.height] at hfuel; omega⟩
    simp only [Tree.height, Nat.add_le_add_iff_right, max_le_iff] at hfuel
    cases l with
    | nil =>
      simp only [minimumLoop, h.mem_focus, Tree.ptr_nil, Tree.zoomMin, Option.map_some',
        Tree.ptr_node]
    | node b cb lb kb vb rb =>
      simp only [minimumLoop, h.mem_focus, Tree.ptr_node, Tree.zoomMin]
      exact ihl _ fuel b h.downL rfl hfuel.1

theorem searchLoop_spec [LinearOrder K] {nx : Nat} {sz : Int} {s : RedBlackTree K V} (k : K) :
    ∀ (t : Tree K V) (path : Path K V) (fuel : Nat),
      Models nx sz s path t → t.height < fuel →
      searchLoop s.mem k fuel t.ptr = some (t.zoom k path).2.ptr := by
  intro t
  induction t with
  | nil =>
    intro path fuel _ hfuel
    obtain ⟨fuel, rfl⟩ : ∃ f', fuel = f' + 1 := ⟨fuel - 1, by omega⟩
    rfl
  | node a c l k' v r ihl ihr =>
    intro path fuel h hfuel
    obtain ⟨fuel, rfl⟩ : ∃ f', fuel = f' + 1 := ⟨fuel - 1, by omega⟩
    simp only [Tree.height, Nat.add_lt_add_iff_right, max_lt_iff] at hfuel
    simp only [Tree.ptr_node, searchLoop, h.mem_focus, Tree.zoom, gt_iff_lt]
    rcases lt_trichotomy k k' with h1 | h1 | h1
    · simp only [h1, ne_of_lt h1, ↓reduceIte]
      exact ihl _ fuel h.downL hfuel.1
    · subst h1
      simp only [↓reduceIte, lt_irrefl, Tree.ptr_node]
    · simp only [h1, ne_of_gt h1, not_lt_of_gt h1, ↓reduceIte]
      exact ihr _ fuel h.downR hfuel.2

theorem Models.zoom [LinearOrder K] {nx : Nat} {sz : Int} {s : RedBlackTree K V}
    {path : Path K V} {t : Tree K V} (h : Models nx sz s path t) (k : K) :
    Models nx sz s (t.zoom k path).1 (t.zoom k path).2 := by
  apply Models.of_top
  rw [Tree.zoom_fill]
  exact h.top


/-! ## `delete` -/

theorem Path.fill_toList (path : Path K V) (t : Tree K V) :
    (Path.fill path t).toList = Path.before path ++ t.toList ++ Path.after path := by
  induction path generalizing t with
  | nil => simp [Path.fill, Path.before, Path.after]
  | cons f fs ih =>
    cases f <;> simp [Path.fill, Frame.fill, ih, Tree.toList, Path.before, Path.after]

theorem PathRB.setKV {ps path : Path K V} {a : Nat} {c : Color} {l : Tree K V} {k k2 : K}
    {v v2 : V} {c' : Color} {m' : Nat}
    (h : PathRB (ps ++ Frame.right a c l k v :: path) c' m') :
    PathRB (ps ++ Frame.right a c l k2 v2 :: path) c' m' := by
  induction ps generalizing c' m' with
  | nil =>
    cases h with
    | redR hl hp => exact PathRB.redR hl hp
    | blackR hl hp => exact PathRB.blackR hl hp
  | cons f ps ih =>
    cases h with
    | redL hr hp => exact PathRB.redL hr (ih hp)
    | redR hl hp => exact PathRB.redR hl (ih hp)
    | blackL hr hp => exact PathRB.blackL hr (ih hp)
    | blackR hl hp => exact PathRB.blackR hl (ih hp)

theorem Models.copyInto {nx : Nat} {sz : Int} {s : RedBlackTree K V} {ps path : Path K V}
    {a : Nat} {c : Color} {l : Tree K V} {k : K} {v : V} {t : Tree K V} {y : Nat}
    {yn : Node K V}
    (h : Models nx sz s (ps ++ Frame.right a c l k v :: path) t)
    (hy : s.mem y = some yn) (hne : y ≠ a) :
    ∃ s', s.copyInto (some a) (some y) = some s' ∧
      Models nx sz s' (ps ++ Frame.right a c l yn.key yn.value :: path) t ∧
      s'.mem y = some yn := by
  have h0 := h.up_many.upR
  have h1 := h0.put_focus c yn.key v
  have h2 := h1.put_focus c yn.key yn.value
  refine ⟨_, ?_, h2.downR.down_many, ?_⟩
  · simp only [RedBlackTree.copyInto, RedBlackTree.get_some, hy, Option.bind_eq_bind,
      Option.some_bind, RedBlackTree.modify_some, h0.mem_focus, Option.map_some',
      RedBlackTree.mem_put_ne _ _ hne, RedBlackTree.mem_put_same]
  · simp only [RedBlackTree.mem_put_ne _ _ hne, hy]

/-- The shape facts `delete` hands to `deleteFixup`, or the finished tree
when the spliced-out node is red. -/
theorem RB.splice {pathY : Path K V} {y : Nat} {cy : Color} {yl yr x : Tree K V} {ky : K}
    {vy : V} {c0 : Color} {m0 : Nat}
    (ht : RB (Tree.node y cy yl ky vy yr) c0 m0) (hp : PathRB pathY c0 m0)
    (hx : (yl = Tree.nil ∧ x = yr) ∨ (yr = Tree.nil ∧ x = yl)) :
    (cy = Color.black ∧ ∃ cx m, RB x cx m ∧ PathRB pathY Color.black (m + 1)) ∨
    (cy = Color.red ∧ ∃ m, RB (Path.fill pathY x) Color.black m) := by
  cases ht with
  | red hl hr =>
    right
    rcases hx with ⟨-, rfl⟩ | ⟨-, rfl⟩
    · exact ⟨rfl, hp.black.fill hr⟩
    · exact ⟨rfl, hp.black.fill hl⟩
  | black hl hr =>
    left
    rcases hx with ⟨-, rfl⟩ | ⟨-, rfl⟩
    · exact ⟨rfl, _, _, hr, hp⟩
    · exact ⟨rfl, _, _, hl, hp⟩

theorem delete_finish {nx : Nat} {sz : Int} {s : RedBlackTree K V} {pathY : Path K V}
    {x : Tree K V} {cy : Color} (fuel : Nat)
    (h : Models nx sz s pathY x) (hfuel : pathY.length < fuel)
    (hrb : (cy = Color.black ∧ ∃ cx m, RB x cx m ∧ PathRB pathY Color.black (m + 1)) ∨
      (cy = Color.red ∧ ∃ m, RB (Path.fill pathY x) Color.black m)) :
    ∃ s' T', (if cy = Color.black then deleteFixup fuel s x.ptr (Path.ptr pathY) else some s)
        = some s' ∧
      Models nx sz s' [] T' ∧ (∃ m', RB T' Color.black m') ∧
      T'.toList = (Path.fill pathY x).toList := by
  rcases hrb with ⟨rfl, cx, m, hx, hp⟩ | ⟨rfl, hm⟩
  · simp only [↓reduceIte]
    exact deleteFixup_spec pathY.length pathY fuel s x cx m (le_refl _) hfuel h hx hp
  · simp only [reduceCtorEq, ↓reduceIte]
    exact ⟨s, _, rfl, h.top, hm, rfl⟩


theorem Path.addr_mem_append (ps path : Path K V) (f : Frame K V) :
    f.addr ∈ Path.addrs (ps ++ f :: path) := by
  induction ps with
  | nil => simp [Path.addrs]
  | cons g ps ih =>
    simp only [List.cons_append, Path.addrs, List.mem_cons, List.mem_append]
    exact Or.inr (Or.inr ih)

theorem Path.ptr_append_setKV (ps path : Path K V) (a : Nat) (c : Color) (l : Tree K V)
    (k k2 : K) (v v2 : V) :
    Path.ptr (ps ++ Frame.right a c l k v :: path) =
      Path.ptr (ps ++ Frame.right a c l k2 v2 :: path) := by
  cases ps <;> rfl

theorem Path.fill_min_toList {ps : Path K V} {y : Nat} {cy : Color} {ky : K} {vy : V}
    {yr : Tree K V} (hb : Path.before ps = []) :
    (Path.fill ps (Tree.node y cy Tree.nil ky vy yr)).toList =
      (ky, vy) :: (Path.fill ps yr).toList := by
  simp [Path.fill_toList, hb, Tree.toList]

theorem delete_spec {nx : Nat} {sz : Int} {s : RedBlackTree K V} {path : Path K V}
    {a : Nat} {c : Color} {l r : Tree K V} {k : K} {v : V} {c0 : Color} {m0 : Nat}
    (h : Models nx sz s path (Tree.node a c l k v r))
    (ht : RB (Tree.node a c l k v r) c0 m0) (hp : PathRB path c0 m0) (fuel : Nat)
    (hfuel : path.length + (Tree.node a c l k v r).height ≤ fuel) :
    ∃ s' T', s.delete fuel (some a) = some s' ∧ Models nx (sz - 1) s' [] T' ∧
      (∃ m', RB T' Color.black m') ∧
      T'.toList = Path.before path ++ (l.toList ++ r.toList) ++ Path.after path := by
  have ha := h.mem_focus
  have hfin : ∀ {pathY : Path K V} {x : Tree K V} {cy : Color} {s3 : RedBlackTree K V}
      {L : List (K × V)},
      Models nx sz s3 pathY x → pathY.length < fuel →
      ((cy = Color.black ∧ ∃ cx m, RB x cx m ∧ PathRB pathY Color.black (m + 1)) ∨
        (cy = Color.red ∧ ∃ m, RB (Path.fill pathY x) Color.black m)) →
      (Path.fill pathY x).toList = L →
      ∃ s' T', ((if cy = Color.black then deleteFixup fuel s3 x.ptr (Path.ptr pathY)
          else some s3).bind fun t4 => some { t4 with size := t4.size - 1 }) = some s' ∧
        Models nx (sz - 1) s' [] T' ∧ (∃ m', RB T' Color.black m') ∧ T'.toList = L := by
    intro pathY x cy s3 L h3 hf hrb hL
    obtain ⟨s4, T4, e4, h4, hrb4, hL4⟩ := delete_finish fuel h3 hf hrb
    refine ⟨_, T4, by rw [e4]; rfl, ?_, hrb4, hL4.trans hL⟩
    have := h4.setSize (sz - 1)
    rw [h4.size_eq]
    exact this
  cases l with
  | nil =>
    obtain ⟨s2, e2, h2, hm2⟩ := h.spliceOutR
    rw [ha] at hm2
    simp only [RedBlackTree.delete, RedBlackTree.get_some, ha, Tree.ptr_nil, true_or, ↓reduceIte,
      Option.bind_eq_bind, Option.some_bind, ne_eq, not_true_eq_false, e2, hm2]
    refine hfin h2 (by simp only [Tree.height] at hfuel; omega)
      (RB.splice ht hp (Or.inl ⟨rfl, rfl⟩)) ?_
    simp [Path.fill_toList, Tree.toList]
  | node b cb lb kb vb rb =>
    cases r with
    | nil =>
      obtain ⟨s2, e2, h2, hm2⟩ := h.spliceOutL
      rw [ha] at hm2
      simp only [Tree.ptr_node] at e2
      simp only [RedBlackTree.delete, RedBlackTree.get_some, ha, Tree.ptr_nil, or_true,
        ↓reduceIte, Option.bind_eq_bind, Option.some_bind, ne_eq, not_true_eq_false,
        Tree.ptr_node, reduceCtorEq, not_false_eq_true, e2, hm2]
      refine hfin h2 (by simp only [Tree.height] at hfuel; omega)
        (RB.splice ht hp (Or.inr ⟨rfl, rfl⟩)) ?_
      simp [Path.fill_toList, Tree.toList]
    | node d cd ld kd vd rd =>
      obtain ⟨ps, y, cy, ky, vy, yr, ez, efill, ebefore, elen⟩ :=
        Tree.zoomMin_spec (Tree.node d cd ld kd vd rd) (Frame.right a c (Tree.node b cb lb kb vb rb) k v :: path)
          (by simp)
      have hmin := minimumLoop_spec (Tree.node d cd ld kd vd rd) _ fuel d h.downR rfl (by
        simp only [Tree.height] at hfuel ⊢; omega)
      rw [ez] at hmin
      simp only [Tree.ptr_node] at hmin
      have hY : Models nx sz s (ps ++ Frame.right a c (Tree.node b cb lb kb vb rb) k v :: path)
          (Tree.node y cy Tree.nil ky vy yr) := by
        apply Models.down_many
        rw [efill]
        exact h.downR
      have hya : y ≠ a := by
        rintro rfl
        exact hY.disjoint (a := y) (Path.addr_mem_append ps path _) (by simp [Tree.addrs])
      obtain ⟨s2, e2, h2, hm2⟩ := hY.spliceOutR
      rw [hY.mem_focus] at hm2
      simp only [Tree.ptr_nil] at hm2
      obtain ⟨s3, e3, h3, hm3⟩ := h2.copyInto hm2 hya
      simp only at h3
      simp only [RedBlackTree.delete, Tree.ptr_nil, RedBlackTree.get_some, ha, Tree.ptr_node, reduceCtorEq,
        or_self, ↓reduceIte, RedBlackTree.minimum, hmin,
        Option.bind_eq_bind, Option.some_bind, hY.mem_focus, ne_eq, not_true_eq_false,
        Option.some.injEq, hya, not_false_eq_true, e2, e3, hm3]
      rw [Path.ptr_append_setKV ps path a c _ k ky v vy]
      have hrb0 : ∃ c' m', RB (Tree.node y cy Tree.nil ky vy yr) c' m' ∧
          PathRB (ps ++ Frame.right a c (Tree.node b cb lb kb vb rb) k v :: path) c' m' := by
        have hz : ∀ (cr : Color) (mr : Nat), RB (Tree.node d cd ld kd vd rd) cr mr →
            PathRB (Frame.right a c (Tree.node b cb lb kb vb rb) k v :: path) cr mr →
            ∃ c' m', RB (Tree.node y cy Tree.nil ky vy yr) c' m' ∧
              PathRB (ps ++ Frame.right a c (Tree.node b cb lb kb vb rb) k v :: path) c' m' := by
          intro cr mr h1 h2
          have := Tree.zoomMin_rb _ _ cr mr h1 h2
          rw [ez] at this
          exact this
        cases ht with
        | red hl hr => exact hz _ _ hr (PathRB.redR hl hp)
        | black hl hr => exact hz _ _ hr (PathRB.blackR hl hp)
      obtain ⟨c', m', hy1, hy2⟩ := hrb0
      refine hfin h3 ?_ (RB.splice hy1 hy2.setKV (Or.inl ⟨rfl, rfl⟩)) ?_
      · simp only [List.length_append, List.length_cons, Tree.height] at hfuel elen ⊢
        omega
      · rw [← efill, Path.fill_min_toList ebefore, Path.fill_append]
        simp only [Path.fill, Frame.fill]
        rw [Path.fill_toList]
        simp only [Tree.toList]


end Rbt

namespace Rbt

variable {K V : Type}

/-! ## More fuel changes no result -/

theorem searchLoop_succ [LinearOrder K] (mem : Nat → Option (Node K V)) (k : K) :
    ∀ (fuel : Nat) (p r : Ptr), searchLoop mem k fuel p = some r →
      searchLoop mem k (fuel + 1) p = some r := by
  intro fuel
  induction fuel with
  | zero => intro p r h; simp [searchLoop] at h
  | succ fuel ih =>
    intro p r h
    cases p with
    | none => exact h
    | some a =>
      simp only [searchLoop] at h ⊢
      cases hm : mem a with
      | none => simp [hm] at h
      | some x =>
        simp only [hm] at h ⊢
        split
        · simpa [*] using h
        · split
          · rename_i h1 h2
            simp only [h1, h2, ↓reduceIte] at h
            exact ih _ _ h
          · split
            · rename_i h1 h2 h3
              simp only [h1, h2, h3, ↓reduceIte] at h
              exact ih _ _ h
            · rename_i h1 h2 h3
              rcases lt_trichotomy k x.key with h4 | h4 | h4
              · exact absurd h4 h2
              · exact absurd h4 h1
              · exact absurd h4 h3

theorem minimumLoop_succ (mem : Nat → Option (Node K V)) :
    ∀ (fuel : Nat) (a r : Nat), minimumLoop mem fuel a = some r →
      minimumLoop mem (fuel + 1) a = some r := by
  intro fuel
  induction fuel with
  | zero => intro a r h; simp [minimumLoop] at h
  | succ fuel ih =>
    intro a r h
    simp only [minimumLoop] at h ⊢
    cases hm : mem a with
    | none => simp [hm] at h
    | some x =>
      simp only [hm] at h ⊢
      cases hl : x.left with
      | none => simpa [hl] using h
      | some l =>
        simp only [hl] at h ⊢
        exact ih _ _ h

theorem insertLoop_succ [LinearOrder K] (k : K) (v : V) (n : Nat) :
    ∀ (fuel : Nat) (t : RedBlackTree K V) (cur : Nat) (r : Descent K V),
      insertLoop k v n fuel t cur = some r → insertLoop k v n (fuel + 1) t cur = some r := by
  intro fuel
  induction fuel with
  | zero => intro t cur r h; simp [insertLoop] at h
  | succ fuel ih =>
    intro t cur r h
    simp only [insertLoop] at h ⊢
    cases hm : t.mem cur with
    | none => simp [hm] at h
    | some x =>
      simp only [hm] at h ⊢
      split
      · rename_i h1
        simp only [h1, ↓reduceIte] at h
        cases hl : x.left with
        | none => simpa [hl] using h
        | some l =>
          simp only [hl] at h ⊢
          exact ih _ _ _ h
      · rename_i h1
        simp only [h1, ↓reduceIte] at h
        split
        · rename_i h2
          simp only [h2, ↓reduceIte] at h
          cases hl : x.right with
          | none => simpa [hl] using h
          | some l =>
            simp only [hl] at h ⊢
            exact ih _ _ _ h
        · rename_i h2
          simpa [h2] using h

theorem insertFixup_succ :
    ∀ (fuel : Nat) (t : RedBlackTree K V) (n : Ptr) (r : RedBlackTree K V),
      insertFixup fuel t n = some r → insertFixup (fuel + 1) t n = some r := by
  intro fuel
  induction fuel with
  | zero => intro t n r h; simp [insertFixup] at h
  | succ fuel ih =>
    intro t n r h
    rw [insertFixup] at h ⊢
    cases hr : t.insertRound n with
    | none => simp [hr] at h
    | some o =>
      cases o with
      | none => simpa [hr] using h
      | some p =>
        obtain ⟨t1, n1⟩ := p
        simp only [hr] at h ⊢
        exact ih _ _ _ h

theorem deleteFixup_succ :
    ∀ (fuel : Nat) (t : RedBlackTree K V) (n parent : Ptr) (r : RedBlackTree K V),
      deleteFixup fuel t n parent = some r → deleteFixup (fuel + 1) t n parent = some r := by
  intro fuel
  induction fuel with
  | zero => intro t n parent r h; simp [deleteFixup] at h
  | succ fuel ih =>
    intro t n parent r h
    rw [deleteFixup] at h ⊢
    cases hr : t.deleteRound n parent with
    | none => simp [hr] at h
    | some o =>
      cases o with
      | none => simpa [hr] using h
      | some p =>
        obtain ⟨t1, n1, p1⟩ := p
        simp only [hr] at h ⊢
        exact ih _ _ _ _ h

theorem Insert_succ [LinearOrder K] (s : RedBlackTree K V) (fuel : Nat) (k : K) (v : V)
    (r : RedBlackTree K V) (h : s.Insert fuel k v = some r) : s.Insert (fuel + 1) k v = some r := by
  simp only [RedBlackTree.Insert] at h ⊢
  generalize MakeNode s k v Color.red = p at h ⊢
  obtain ⟨s0, n⟩ := p
  simp only at h ⊢
  cases hr : s0.root with
  | none =>
    simp only [hr] at h ⊢
    cases hf : insertFixup fuel { s0 with root := some n } (some n) with
    | none => simp [hf] at h
    | some t2 =>
      simp only [hf] at h
      simp only [insertFixup_succ _ _ _ _ hf, h]
  | some r0 =>
    simp only [hr] at h ⊢
    cases hl : insertLoop k v n fuel s0 r0 with
    | none => simp [hl] at h
    | some d =>
      simp only [hl] at h
      simp only [insertLoop_succ k v n _ _ _ _ hl]
      cases d with
      | updated t1 => exact h
      | attached t1 cur =>
        simp only at h ⊢
        cases hm : t1.modify (some n) (fun x => { x with parent := some cur }) with
        | none => simp [hm] at h
        | some t2 =>
          simp only [hm] at h ⊢
          cases hf : insertFixup fuel t2 (some n) with
          | none => simp [hf] at h
          | some t3 =>
            simp only [hf] at h
            simp only [insertFixup_succ _ _ _ _ hf, h]

theorem delete_succ (s : RedBlackTree K V) (fuel : Nat) (node : Ptr)
    (r : RedBlackTree K V) (h : s.delete fuel node = some r) :
    s.delete (fuel + 1) node = some r := by
  simp only [RedBlackTree.delete, Option.bind_eq_bind, Option.bind_eq_some] at h ⊢
  obtain ⟨nd, h1, y, h2, yn, h3, t2, h4, t3, h5, yn3, h6, t4, h7, h8⟩ := h
  refine ⟨nd, h1, y, ?_, yn, h3, t2, h4, t3, h5, yn3, h6, t4, ?_, h8⟩
  · split at h2
    · rename_i hc; simp only [hc, ↓reduceIte]; exact h2
    · rename_i hc
      simp only [hc, ↓reduceIte]
      simp only [RedBlackTree.minimum] at h2 ⊢
      cases hp : nd.right with
      | none => simpa [hp] using h2
      | some a =>
        simp only [hp, Option.map_eq_some'] at h2 ⊢
        obtain ⟨m, hm, e⟩ := h2
        exact ⟨m, minimumLoop_succ _ _ _ _ hm, e⟩
  · split at h7
    · rename_i hc; simp only [hc, ↓reduceIte]; exact deleteFixup_succ _ _ _ _ _ h7
    · rename_i hc; simp only [hc, ↓reduceIte]; exact h7

theorem Remove_succ [LinearOrder K] (s : RedBlackTree K V) (fuel : Nat) (k : K)
    (r : RedBlackTree K V) (h : s.Remove fuel k = some r) : s.Remove (fuel + 1) k = some r := by
  simp only [RedBlackTree.Remove, RedBlackTree.search] at h ⊢
  cases hs : searchLoop s.mem k fuel s.root with
  | none => simp [hs] at h
  | some p =>
    simp only [hs] at h
    simp only [searchLoop_succ _ _ _ _ _ hs]
    cases p with
    | none => exact h
    | some a => exact delete_succ _ _ _ _ h

theorem Insert_mono [LinearOrder K] {s r : RedBlackTree K V} {fuel fuel' : Nat} {k : K} {v : V}
    (hle : fuel ≤ fuel') (h : s.Insert fuel k v = some r) : s.Insert fuel' k v = some r := by
  induction hle with
  | refl => exact h
  | step _ ih => exact Insert_succ _ _ _ _ _ ih

theorem Remove_mono [LinearOrder K] {s r : RedBlackTree K V} {fuel fuel' : Nat} {k : K}
    (hle : fuel ≤ fuel') (h : s.Remove fuel k = some r) : s.Remove fuel' k = some r := by
  induction hle with
  | refl => exact h
  | step _ ih => exact Remove_succ _ _ _ _ ih


end Rbt

namespace Rbt

variable {K V : Type}

/-! ## The invariants in the words of the specification -/

theorem RB.inv {t : Tree K V} {c : Color} {m : Nat} (h : RB t c m) :
    t.color = c ∧ t.NoRedRed ∧ t.BlackBalanced ∧ t.blackHeight = m := by
  induction h with
  | nil => exact ⟨rfl, trivial, trivial, rfl⟩
  | red hl hr ihl ihr =>
    obtain ⟨l1, l2, l3, l4⟩ := ihl
    obtain ⟨r1, r2, r3, r4⟩ := ihr
    refine ⟨rfl, ?_, ?_, by simp [Tree.blackHeight, l4]⟩
    · exact And.intro (fun _ => And.intro l1 r1) (And.intro l2 r2)
    · exact And.intro (by rw [l4, r4]) (And.intro l3 r3)
  | black hl hr ihl ihr =>
    obtain ⟨l1, l2, l3, l4⟩ := ihl
    obtain ⟨r1, r2, r3, r4⟩ := ihr
    refine ⟨rfl, ?_, ?_, by simp [Tree.blackHeight, l4]⟩
    · exact And.intro (fun h => by cases h) (And.intro l2 r2)
    · exact And.intro (by rw [l4, r4]) (And.intro l3 r3)

theorem RB.of_inv {t : Tree K V} (h1 : t.NoRedRed) (h2 : t.BlackBalanced) :
    RB t t.color t.blackHeight := by
  induction t with
  | nil => exact RB.nil
  | node a c l k v r ihl ihr =>
    obtain ⟨n1, n2, n3⟩ := h1
    obtain ⟨b1, b2, b3⟩ := h2
    have hl := ihl n2 b2
    have hr := ihr n3 b3
    rw [← b1] at hr
    cases c with
    | red =>
      obtain ⟨c1, c2⟩ := n1 rfl
      rw [c1] at hl
      rw [c2] at hr
      simpa [Tree.blackHeight] using RB.red hl hr
    | black => simpa [Tree.blackHeight] using RB.black hl hr

theorem Tree.redBlack_iff {T : Tree K V} : T.RedBlack ↔ ∃ m, RB T Color.black m := by
  constructor
  · rintro ⟨h1, h2, h3⟩
    exact ⟨_, h1 ▸ RB.of_inv h2 h3⟩
  · rintro ⟨m, h⟩
    obtain ⟨h1, h2, h3, -⟩ := h.inv
    exact ⟨h1, h2, h3⟩

/-! ## Sizes -/

theorem Tree.length_toList (t : Tree K V) : t.toList.length = t.count := by
  induction t with
  | nil => rfl
  | node a c l k v r ihl ihr => simp [Tree.toList, Tree.count, ihl, ihr]; omega

theorem Tree.length_keys (t : Tree K V) : t.keys.length = t.count := by
  simp [Tree.keys, Tree.length_toList]

theorem Tree.height_le_count (t : Tree K V) : t.height ≤ t.count := by
  induction t with
  | nil => exact le_rfl
  | node a c l k v r ihl ihr => simp only [Tree.height, Tree.count]; omega

/-! ## The walks -/

theorem inorder_spec {α : Type} {mem : Nat → Option (Node K V)} (f : Node K V → α) :
    ∀ (t : Tree K V) (par : Ptr) (fuel : Nat), Rep mem par t → t.height < fuel →
      inorder mem f fuel t.ptr = some ((t.recs par).map f) := by
  intro t
  induction t with
  | nil =>
    intro par fuel _ hfuel
    obtain ⟨fuel, rfl⟩ : ∃ f', fuel = f' + 1 := ⟨fuel - 1, by omega⟩
    rfl
  | node a c l k v r ihl ihr =>
    intro par fuel h hfuel
    obtain ⟨fuel, rfl⟩ : ∃ f', fuel = f' + 1 := ⟨fuel - 1, by omega⟩
    simp only [Tree.height, Nat.add_lt_add_iff_right, max_lt_iff] at hfuel
    obtain ⟨h1, h2, h3⟩ := h
    simp only [Tree.ptr_node, inorder, h1, ihl _ fuel h2 hfuel.1, ihr _ fuel h3 hfuel.2,
      Tree.recs, List.map_append, List.map_cons]

theorem Tree.recs_entries (t : Tree K V) (par : Ptr) :
    (t.recs par).map (fun n => (n.key, n.value)) = t.toList := by
  induction t generalizing par with
  | nil => rfl
  | node a c l k v r ihl ihr => simp [Tree.recs, Tree.toList, ihl, ihr]

theorem Tree.recs_keys (t : Tree K V) (par : Ptr) :
    (t.recs par).map (fun n => n.key) = t.keys := by
  rw [Tree.keys, ← Tree.recs_entries t par, List.map_map]
  rfl

theorem Holds.keys {s : RedBlackTree K V} {T : Tree K V} (h : Holds s T) {fuel : Nat}
    (hfuel : T.height < fuel) : s.Keys fuel = some T.keys := by
  have := inorder_spec (fun n : Node K V => n.key) T none fuel h.onTree hfuel
  rw [Tree.recs_keys] at this
  rw [RedBlackTree.Keys, h.root_eq]
  exact this

theorem Holds.entries {s : RedBlackTree K V} {T : Tree K V} (h : Holds s T) {fuel : Nat}
    (hfuel : T.height < fuel) : s.Entries fuel = some T.toList := by
  have := inorder_spec (fun n : Node K V => (n.key, n.value)) T none fuel h.onTree hfuel
  rw [Tree.recs_entries] at this
  rw [RedBlackTree.Entries, h.root_eq]
  exact this

/-! ## Search tree ordering -/

theorem Tree.keys_node {a : Nat} {c : Color} {l r : Tree K V} {k : K} {v : V} :
    (Tree.node a c l k v r).keys = l.keys ++ k :: r.keys := by
  simp [Tree.keys, Tree.toList]

theorem Tree.bst_iff [LinearOrder K] (t : Tree K V) : t.BST ↔ t.keys.Pairwise (· < ·) := by
  induction t with
  | nil => simp [Tree.BST, Tree.keys, Tree.toList]
  | node a c l k v r ihl ihr =>
    simp only [Tree.BST, Tree.keys_node, List.pairwise_append, List.pairwise_cons, ihl, ihr,
      List.mem_cons]
    constructor
    · rintro ⟨h1, h2, h3, h4⟩
      refine ⟨h3, ⟨h2, h4⟩, ?_⟩
      rintro x hx y (rfl | hy)
      · exact h1 x hx
      · exact lt_trans (h1 x hx) (h2 y hy)
    · rintro ⟨h3, ⟨h2, h4⟩, h5⟩
      exact ⟨fun x hx => h5 x hx k (Or.inl rfl), h2, h3, h4⟩

theorem pairwise_mid [LinearOrder K] {B L R A : List (K × V)} {k : K} {v : V}
    (h : ((B ++ (L ++ (k, v) :: R) ++ A).map Prod.fst).Pairwise (· < ·)) :
    (∀ x ∈ B, x.1 < k) ∧ (∀ x ∈ L, x.1 < k) ∧ (∀ x ∈ R, k < x.1) ∧ (∀ x ∈ A, k < x.1) := by
  rw [List.pairwise_map] at h
  simp only [List.pairwise_append, List.pairwise_cons, List.mem_append, List.mem_cons] at h
  obtain ⟨⟨-, ⟨-, ⟨h1, -⟩, h2⟩, h3⟩, -, h4⟩ := h
  refine ⟨fun x hx => h3 x hx (k, v) (Or.inr (Or.inl rfl)), fun x hx => h2 x hx (k, v) (Or.inl rfl),
    h1, fun x hx => h4 (k, v) (Or.inr (Or.inr (Or.inl rfl))) x hx⟩

theorem Tree.zoom_cut [LinearOrder K] (k : K) :
    ∀ (t : Tree K V) (path : Path K V),
      ((Path.before path ++ t.toList ++ Path.after path).map Prod.fst).Pairwise (· < ·) →
      Path.Cut k path →
      Path.Cut k (t.zoom k path).1 ∧
        ∀ a c l k' v' r, (t.zoom k path).2 = Tree.node a c l k' v' r → k' = k := by
  intro t
  induction t with
  | nil =>
    intro path _ hc
    exact ⟨hc, fun a c l k' v' r h => by simp [Tree.zoom] at h⟩
  | node a c l k' v r ihl ihr =>
    intro path hp hc
    obtain ⟨m1, m2, m3, m4⟩ := pairwise_mid hp
    simp only [Tree.zoom]
    split
    · rename_i h1
      refine ihl _ (by simpa [Path.before, Path.after, Tree.toList] using hp) ⟨hc.1, ?_⟩
      intro x hx
      simp only [Path.after, List.cons_append, List.mem_cons, List.mem_append] at hx
      rcases hx with rfl | hx | hx
      · exact h1
      · exact lt_trans h1 (m3 x hx)
      · exact hc.2 x hx
    · rename_i h1
      split
      · rename_i h2
        refine ihr _ (by simpa [Path.before, Path.after, Tree.toList] using hp) ⟨?_, hc.2⟩
        intro x hx
        simp only [Path.before, List.mem_append, List.mem_singleton] at hx
        rcases hx with hx | hx | rfl
        · exact hc.1 x hx
        · exact lt_trans (m2 x hx) h2
        · exact h2
      · rename_i h2
        refine ⟨hc, ?_⟩
        intro a' c' l' k'' v'' r' e
        simp only [Tree.node.injEq] at e
        obtain ⟨-, -, -, rfl, -, -⟩ := e
        exact le_antisymm (not_lt.1 h1) (not_lt.1 h2)

theorem Path.cut_nil [LinearOrder K] (k : K) : Path.Cut k ([] : Path K V) :=
  ⟨fun _ h => by simp [Path.before] at h, fun _ h => by simp [Path.after] at h⟩

/-- What the descent from the root finds in a search tree. -/
theorem Tree.zoom_root [LinearOrder K] (k : K) {T : Tree K V} (hb : T.BST) :
    T.toList = Path.before (T.zoom k []).1 ++ (T.zoom k []).2.toList ++ Path.after (T.zoom k []).1 ∧
    Path.Cut k (T.zoom k []).1 ∧
    ∀ a c l k' v' r, (T.zoom k []).2 = Tree.node a c l k' v' r → k' = k := by
  have h1 := Tree.zoom_fill k T []
  have h2 := Path.fill_toList (T.zoom k []).1 (T.zoom k []).2
  rw [h1] at h2
  have h3 := Tree.zoom_cut k T [] (by
    simpa [Path.before, Path.after, Tree.keys] using (Tree.bst_iff T).1 hb) (Path.cut_nil k)
  exact ⟨h2, h3⟩


/-! ## Overwriting a value -/

theorem Tree.setValue_of_not_mem [DecidableEq K] (k : K) (v : V) :
    ∀ (t : Tree K V), k ∉ t.keys → t.setValue k v = t := by
  intro t
  induction t with
  | nil => intro _; rfl
  | node a c l k' v' r ihl ihr =>
    intro h
    simp only [Tree.keys_node, List.mem_append, List.mem_cons, not_or] at h
    simp only [Tree.setValue, ihl h.1, ihr h.2.2, if_neg (Ne.symm h.2.1)]

theorem Tree.setValue_keys [DecidableEq K] (k : K) (v : V) (t : Tree K V) :
    (t.setValue k v).keys = t.keys := by
  induction t with
  | nil => rfl
  | node a c l k' v' r ihl ihr => simp only [Tree.setValue, Tree.keys_node, ihl, ihr]

theorem Tree.mem_keys_of_mem_toList {t : Tree K V} {x : K × V} (h : x ∈ t.toList) :
    x.1 ∈ t.keys :=
  List.mem_map_of_mem _ h

theorem Tree.exists_of_mem_keys {t : Tree K V} {k : K} (h : k ∈ t.keys) :
    ∃ x ∈ t.toList, x.1 = k := by
  simpa [Tree.keys] using h

/-- The root of a tree with another value. -/
theorem Tree.zoom_setValue [LinearOrder K] (k : K) (v : V) :
    ∀ (t : Tree K V) (path path' : Path K V) (b : Nat) (c : Color) (l r : Tree K V) (k' : K)
      (v' : V), t.BST → t.zoom k path = (path', Tree.node b c l k' v' r) →
      Path.fill path' (Tree.node b c l k' v r) = Path.fill path (t.setValue k v) := by
  intro t
  induction t with
  | nil => intro path path' b c l r k' v' _ h; simp [Tree.zoom] at h
  | node a c0 l0 k0 v0 r0 ihl ihr =>
    intro path path' b c l r k' v' hb h
    obtain ⟨b1, b2, b3, b4⟩ := hb
    simp only [Tree.zoom] at h
    split at h
    · rename_i h1
      rw [ihl _ _ _ _ _ _ _ _ b3 h]
      have hr : r0.setValue k v = r0 :=
        Tree.setValue_of_not_mem k v r0 (fun hm => absurd (b2 k hm) (not_lt_of_gt h1))
      simp only [Path.fill, Frame.fill, Tree.setValue, hr, if_neg (ne_of_gt h1)]
    · rename_i h1
      split at h
      · rename_i h2
        rw [ihr _ _ _ _ _ _ _ _ b4 h]
        have hl : l0.setValue k v = l0 :=
          Tree.setValue_of_not_mem k v l0 (fun hm => absurd (b1 k hm) (not_lt_of_gt h2))
        simp only [Path.fill, Frame.fill, Tree.setValue, hl, if_neg (ne_of_lt h2)]
      · rename_i h2
        simp only [Prod.mk.injEq, Tree.node.injEq] at h
        obtain ⟨rfl, rfl, rfl, rfl, rfl, rfl, rfl⟩ := h
        have hk : k0 = k := le_antisymm (not_lt.1 h1) (not_lt.1 h2)
        have hl : l0.setValue k v = l0 :=
          Tree.setValue_of_not_mem k v l0 (fun hm => absurd (b1 k hm) (by rw [hk]; exact lt_irrefl k))
        have hr : r0.setValue k v = r0 :=
          Tree.setValue_of_not_mem k v r0 (fun hm => absurd (b2 k hm) (by rw [hk]; exact lt_irrefl k))
        simp only [Tree.setValue, hl, hr, hk, ↓reduceIte]


/-! ## `Insert` and `Remove` on a well-formed state -/

theorem Models.holds {nx : Nat} {sz : Int} {s : RedBlackTree K V} {T : Tree K V}
    (h : Models nx sz s [] T) : Holds s T := by
  have h1 := h.next_eq
  have h2 := h.size_eq
  subst h1 h2
  exact h

theorem pairwise_insert_mid [LinearOrder K] {l1 l2 : List (K × V)} {k : K} {v : V}
    (h : ((l1 ++ l2).map Prod.fst).Pairwise (· < ·))
    (h1 : ∀ x ∈ l1, x.1 < k) (h2 : ∀ x ∈ l2, k < x.1) :
    ((l1 ++ (k, v) :: l2).map Prod.fst).Pairwise (· < ·) := by
  rw [List.pairwise_map] at h ⊢
  simp only [List.pairwise_append, List.pairwise_cons, List.mem_cons] at h ⊢
  obtain ⟨p1, p2, p3⟩ := h
  refine ⟨p1, ⟨h2, p2⟩, ?_⟩
  rintro x hx y (rfl | hy)
  · exact h1 x hx
  · exact p3 x hx y hy

theorem Holds.insert [LinearOrder K] {s : RedBlackTree K V} {T : Tree K V} (h : Holds s T)
    (hrb : T.RedBlack) (hb : T.BST) (k : K) (v : V) (fuel : Nat) (hf : T.height < fuel) :
    ∃ s' T', s.Insert fuel k v = some s' ∧ Holds s' T' ∧ T'.RedBlack ∧ T'.BST ∧
      ((k ∉ T.keys ∧ s'.size = s.size + 1 ∧ ∃ l1 l2, T.toList = l1 ++ l2 ∧
          T'.toList = l1 ++ (k, v) :: l2 ∧ (∀ x ∈ l1, x.1 < k) ∧ (∀ x ∈ l2, k < x.1)) ∨
       (k ∈ T.keys ∧ s'.size = s.size ∧ T' = T.setValue k v)) := by
  obtain ⟨m, hm⟩ := Tree.redBlack_iff.1 hrb
  obtain ⟨hA, hB⟩ := Insert_spec h hm k v fuel hf
  obtain ⟨z1, z2, z3⟩ := Tree.zoom_root k hb
  have hpw := (Tree.bst_iff T).1 hb
  rcases hz : T.zoom k [] with ⟨path', t'⟩
  rw [hz] at z1 z2 z3
  simp only at z1 z2 z3
  cases t' with
  | nil =>
    obtain ⟨s', T', e, h', hrb', hL⟩ := hA path' hz
    simp only [Tree.toList, List.append_nil] at z1
    rw [Path.fill_toList] at hL
    simp only [Tree.toList, List.nil_append, List.append_assoc, List.singleton_append] at hL
    have hpw' : T'.keys.Pairwise (· < ·) := by
      rw [Tree.keys, hL]
      exact pairwise_insert_mid (by rw [← z1]; exact hpw) z2.1 z2.2
    refine ⟨s', T', e, h'.holds, Tree.redBlack_iff.2 hrb', (Tree.bst_iff T').2 hpw', Or.inl
      ⟨?_, h'.size_eq, _, _, z1, hL, z2.1, z2.2⟩⟩
    intro hk
    obtain ⟨x, hx, rfl⟩ := Tree.exists_of_mem_keys hk
    rw [z1, List.mem_append] at hx
    rcases hx with hx | hx
    · exact lt_irrefl _ (z2.1 x hx)
    · exact lt_irrefl _ (z2.2 x hx)
  | node b c l k' v' r =>
    obtain ⟨s', e, h', hrb'⟩ := hB path' b c l k' v' r hz
    have hk : k' = k := z3 b c l k' v' r rfl
    have hset := Tree.zoom_setValue k v T [] path' b c l r k' v' hb hz
    simp only [Path.fill] at hset
    rw [hset] at h' hrb'
    refine ⟨s', _, e, h'.holds, Tree.redBlack_iff.2 hrb', ?_, Or.inr ⟨?_, h'.size_eq, rfl⟩⟩
    · rw [Tree.bst_iff, Tree.setValue_keys]; exact hpw
    · rw [Tree.keys, z1]
      simp [Tree.toList, hk]


theorem Holds.search [LinearOrder K] {s : RedBlackTree K V} {T : Tree K V} (h : Holds s T)
    (k : K) (fuel : Nat) (hf : T.height < fuel) :
    s.search fuel k = some (T.zoom k []).2.ptr := by
  have := searchLoop_spec k T [] fuel h hf
  rw [RedBlackTree.search, h.root_eq]
  exact this

theorem Holds.remove [LinearOrder K] {s : RedBlackTree K V} {T : Tree K V} (h : Holds s T)
    (hrb : T.RedBlack) (hb : T.BST) (k : K) (fuel : Nat) (hf : T.height < fuel) :
    ∃ s' T', s.Remove fuel k = some s' ∧ Holds s' T' ∧ T'.RedBlack ∧ T'.BST ∧
      ((k ∉ T.keys ∧ s' = s ∧ T' = T) ∨
       (s'.size = s.size - 1 ∧ ∃ l1 l2 v0, T.toList = l1 ++ (k, v0) :: l2 ∧
          T'.toList = l1 ++ l2)) := by
  obtain ⟨m, hm⟩ := Tree.redBlack_iff.1 hrb
  obtain ⟨z1, z2, z3⟩ := Tree.zoom_root k hb
  have hpw := (Tree.bst_iff T).1 hb
  have hs := h.search k fuel hf
  have hz0 := Models.zoom h k
  obtain ⟨c1, m1, hr1, hr2⟩ := Tree.zoom_rb k T [] _ _ hm PathRB.root
  have hlen := Tree.zoom_length k T []
  rcases hz : T.zoom k [] with ⟨path', t'⟩
  rw [hz] at z1 z2 z3 hs hz0 hr1 hr2 hlen
  simp only at z1 z2 z3 hs hz0 hr1 hr2 hlen
  cases t' with
  | nil =>
    refine ⟨s, T, by simp only [RedBlackTree.Remove, hs, Tree.ptr_nil], h, hrb, hb,
      Or.inl ⟨?_, rfl, rfl⟩⟩
    simp only [Tree.toList, List.append_nil] at z1
    intro hk
    obtain ⟨x, hx, rfl⟩ := Tree.exists_of_mem_keys hk
    rw [z1, List.mem_append] at hx
    rcases hx with hx | hx
    · exact lt_irrefl _ (z2.1 x hx)
    · exact lt_irrefl _ (z2.2 x hx)
  | node a c l k' v' r =>
    have hk : k' = k := z3 a c l k' v' r rfl
    subst hk
    obtain ⟨s', T', e, h', hrb', hL⟩ := delete_spec hz0 hr1 hr2 fuel (by
      simp only [List.length_nil, zero_add] at hlen; omega)
    have hpw' : T'.keys.Pairwise (· < ·) := by
      rw [Tree.keys, hL]
      rw [Tree.keys, z1] at hpw
      refine hpw.sublist (List.Sublist.map _ ?_)
      simp only [Tree.toList, List.append_assoc]
      exact List.Sublist.append (List.Sublist.refl _) (List.Sublist.append (List.Sublist.refl _)
        (List.sublist_cons_self _ _))
    refine ⟨s', T', by simp only [RedBlackTree.Remove, hs, Tree.ptr_node, e], h'.holds,
      Tree.redBlack_iff.2 hrb', (Tree.bst_iff T').2 hpw', Or.inr ⟨h'.size_eq,
      Path.before path' ++ l.toList, r.toList ++ Path.after path', v', ?_, ?_⟩⟩
    · rw [z1]; simp [Tree.toList]
    · rw [hL]; simp

theorem Holds.Search_found [LinearOrder K] {s : RedBlackTree K V} {T : Tree K V}
    (h : Holds s T) (hb : T.BST) {k : K} {v : V} (hm : (k, v) ∈ T.toList) (fuel : Nat)
    (hf : T.height < fuel) : s.Search fuel k = some (some v, true) := by
  obtain ⟨z1, z2, z3⟩ := Tree.zoom_root k hb
  have hpw := (Tree.bst_iff T).1 hb
  have hs := h.search k fuel hf
  have hz0 := Models.zoom h k
  rcases hz : T.zoom k [] with ⟨path', t'⟩
  rw [hz] at z1 z2 z3 hs hz0
  simp only at z1 z2 z3 hs hz0
  have hm' : (k, v) ∈ t'.toList := by
    rw [z1] at hm
    simp only [List.mem_append] at hm
    rcases hm with (hm | hm) | hm
    · exact absurd (z2.1 _ hm) (lt_irrefl k)
    · exact hm
    · exact absurd (z2.2 _ hm) (lt_irrefl k)
  cases t' with
  | nil => simp [Tree.toList] at hm'
  | node a c l k' v' r =>
    have hk : k' = k := z3 a c l k' v' r rfl
    subst hk
    rw [Tree.keys, z1] at hpw
    obtain ⟨-, m2, m3, -⟩ := pairwise_mid (L := l.toList) (R := r.toList) (v := v') hpw
    simp only [Tree.toList, List.mem_append, List.mem_cons] at hm'
    have hv : v = v' := by
      rcases hm' with hm' | hm' | hm'
      · exact absurd (m2 _ hm') (lt_irrefl _)
      · exact (Prod.mk.inj hm').2
      · exact absurd (m3 _ hm') (lt_irrefl _)
    subst hv
    simp only [RedBlackTree.Search, hs, Tree.ptr_node, hz0.mem_focus]

theorem Holds.Search_absent [LinearOrder K] {s : RedBlackTree K V} {T : Tree K V}
    (h : Holds s T) (hb : T.BST) {k : K} (hm : k ∉ T.keys) (fuel : Nat)
    (hf : T.height < fuel) : s.Search fuel k = some (none, false) := by
  obtain ⟨z1, z2, z3⟩ := Tree.zoom_root k hb
  have hs := h.search k fuel hf
  rcases hz : T.zoom k [] with ⟨path', t'⟩
  rw [hz] at z1 z2 z3 hs
  simp only at z1 z2 z3 hs
  cases t' with
  | nil => simp only [RedBlackTree.Search, hs, Tree.ptr_nil]
  | node a c l k' v' r =>
    have hk : k' = k := z3 a c l k' v' r rfl
    subst hk
    exact absurd (by rw [Tree.keys, z1]; simp [Tree.toList]) hm


end Rbt

namespace Rbt

variable {K V : Type}

/-! ## Every reachable state is well formed -/

theorem holds_make : Holds (Make : RedBlackTree K V) Tree.nil :=
  ⟨rfl, rfl, rfl, trivial, trivial, List.nodup_nil, fun _ h => by simp [Path.addrs, Tree.addrs] at h⟩

theorem inv_make [LinearOrder K] : Inv (Make : RedBlackTree K V) :=
  ⟨Tree.nil, holds_make, ⟨rfl, trivial, trivial⟩, trivial, rfl⟩

theorem Tree.setValue_count [DecidableEq K] (k : K) (v : V) (t : Tree K V) :
    (t.setValue k v).count = t.count := by
  rw [← Tree.length_keys, Tree.setValue_keys, Tree.length_keys]

/-- `Insert` on a well-formed state, with the size kept in step. -/
theorem Inv.insert_spec [LinearOrder K] {s : RedBlackTree K V} {T : Tree K V} (h : Holds s T)
    (hrb : T.RedBlack) (hb : T.BST) (hsz : s.size = T.count) (k : K) (v : V) (fuel : Nat)
    (hf : T.height < fuel) :
    ∃ s' T', s.Insert fuel k v = some s' ∧ Holds s' T' ∧ T'.RedBlack ∧ T'.BST ∧
      s'.size = T'.count ∧
      ((k ∉ T.keys ∧ s'.size = s.size + 1 ∧ ∃ l1 l2, T.toList = l1 ++ l2 ∧
          T'.toList = l1 ++ (k, v) :: l2 ∧ (∀ x ∈ l1, x.1 < k) ∧ (∀ x ∈ l2, k < x.1)) ∨
       (k ∈ T.keys ∧ s'.size = s.size ∧ T' = T.setValue k v)) := by
  obtain ⟨s', T', e, h', hrb', hb', hc⟩ := h.insert hrb hb k v fuel hf
  refine ⟨s', T', e, h', hrb', hb', ?_, hc⟩
  rcases hc with ⟨-, e1, l1, l2, e2, e3, -, -⟩ | ⟨-, e1, e2⟩
  · rw [e1, hsz, ← Tree.length_toList, ← Tree.length_toList, e2, e3]
    simp only [List.length_append, List.length_cons]
    push_cast
    ring
  · rw [e1, hsz, e2, Tree.setValue_count]

/-- `Remove` on a well-formed state, with the size kept in step. -/
theorem Inv.remove_spec [LinearOrder K] {s : RedBlackTree K V} {T : Tree K V} (h : Holds s T)
    (hrb : T.RedBlack) (hb : T.BST) (hsz : s.size = T.count) (k : K) (fuel : Nat)
    (hf : T.height < fuel) :
    ∃ s' T', s.Remove fuel k = some s' ∧ Holds s' T' ∧ T'.RedBlack ∧ T'.BST ∧
      s'.size = T'.count ∧
      ((k ∉ T.keys ∧ s' = s ∧ T' = T) ∨
       (s'.size = s.size - 1 ∧ ∃ l1 l2 v0, T.toList = l1 ++ (k, v0) :: l2 ∧
          T'.toList = l1 ++ l2)) := by
  obtain ⟨s', T', e, h', hrb', hb', hc⟩ := h.remove hrb hb k fuel hf
  refine ⟨s', T', e, h', hrb', hb', ?_, hc⟩
  rcases hc with ⟨-, rfl, rfl⟩ | ⟨e1, l1, l2, v0, e2, e3⟩
  · exact hsz
  · rw [e1, hsz, ← Tree.length_toList, ← Tree.length_toList, e2, e3]
    simp only [List.length_append, List.length_cons]
    push_cast
    ring

theorem Inv.insert_inv [LinearOrder K] {s s' : RedBlackTree K V} (h : Inv s) {fuel : Nat} {k : K}
    {v : V} (e : s.Insert fuel k v = some s') : Inv s' := by
  obtain ⟨T, hT, hrb, hb, hsz⟩ := h
  obtain ⟨s1, T1, e1, h1, hrb1, hb1, hsz1, -⟩ :=
    Inv.insert_spec hT hrb hb hsz k v (max fuel (T.height + 1)) (by omega)
  have := Insert_mono (le_max_left fuel (T.height + 1)) e
  rw [e1] at this
  cases this
  exact ⟨T1, h1, hrb1, hb1, hsz1⟩

theorem Inv.remove_inv [LinearOrder K] {s s' : RedBlackTree K V} (h : Inv s) {fuel : Nat} {k : K}
    (e : s.Remove fuel k = some s') : Inv s' := by
  obtain ⟨T, hT, hrb, hb, hsz⟩ := h
  obtain ⟨s1, T1, e1, h1, hrb1, hb1, hsz1, -⟩ :=
    Inv.remove_spec hT hrb hb hsz k (max fuel (T.height + 1)) (by omega)
  have := Remove_mono (le_max_left fuel (T.height + 1)) e
  rw [e1] at this
  cases this
  exact ⟨T1, h1, hrb1, hb1, hsz1⟩

theorem Reachable.to_inv [LinearOrder K] {s : RedBlackTree K V} (h : Reachable s) : Inv s := by
  induction h with
  | make => exact inv_make
  | insert fuel k v _ e ih => exact ih.insert_inv e
  | remove fuel k _ e ih => exact ih.remove_inv e

/-- Fuel above `Size()` is enough for every way down the tree. -/
theorem height_lt_of_size_lt {s : RedBlackTree K V} {T : Tree K V} (hsz : s.size = T.count)
    {fuel : Nat} (hf : s.Size < fuel) : T.height < fuel := by
  have h1 := Tree.height_le_count T
  have h2 : (T.count : Int) < fuel := by rw [← hsz]; exact hf
  omega

/-- A sequence of `Insert` calls on a well-formed state. -/
theorem insertAll_spec [LinearOrder K] (fuel : Nat) :
    ∀ (kvs : List (K × V)) (s : RedBlackTree K V) (T : Tree K V), Holds s T → T.RedBlack →
      T.BST → s.size = T.count → T.count + kvs.length < fuel →
      ∃ s' T', insertAll fuel kvs s = some s' ∧ Holds s' T' ∧ T'.RedBlack ∧ T'.BST ∧
        s'.size = T'.count ∧ T'.count ≤ T.count + kvs.length ∧
        ∀ x, x ∈ T'.keys ↔ x ∈ T.keys ∨ x ∈ kvs.map Prod.fst := by
  intro kvs
  induction kvs with
  | nil =>
    intro s T h hrb hb hsz _
    exact ⟨s, T, rfl, h, hrb, hb, hsz, by simp, by simp⟩
  | cons kv kvs ih =>
    intro s T h hrb hb hsz hf
    obtain ⟨k, v⟩ := kv
    simp only [List.length_cons] at hf
    have hh := Tree.height_le_count T
    obtain ⟨s1, T1, e1, h1, hrb1, hb1, hsz1, hc⟩ :=
      Inv.insert_spec h hrb hb hsz k v fuel (by omega)
    have hcount : T1.count ≤ T.count + 1 ∧ ∀ x, x ∈ T1.keys ↔ x = k ∨ x ∈ T.keys := by
      rcases hc with ⟨-, -, l1, l2, e2, e3, -, -⟩ | ⟨hk, -, e2⟩
      · constructor
        · rw [← Tree.length_toList, ← Tree.length_toList, e2, e3]
          simp only [List.length_append, List.length_cons]
          omega
        · intro x
          simp only [Tree.keys, e2, e3, List.map_append, List.map_cons, List.mem_append,
            List.mem_cons]
          tauto
      · constructor
        · rw [e2, Tree.setValue_count]; omega
        · intro x
          rw [e2, Tree.setValue_keys]
          constructor
          · exact Or.inr
          · rintro (rfl | hx)
            · exact hk
            · exact hx
    obtain ⟨s2, T2, e2, h2, hrb2, hb2, hsz2, hle2, hk2⟩ :=
      ih s1 T1 h1 hrb1 hb1 hsz1 (by omega)
    refine ⟨s2, T2, by simp only [insertAll, e1, e2], h2, hrb2, hb2, hsz2,
      by simp only [List.length_cons]; omega, ?_⟩
    intro x
    rw [hk2, hcount.2]
    simp only [List.map_cons, List.mem_cons]
    tauto

end Rbt

namespace Rbt

variable {K V : Type}

/-! ## The tree a state holds is unique -/

theorem Rep.unique {mem : Nat → Option (Node K V)} :
    ∀ (t t' : Tree K V) (p : Ptr), Rep mem p t → Rep mem p t' → t.ptr = t'.ptr → t = t' := by
  intro t
  induction t with
  | nil =>
    intro t' p _ _ e
    cases t' with
    | nil => rfl
    | node a c l k v r => simp [Tree.ptr] at e
  | node a c l k v r ihl ihr =>
    intro t' p h h' e
    cases t' with
    | nil => simp [Tree.ptr] at e
    | node a' c' l' k' v' r' =>
      simp only [Tree.ptr, Option.some.injEq] at e
      subst e
      obtain ⟨h1, h2, h3⟩ := h
      obtain ⟨h1', h2', h3'⟩ := h'
      rw [h1] at h1'
      simp only [Option.some.injEq, Node.mk.injEq, true_and] at h1'
      obtain ⟨el, er, ek, ev, ec⟩ := h1'
      have hl := ihl l' (some a) h2 h2' el
      have hr := ihr r' (some a) h3 h3' er
      subst hl hr ek ev ec
      rfl

theorem Holds.tree_unique {s : RedBlackTree K V} {T T' : Tree K V} (h : Holds s T)
    (h' : Holds s T') : T = T' :=
  Rep.unique T T' none h.onTree h'.onTree (h.root_eq.symm.trans h'.root_eq)

/-! ## Overwriting a value -/

theorem Tree.setValue_toList [DecidableEq K] (k : K) (v : V) (t : Tree K V) :
    (t.setValue k v).toList = t.toList.map (fun x => if x.1 = k then (x.1, v) else x) := by
  induction t with
  | nil => rfl
  | node a c l k' v' r ihl ihr =>
    simp only [Tree.setValue, Tree.toList, ihl, ihr, List.map_append, List.map_cons]
    by_cases hk : k' = k
    · simp only [hk, if_true]
    · simp only [hk, if_false]

theorem Tree.mem_setValue [DecidableEq K] {k : K} {v w : V} {t : Tree K V}
    (h : (k, w) ∈ t.toList) : (k, v) ∈ (t.setValue k v).toList := by
  rw [Tree.setValue_toList]
  exact List.mem_map.2 ⟨(k, w), h, by simp⟩

/-! ## Reachable states -/

theorem Reachable.insertAll [LinearOrder K] (fuel : Nat) :
    ∀ (kvs : List (K × V)) {s s' : RedBlackTree K V}, Reachable s →
      Rbt.insertAll fuel kvs s = some s' → Reachable s' := by
  intro kvs
  induction kvs with
  | nil =>
    intro s s' h e
    simp only [Rbt.insertAll, Option.some.injEq] at e
    exact e ▸ h
  | cons kv kvs ih =>
    intro s s' h e
    obtain ⟨k, v⟩ := kv
    simp only [Rbt.insertAll] at e
    cases e1 : s.Insert fuel k v with
    | none => rw [e1] at e; cases e
    | some s1 =>
      rw [e1] at e
      exact ih (Reachable.insert fuel k v h e1) e

/-- The tree of a reachable state, with fuel above `Size()` enough for it. -/
theorem Reachable.tree [LinearOrder K] {s : RedBlackTree K V} (h : Reachable s) :
    ∃ T, Holds s T ∧ T.RedBlack ∧ T.BST ∧ s.size = T.count ∧
      ∀ fuel : Nat, s.Size < fuel → T.height < fuel := by
  obtain ⟨T, h1, h2, h3, h4⟩ := h.to_inv
  exact ⟨T, h1, h2, h3, h4, fun fuel hf => height_lt_of_size_lt h4 hf⟩

theorem size_lt_of_count {s : RedBlackTree K V} {T : Tree K V} (hsz : s.size = T.count)
    {fuel : Nat} (hf : s.Size < fuel) : T.height < fuel :=
  height_lt_of_size_lt hsz hf

/-- A key erased from a sorted sequence is no longer in it. -/
theorem not_mem_of_erased [LinearOrder K] {T T' : Tree K V} (hb : T.BST) {k : K} {v0 : V}
    {l1 l2 : List (K × V)} (e : T.toList = l1 ++ (k, v0) :: l2) (e' : T'.toList = l1 ++ l2) :
    k ∉ T'.keys := by
  have hpw := (Tree.bst_iff T).1 hb
  rw [Tree.keys, e] at hpw
  simp only [List.map_append, List.map_cons, List.pairwise_append, List.pairwise_cons,
    List.mem_cons, List.mem_map, forall_exists_index, and_imp, Prod.forall] at hpw
  obtain ⟨-, ⟨h2, -⟩, h3⟩ := hpw
  rw [Tree.keys, e']
  simp only [List.map_append, List.mem_append, List.mem_map, Prod.exists, exists_and_right,
    exists_eq_right, not_or, not_exists]
  constructor
  · intro v hv
    have := h3 k k v hv rfl k (Or.inl rfl)
    exact lt_irrefl _ this
  · intro v hv
    have := h2 k k v hv rfl
    exact lt_irrefl _ this

/-- A sorted list of keys with the members of `ks` has as many entries as `ks`
has distinct members. -/
theorem length_eq_dedup [LinearOrder K] {l ks : List K} (hpw : l.Pairwise (· < ·))
    (hm : ∀ x, x ∈ l ↔ x ∈ ks) : l.length = ks.dedup.length := by
  have hnd : l.Nodup := hpw.imp (fun h => ne_of_lt h)
  have : l.Perm ks.dedup :=
    (List.perm_ext_iff_of_nodup hnd (List.nodup_dedup ks)).2
      (fun a => by rw [hm, List.mem_dedup])
  exact this.length_eq

/-! ## The example -/

theorem demo_insertAll : insertAll 8 demoPairs Make = some demo := rfl

theorem demo_reachable : Reachable demo :=
  Reachable.insertAll 8 demoPairs Reachable.make demo_insertAll

theorem demo_holds : Holds demo demoTree :=
  ⟨rfl, rfl, rfl, trivial, ⟨rfl, ⟨rfl, trivial, trivial⟩, ⟨rfl, trivial, trivial⟩⟩,
    by decide, by decide⟩

end Rbt

namespace Rbt

variable {K V : Type}

/-! ## The validator computes the properties of the tree -/

theorem Rep.toRepDown {mem : Nat → Option (Node K V)} :
    ∀ (t : Tree K V) (par : Ptr), Rep mem par t → RepDown mem t
  | Tree.nil, _, _ => trivial
  | Tree.node _ _ l _ _ r, _, ⟨h1, h2, h3⟩ =>
    ⟨⟨_, h1, rfl, rfl, rfl, rfl, rfl⟩, Rep.toRepDown l _ h2, Rep.toRepDown r _ h3⟩

theorem Holds.repDown {s : RedBlackTree K V} {T : Tree K V} (h : Holds s T) : RepDown s.mem T :=
  Rep.toRepDown T none h.onTree

theorem getBlackHeightLoop_spec {mem : Nat → Option (Node K V)} :
    ∀ (t : Tree K V) (fuel acc : Nat), RepDown mem t → t.height < fuel →
      getBlackHeightLoop mem fuel t.ptr acc = some (acc + t.blackHeight) := by
  intro t
  induction t with
  | nil =>
    intro fuel acc _ hf
    obtain ⟨f, rfl⟩ : ∃ f, fuel = f + 1 := ⟨fuel - 1, by omega⟩
    rfl
  | node a c l k v r ihl _ =>
    intro fuel acc h hf
    obtain ⟨f, rfl⟩ : ∃ f, fuel = f + 1 := ⟨fuel - 1, by omega⟩
    obtain ⟨⟨n, hn, el, er, ek, ev, ec⟩, hl, hr⟩ := h
    simp only [Tree.height] at hf
    have hlf : l.height < f := by omega
    simp only [Tree.ptr_node, getBlackHeightLoop, hn, el, ec]
    rw [ihl f _ hl hlf]
    simp only [Tree.blackHeight]
    by_cases hc : c = Color.black
    · simp only [hc, if_true]; congr 1; omega
    · simp only [hc, if_false]; congr 1

theorem getBlackHeight_spec {mem : Nat → Option (Node K V)} (t : Tree K V) (fuel : Nat)
    (h : RepDown mem t) (hf : t.height < fuel) :
    getBlackHeight mem fuel t.ptr = some t.blackHeight := by
  cases t with
  | nil => rfl
  | node a c l k v r =>
    have := getBlackHeightLoop_spec (Tree.node a c l k v r) fuel 0 h hf
    simp only [Nat.zero_add] at this
    simpa only [getBlackHeight, Tree.ptr_node] using this

theorem isBinarySearchTree_spec [LinearOrder K] {mem : Nat → Option (Node K V)} :
    ∀ (t : Tree K V) (fuel : Nat) (minKey maxKey : K), RepDown mem t → t.height < fuel →
      isBinarySearchTree mem fuel t.ptr minKey maxKey =
        some (t.isBinarySearchTree minKey maxKey) := by
  intro t
  induction t with
  | nil =>
    intro fuel lo hi _ hf
    obtain ⟨f, rfl⟩ : ∃ f, fuel = f + 1 := ⟨fuel - 1, by omega⟩
    rfl
  | node a c l k v r ihl ihr =>
    intro fuel lo hi h hf
    obtain ⟨f, rfl⟩ : ∃ f, fuel = f + 1 := ⟨fuel - 1, by omega⟩
    obtain ⟨⟨n, hn, el, er, ek, ev, ec⟩, hl, hr⟩ := h
    simp only [Tree.height] at hf
    have hlf : l.height < f := by omega
    have hrf : r.height < f := by omega
    simp only [Tree.ptr_node, isBinarySearchTree, hn, el, er, ek, Tree.isBinarySearchTree]
    by_cases hk : k ≤ lo ∨ k ≥ hi
    · simp only [hk, if_true]
    · simp only [hk, if_false]
      rw [ihl f lo k hl hlf, ihr f k hi hr hrf]
      cases l.isBinarySearchTree lo k <;> rfl

theorem hasSameBlackHeight_spec {mem : Nat → Option (Node K V)} :
    ∀ (t : Tree K V) (fuel : Nat), RepDown mem t → t.height < fuel →
      hasSameBlackHeight mem fuel t.ptr = some t.hasSameBlackHeight := by
  intro t
  induction t with
  | nil =>
    intro fuel _ hf
    obtain ⟨f, rfl⟩ : ∃ f, fuel = f + 1 := ⟨fuel - 1, by omega⟩
    rfl
  | node a c l k v r ihl ihr =>
    intro fuel h hf
    obtain ⟨f, rfl⟩ : ∃ f, fuel = f + 1 := ⟨fuel - 1, by omega⟩
    obtain ⟨⟨n, hn, el, er, ek, ev, ec⟩, hl, hr⟩ := h
    simp only [Tree.height] at hf
    have hlf : l.height < f := by omega
    have hrf : r.height < f := by omega
    simp only [Tree.ptr_node, hasSameBlackHeight, hn, el, er, Tree.hasSameBlackHeight,
      getBlackHeight_spec l f hl hlf, getBlackHeight_spec r f hr hrf]
    rw [ihl f hl hlf, ihr f hr hrf]
    by_cases hk : l.blackHeight = r.blackHeight
    · cases l.hasSameBlackHeight <;> simp [hk]
    · simp [hk]

theorem isRedChild_spec {mem : Nat → Option (Node K V)} (t : Tree K V) (h : RepDown mem t) :
    isRedChild mem t.ptr = some (decide (t.color = Color.red)) := by
  cases t with
  | nil => rfl
  | node a c l k v r =>
    obtain ⟨⟨n, hn, el, er, ek, ev, ec⟩, -, -⟩ := h
    simp only [isRedChild, Tree.ptr_node, hn, Option.map_some', ec, Tree.color_node]

theorem containsConsecutiveRedNodes_spec {mem : Nat → Option (Node K V)} :
    ∀ (t : Tree K V) (fuel : Nat), RepDown mem t → t.height < fuel →
      containsConsecutiveRedNodes mem fuel t.ptr = some t.containsConsecutiveRedNodes := by
  intro t
  induction t with
  | nil =>
    intro fuel _ hf
    obtain ⟨f, rfl⟩ : ∃ f, fuel = f + 1 := ⟨fuel - 1, by omega⟩
    rfl
  | node a c l k v r ihl ihr =>
    intro fuel h hf
    obtain ⟨f, rfl⟩ : ∃ f, fuel = f + 1 := ⟨fuel - 1, by omega⟩
    obtain ⟨⟨n, hn, el, er, ek, ev, ec⟩, hl, hr⟩ := h
    simp only [Tree.height] at hf
    have hlf : l.height < f := by omega
    have hrf : r.height < f := by omega
    simp only [Tree.ptr_node, containsConsecutiveRedNodes, hn, el, er, ec,
      Tree.containsConsecutiveRedNodes, isRedChild_spec l hl, isRedChild_spec r hr,
      ihl f hl hlf, ihr f hr hrf]
    cases c <;> cases hcl : l.color <;> cases hcr : r.color <;>
      cases l.containsConsecutiveRedNodes <;> cases r.containsConsecutiveRedNodes <;>
      simp

theorem IsValidRBTree_spec [LinearOrder K] {s : RedBlackTree K V} {T : Tree K V}
    (hroot : s.root = T.ptr) (h : RepDown s.mem T) (minValue maxValue : K) (fuel : Nat)
    (hf : T.height < fuel) :
    s.IsValidRBTree minValue maxValue fuel = some (T.IsValidRBTree minValue maxValue) := by
  cases T with
  | nil =>
    simp only [Tree.ptr] at hroot
    simp only [RedBlackTree.IsValidRBTree, hroot, Tree.IsValidRBTree]
  | node a c l k v r =>
    have h1 := isBinarySearchTree_spec (Tree.node a c l k v r) fuel minValue maxValue h hf
    have h2 := containsConsecutiveRedNodes_spec (Tree.node a c l k v r) fuel h hf
    have h3 := hasSameBlackHeight_spec (Tree.node a c l k v r) fuel h hf
    obtain ⟨⟨n, hn, el, er, ek, ev, ec⟩, hl, hr⟩ := h
    simp only [Tree.ptr_node] at hroot h1 h2 h3
    simp only [RedBlackTree.IsValidRBTree, hroot, hn, ec, h1, h2, h3, Tree.IsValidRBTree]
    cases c <;>
      cases (Tree.node a _ l k v r).isBinarySearchTree minValue maxValue <;>
      cases (Tree.node a _ l k v r).containsConsecutiveRedNodes <;>
      cases (Tree.node a _ l k v r).hasSameBlackHeight <;> simp

end Rbt

namespace Rbt

variable {K V : Type}

/-! ## What the validator decides -/

theorem Tree.isBinarySearchTree_iff [LinearOrder K] :
    ∀ (t : Tree K V) (minKey maxKey : K),
      t.isBinarySearchTree minKey maxKey = true ↔
        t.BST ∧ ∀ x ∈ t.keys, minKey < x ∧ x < maxKey := by
  intro t
  induction t with
  | nil =>
    intro lo hi
    simp [Tree.isBinarySearchTree, Tree.BST, Tree.keys, Tree.toList]
  | node a c l k v r ihl ihr =>
    intro lo hi
    simp only [Tree.isBinarySearchTree, Tree.BST, Tree.keys_node, List.mem_append,
      List.mem_cons]
    by_cases hk : k ≤ lo ∨ k ≥ hi
    · simp only [hk, if_true, Bool.false_eq_true, false_iff, not_and]
      intro _ hall
      have := hall k (Or.inr (Or.inl rfl))
      rcases hk with hk | hk
      · exact absurd this.1 (not_lt.2 hk)
      · exact absurd this.2 (not_lt.2 hk)
    · simp only [hk, if_false, Bool.and_eq_true, ihl, ihr]
      have hk1 : lo < k := by
        by_contra hc; exact hk (Or.inl (not_lt.1 hc))
      have hk2 : k < hi := by
        by_contra hc; exact hk (Or.inr (not_lt.1 hc))
      constructor
      · rintro ⟨⟨hbl, hl⟩, ⟨hbr, hr⟩⟩
        refine ⟨⟨fun x hx => (hl x hx).2, fun x hx => (hr x hx).1, hbl, hbr⟩, ?_⟩
        rintro x (hx | rfl | hx)
        · exact ⟨(hl x hx).1, lt_trans (hl x hx).2 hk2⟩
        · exact ⟨hk1, hk2⟩
        · exact ⟨lt_trans hk1 (hr x hx).1, (hr x hx).2⟩
      · rintro ⟨⟨h1, h2, hbl, hbr⟩, hall⟩
        exact ⟨⟨hbl, fun x hx => ⟨(hall x (Or.inl hx)).1, h1 x hx⟩⟩,
          ⟨hbr, fun x hx => ⟨h2 x hx, (hall x (Or.inr (Or.inr hx))).2⟩⟩⟩

/-- A key at or below `minKey`, or at or above `maxKey`, makes the ordering check fail. -/
theorem Tree.isBinarySearchTree_boundary [LinearOrder K] {t : Tree K V} {minKey maxKey k : K}
    (hk : k ∈ t.keys) (hb : k ≤ minKey ∨ maxKey ≤ k) :
    t.isBinarySearchTree minKey maxKey = false := by
  cases h : t.isBinarySearchTree minKey maxKey with
  | false => rfl
  | true =>
    have := ((Tree.isBinarySearchTree_iff t minKey maxKey).1 h).2 k hk
    rcases hb with hb | hb
    · exact absurd this.1 (not_lt.2 hb)
    · exact absurd this.2 (not_lt.2 hb)

theorem Tree.hasSameBlackHeight_iff :
    ∀ t : Tree K V, t.hasSameBlackHeight = true ↔ t.BlackBalanced := by
  intro t
  induction t with
  | nil => simp [Tree.hasSameBlackHeight, Tree.BlackBalanced]
  | node a c l k v r ihl ihr =>
    simp only [Tree.hasSameBlackHeight, Tree.BlackBalanced]
    by_cases hk : l.blackHeight = r.blackHeight
    · simp [hk, ihl, ihr]
    · simp [hk]

theorem Tree.containsConsecutiveRedNodes_iff :
    ∀ t : Tree K V, t.containsConsecutiveRedNodes = false ↔ t.NoRedRed := by
  intro t
  induction t with
  | nil => simp [Tree.containsConsecutiveRedNodes, Tree.NoRedRed]
  | node a c l k v r ihl ihr =>
    simp only [Tree.containsConsecutiveRedNodes, Tree.NoRedRed, ← ihl, ← ihr]
    cases c <;> cases hcl : l.color <;> cases hcr : r.color <;>
      cases l.containsConsecutiveRedNodes <;> cases r.containsConsecutiveRedNodes <;>
      simp

theorem Tree.IsValidRBTree_iff [LinearOrder K] (t : Tree K V) (minValue maxValue : K) :
    t.IsValidRBTree minValue maxValue = true ↔
      t ≠ Tree.nil ∧ t.color = Color.black ∧ t.BST ∧
        (∀ x ∈ t.keys, minValue < x ∧ x < maxValue) ∧ t.NoRedRed ∧ t.BlackBalanced := by
  cases t with
  | nil => simp [Tree.IsValidRBTree]
  | node a c l k v r =>
    rw [← Tree.hasSameBlackHeight_iff, ← Tree.containsConsecutiveRedNodes_iff, ← and_assoc (a := Tree.BST _),
      ← Tree.isBinarySearchTree_iff]
    simp only [Tree.IsValidRBTree, Tree.color_node]
    cases c <;>
      cases (Tree.node a _ l k v r).isBinarySearchTree minValue maxValue <;>
      cases (Tree.node a _ l k v r).containsConsecutiveRedNodes <;>
      cases (Tree.node a _ l k v r).hasSameBlackHeight <;> simp

/-! ## Black heights over all ways down -/

theorem Tree.blackHeight_mem_blackCounts :
    ∀ t : Tree K V, t.blackHeight ∈ t.blackCounts := by
  intro t
  induction t with
  | nil => simp [Tree.blackHeight, Tree.blackCounts]
  | node a c l k v r ihl _ =>
    simp only [Tree.blackHeight, Tree.blackCounts, List.mem_map, List.mem_append]
    exact ⟨l.blackHeight, Or.inl ihl, rfl⟩

/-- In a tree that passes the left-spine comparison at every node, every way
down passes as many black nodes as the leftmost one. -/
theorem Tree.BlackBalanced.blackCounts_eq :
    ∀ t : Tree K V, t.BlackBalanced → ∀ x ∈ t.blackCounts, x = t.blackHeight := by
  intro t
  induction t with
  | nil =>
    intro _ x hx
    simpa [Tree.blackCounts, Tree.blackHeight] using hx
  | node a c l k v r ihl ihr =>
    intro h x hx
    obtain ⟨e, hl, hr⟩ := h
    simp only [Tree.blackCounts, List.mem_map, List.mem_append] at hx
    obtain ⟨y, hy | hy, rfl⟩ := hx
    · rw [ihl hl y hy]; rfl
    · rw [ihr hr y hy, ← e]; rfl

theorem Tree.allPathsEqual_iff :
    ∀ t : Tree K V, t.AllPathsEqual ↔ t.BlackBalanced := by
  intro t
  induction t with
  | nil => simp [Tree.AllPathsEqual, Tree.BlackBalanced]
  | node a c l k v r ihl ihr =>
    simp only [Tree.AllPathsEqual, Tree.BlackBalanced, ihl, ihr]
    constructor
    · rintro ⟨h, hl, hr⟩
      refine ⟨?_, hl, hr⟩
      have h1 : l.blackHeight + (if c = Color.black then 1 else 0) ∈
          (Tree.node a c l k v r).blackCounts := by
        simp only [Tree.blackCounts, List.mem_map, List.mem_append]
        exact ⟨l.blackHeight, Or.inl (Tree.blackHeight_mem_blackCounts l), rfl⟩
      have h2 : r.blackHeight + (if c = Color.black then 1 else 0) ∈
          (Tree.node a c l k v r).blackCounts := by
        simp only [Tree.blackCounts, List.mem_map, List.mem_append]
        exact ⟨r.blackHeight, Or.inr (Tree.blackHeight_mem_blackCounts r), rfl⟩
      have := h _ h1 _ h2
      omega
    · rintro ⟨e, hl, hr⟩
      refine ⟨fun x hx y hy => ?_, hl, hr⟩
      have hb : (Tree.node a c l k v r).BlackBalanced := ⟨e, hl, hr⟩
      rw [Tree.BlackBalanced.blackCounts_eq _ hb x hx, Tree.BlackBalanced.blackCounts_eq _ hb y hy]

end Rbt

namespace Rbt

variable {K V : Type}

/-! ## Removing all keys -/

theorem Tree.eq_nil_of_keys {t : Tree K V} (h : t.keys = []) : t = Tree.nil := by
  cases t with
  | nil => rfl
  | node a c l k v r => simp [Tree.keys, Tree.toList] at h

theorem Holds.root_nil {s : RedBlackTree K V} (h : Holds s Tree.nil) : s.root = none :=
  h.root_eq

/-- A sequence of `Remove` calls that names every key of the tree once empties it. -/
theorem removeAll_spec [LinearOrder K] (fuel : Nat) :
    ∀ (ks : List K) (s : RedBlackTree K V) (T : Tree K V), Holds s T → T.RedBlack →
      T.BST → s.size = T.count → T.count < fuel → ks.Perm T.keys →
      ∃ s', removeAll fuel ks s = some s' ∧ Holds s' Tree.nil ∧ s'.size = 0 := by
  intro ks
  induction ks with
  | nil =>
    intro s T h hrb hb hsz hf hp
    have hT := Tree.eq_nil_of_keys (List.perm_nil.1 hp.symm)
    subst hT
    exact ⟨s, rfl, h, by simpa [Tree.count] using hsz⟩
  | cons k ks ih =>
    intro s T h hrb hb hsz hf hp
    have hh := Tree.height_le_count T
    have hk : k ∈ T.keys := hp.subset (List.mem_cons_self k ks)
    obtain ⟨s1, T1, e1, h1, hrb1, hb1, hsz1, hc⟩ :=
      Inv.remove_spec h hrb hb hsz k fuel (by omega)
    rcases hc with ⟨hk', -, -⟩ | ⟨-, l1, l2, v0, e2, e3⟩
    · exact absurd hk hk'
    · have hcount : T1.count + 1 = T.count := by
        rw [← Tree.length_toList, ← Tree.length_toList, e2, e3]
        simp only [List.length_append, List.length_cons]
        omega
      have hp1 : ks.Perm T1.keys := by
        have hp' : (k :: ks).Perm (k :: (l1.map Prod.fst ++ l2.map Prod.fst)) := by
          refine hp.trans ?_
          rw [Tree.keys, e2, List.map_append, List.map_cons]
          exact List.perm_middle
        have := hp'.cons_inv
        rw [Tree.keys, e3, List.map_append]
        exact this
      obtain ⟨s2, e, h2, hsz2⟩ := ih s1 T1 h1 hrb1 hb1 hsz1 (by omega) hp1
      exact ⟨s2, by simp only [removeAll, e1, e], h2, hsz2⟩

/-! ## The in-order sequence of nodes -/

theorem Tree.recs_nodes (t : Tree K V) (par : Ptr) :
    (t.recs par).map (fun n => (n.key, n.value, n.color)) =
      t.inList.map (fun x => (x.2.1, x.2.2.1, x.2.2.2)) := by
  induction t generalizing par with
  | nil => rfl
  | node a c l k v r ihl ihr => simp [Tree.recs, Tree.inList, ihl, ihr]

theorem Holds.nodes {s : RedBlackTree K V} {T : Tree K V} (h : Holds s T) {fuel : Nat}
    (hfuel : T.height < fuel) :
    s.Nodes fuel = some (T.inList.map (fun x => (x.2.1, x.2.2.1, x.2.2.2))) := by
  have := inorder_spec (fun n : Node K V => (n.key, n.value, n.color)) T none fuel h.onTree hfuel
  rw [Tree.recs_nodes] at this
  rw [RedBlackTree.Nodes, h.root_eq]
  exact this

theorem Tree.length_inList (t : Tree K V) : t.inList.length = t.count := by
  induction t with
  | nil => rfl
  | node a c l k v r ihl ihr => simp [Tree.inList, Tree.count, ihl, ihr]; omega

theorem Tree.inList_toList (t : Tree K V) :
    t.inList.map (fun x => (x.2.1, x.2.2.1)) = t.toList := by
  induction t with
  | nil => rfl
  | node a c l k v r ihl ihr => simp [Tree.inList, Tree.toList, ihl, ihr]

theorem Tree.inList_addrs (t : Tree K V) : t.inList.map (fun x => x.1) = t.addrs := by
  induction t with
  | nil => rfl
  | node a c l k v r ihl ihr => simp [Tree.inList, Tree.addrs, ihl, ihr]

theorem Frame.fill_inList_congr (f : Frame K V) {t t' : Tree K V} (h : t.inList = t'.inList) :
    (f.fill t).inList = (f.fill t').inList := by
  cases f <;> simp [Frame.fill, Tree.inList, h]

theorem Path.fill_inList_of_eq (path : Path K V) {t t' : Tree K V} (h : t.inList = t'.inList) :
    (Path.fill path t).inList = (Path.fill path t').inList := by
  induction path generalizing t t' with
  | nil => exact h
  | cons f fs ih => exact ih (Frame.fill_inList_congr f h)

/-- Every node of a tree is the root of the subtree at some position. -/
theorem Tree.exists_focus :
    ∀ (T : Tree K V) (n : Nat), n ∈ T.addrs →
      ∃ path c l k v r, T = Path.fill path (Tree.node n c l k v r) := by
  intro T
  induction T with
  | nil =>
    intro n hn
    simp [Tree.addrs] at hn
  | node a c l k v r ihl ihr =>
    intro n hn
    simp only [Tree.addrs, List.mem_append, List.mem_cons] at hn
    rcases hn with hn | rfl | hn
    · obtain ⟨p, c', l', k', v', r', e⟩ := ihl n hn
      refine ⟨p ++ [Frame.left a c k v r], c', l', k', v', r', ?_⟩
      rw [Path.fill_append, ← e]
      rfl
    · exact ⟨[], c, l, k, v, r, rfl⟩
    · obtain ⟨p, c', l', k', v', r', e⟩ := ihr n hn
      refine ⟨p ++ [Frame.right a c l k v], c', l', k', v', r', ?_⟩
      rw [Path.fill_append, ← e]
      rfl

/-- The method `leftRotate` on a node of the tree whose right child is present. -/
theorem Holds.leftRotate {s : RedBlackTree K V} {T : Tree K V} (h : Holds s T) {n : Nat}
    {nd : Node K V} (hn : n ∈ T.addrs) (hnd : s.mem n = some nd) (hr : nd.right ≠ none) :
    ∃ s' T', s.leftRotate (some n) = some s' ∧ Holds s' T' ∧ T'.inList = T.inList := by
  obtain ⟨path, c, l, k, v, r, rfl⟩ := Tree.exists_focus T n hn
  have hm : Models s.next s.size s path (Tree.node n c l k v r) := Models.of_top h
  have hf := hm.mem_focus
  rw [hnd, Option.some.injEq] at hf
  subst hf
  cases r with
  | nil => exact absurd rfl hr
  | node b c' rl k' v' rr =>
    obtain ⟨s', e, hm'⟩ := hm.leftRotate_focus
    refine ⟨s', _, e, hm'.top.holds, Path.fill_inList_of_eq path ?_⟩
    simp [Tree.inList]

/-- The method `rightRotate` on a node of the tree whose left child is present. -/
theorem Holds.rightRotate {s : RedBlackTree K V} {T : Tree K V} (h : Holds s T) {n : Nat}
    {nd : Node K V} (hn : n ∈ T.addrs) (hnd : s.mem n = some nd) (hl : nd.left ≠ none) :
    ∃ s' T', s.rightRotate (some n) = some s' ∧ Holds s' T' ∧ T'.inList = T.inList := by
  obtain ⟨path, c, l, k, v, r, rfl⟩ := Tree.exists_focus T n hn
  have hm : Models s.next s.size s path (Tree.node n c l k v r) := Models.of_top h
  have hf := hm.mem_focus
  rw [hnd, Option.some.injEq] at hf
  subst hf
  cases l with
  | nil => exact absurd rfl hl
  | node b c' ll k' v' lr =>
    obtain ⟨s', e, hm'⟩ := hm.rightRotate_focus
    refine ⟨s', _, e, hm'.top.holds, Path.fill_inList_of_eq path ?_⟩
    simp [Tree.inList]

/-- An option that is present is `some` of its content. -/
theorem eq_some_getD {α : Type} {o : Option α} (d : α) (h : o.isSome = true) :
    o = some (o.getD d) := by
  cases o with
  | none => cases h
  | some a => rfl

end Rbt

namespace Rbt

variable {K V : Type}

/-! ## Balance -/

/-- A red-black shape of black height `m` is at most `2 * m` nodes high below
a black root, one more below a red root. -/
theorem RB.height_le {t : Tree K V} {c : Color} {m : Nat} (h : RB t c m) :
    t.height ≤ 2 * m + (if c = Color.red then 1 else 0) := by
  induction h with
  | nil => simp [Tree.height]
  | red hl hr ihl ihr =>
    simp only [Tree.height, if_true]
    simp only [reduceCtorEq, if_false] at ihl ihr
    omega
  | @black a l k v r c₁ c₂ n hl hr ihl ihr =>
    simp only [Tree.height, reduceCtorEq, if_false]
    have h1 : l.height ≤ 2 * n + 1 := by
      refine le_trans ihl ?_
      split <;> omega
    have h2 : r.height ≤ 2 * n + 1 := by
      refine le_trans ihr ?_
      split <;> omega
    omega

/-- A red-black shape of black height `m` has at least `2 ^ m - 1` nodes. -/
theorem RB.pow_le_count {t : Tree K V} {c : Color} {m : Nat} (h : RB t c m) :
    2 ^ m ≤ t.count + 1 := by
  induction h with
  | nil => simp [Tree.count]
  | red hl hr ihl ihr =>
    simp only [Tree.count]
    omega
  | black hl hr ihl ihr =>
    simp only [Tree.count, pow_succ]
    omega

theorem Tree.RedBlack.balance {T : Tree K V} (h : T.RedBlack) :
    2 ^ T.height ≤ (T.count + 1) ^ 2 ∧ T.height ≤ 2 * Nat.log 2 (T.count + 1) := by
  obtain ⟨m, hm⟩ := Tree.redBlack_iff.1 h
  have h1 := hm.height_le
  simp only [reduceCtorEq, if_false, Nat.add_zero] at h1
  have h2 := hm.pow_le_count
  constructor
  · calc 2 ^ T.height ≤ 2 ^ (2 * m) := Nat.pow_le_pow_right (by decide) h1
      _ = (2 ^ m) ^ 2 := by rw [Nat.mul_comm, pow_mul]
      _ ≤ (T.count + 1) ^ 2 := Nat.pow_le_pow_left h2 2
  · have h3 : m ≤ Nat.log 2 (T.count + 1) := Nat.le_log_of_pow_le (by decide) h2
    omega

/-! ## The pre-order walk -/

theorem preorder_spec {α : Type} {mem : Nat → Option (Node K V)} (f : Node K V → α) :
    ∀ (t : Tree K V) (par : Ptr) (fuel : Nat), Rep mem par t → t.height < fuel →
      preorder mem f fuel t.ptr = some ((t.preRecs par).map f) := by
  intro t
  induction t with
  | nil =>
    intro par fuel _ hfuel
    obtain ⟨fuel, rfl⟩ : ∃ f', fuel = f' + 1 := ⟨fuel - 1, by omega⟩
    rfl
  | node a c l k v r ihl ihr =>
    intro par fuel h hfuel
    obtain ⟨fuel, rfl⟩ : ∃ f', fuel = f' + 1 := ⟨fuel - 1, by omega⟩
    simp only [Tree.height, Nat.add_lt_add_iff_right, max_lt_iff] at hfuel
    obtain ⟨h1, h2, h3⟩ := h
    simp only [Tree.ptr_node, preorder, h1, ihl _ fuel h2 hfuel.1, ihr _ fuel h3 hfuel.2,
      Tree.preRecs, List.map_append, List.map_cons, List.cons_append]

theorem Tree.preRecs_nodes (t : Tree K V) (par : Ptr) :
    (t.preRecs par).map (fun n => (n.key, n.value, n.color)) =
      t.preList.map (fun x => x.2) := by
  induction t generalizing par with
  | nil => rfl
  | node a c l k v r ihl ihr => simp [Tree.preRecs, Tree.preList, ihl, ihr]

theorem Tree.length_preList (t : Tree K V) : t.preList.length = t.count := by
  induction t with
  | nil => rfl
  | node a c l k v r ihl ihr => simp [Tree.preList, Tree.count, ihl, ihr]

theorem Tree.preList_keys_perm (t : Tree K V) :
    (t.preList.map (fun x => x.2.1)).Perm t.keys := by
  induction t with
  | nil => exact List.Perm.refl _
  | node a c l k v r ihl ihr =>
    simp only [Tree.preList, Tree.keys_node, List.map_cons, List.map_append]
    exact (List.Perm.cons k (ihl.append ihr)).trans List.perm_middle.symm

theorem Holds.preorder {s : RedBlackTree K V} {T : Tree K V} (h : Holds s T) {fuel : Nat}
    (hfuel : T.height < fuel) : s.Preorder fuel = some (T.preRecs none) := by
  have := preorder_spec (fun n : Node K V => n) T none fuel h.onTree hfuel
  rw [List.map_id'] at this
  rw [RedBlackTree.Preorder, h.root_eq]
  exact this

/-! ## Parent links -/

theorem Rep.links {mem : Nat → Option (Node K V)} :
    ∀ (t : Tree K V) (par : Ptr), Rep mem par t → ∀ a ∈ t.addrs,
      ∃ n, mem a = some n ∧
        (∀ l, n.left = some l → l ∈ t.addrs ∧ ∃ ln, mem l = some ln ∧ ln.parent = some a) ∧
        (∀ r, n.right = some r → r ∈ t.addrs ∧ ∃ rn, mem r = some rn ∧ rn.parent = some a) := by
  intro t
  induction t with
  | nil =>
    intro par _ a ha
    simp [Tree.addrs] at ha
  | node a0 c l k v r ihl ihr =>
    intro par h a ha
    obtain ⟨h1, h2, h3⟩ := h
    simp only [Tree.addrs, List.mem_append, List.mem_cons] at ha ⊢
    rcases ha with ha | rfl | ha
    · obtain ⟨n, hn, hl, hr⟩ := ihl _ h2 a ha
      exact ⟨n, hn, fun x hx => ⟨Or.inl (hl x hx).1, (hl x hx).2⟩,
        fun x hx => ⟨Or.inl (hr x hx).1, (hr x hx).2⟩⟩
    · refine ⟨_, h1, ?_, ?_⟩
      · intro x hx
        simp only at hx
        cases l with
        | nil => simp [Tree.ptr] at hx
        | node b cb lb kb vb rb =>
          simp only [Tree.ptr_node, Option.some.injEq] at hx
          subst hx
          exact ⟨Or.inl (Tree.ptr_mem_addrs rfl), _, h2.1, rfl⟩
      · intro x hx
        simp only at hx
        cases r with
        | nil => simp [Tree.ptr] at hx
        | node b cb lb kb vb rb =>
          simp only [Tree.ptr_node, Option.some.injEq] at hx
          subst hx
          exact ⟨Or.inr (Or.inr (Tree.ptr_mem_addrs rfl)), _, h3.1, rfl⟩
    · obtain ⟨n, hn, hl, hr⟩ := ihr _ h3 a ha
      exact ⟨n, hn, fun x hx => ⟨Or.inr (Or.inr (hl x hx).1), (hl x hx).2⟩,
        fun x hx => ⟨Or.inr (Or.inr (hr x hx).1), (hr x hx).2⟩⟩

theorem Holds.isNode_mem {s : RedBlackTree K V} {T : Tree K V} (h : Holds s T) {a : Nat}
    (ha : IsNode s a) : a ∈ T.addrs := by
  induction ha with
  | root hr => exact Tree.ptr_mem_addrs (h.root_eq.symm.trans hr)
  | left _ hn hl ih =>
    obtain ⟨n', hn', hl', -⟩ := Rep.links T none h.onTree _ ih
    rw [hn, Option.some.injEq] at hn'
    subst hn'
    exact (hl' _ hl).1
  | right _ hn hr ih =>
    obtain ⟨n', hn', -, hr'⟩ := Rep.links T none h.onTree _ ih
    rw [hn, Option.some.injEq] at hn'
    subst hn'
    exact (hr' _ hr).1

/-! ## The leftmost node -/

theorem minimumLoop_leftmost {mem : Nat → Option (Node K V)} :
    ∀ (t : Tree K V) (par : Ptr) (a : Nat) (fuel : Nat), Rep mem par t → t.ptr = some a →
      t.height ≤ fuel →
      ∃ m mn, minimumLoop mem fuel a = some m ∧ mem m = some mn ∧ mn.left = none ∧
        m ∈ t.addrs ∧ ∃ rest, t.keys = mn.key :: rest := by
  intro t
  induction t with
  | nil =>
    intro par a fuel _ hp
    simp [Tree.ptr] at hp
  | node a0 c l k v r ihl _ =>
    intro par a fuel h hp hfuel
    simp only [Tree.ptr_node, Option.some.injEq] at hp
    subst hp
    obtain ⟨fuel, rfl⟩ : ∃ f', fuel = f' + 1 := ⟨fuel - 1, by
      simp only [Tree.height] at hfuel; omega⟩
    obtain ⟨h1, h2, h3⟩ := h
    simp only [Tree.height] at hfuel
    cases l with
    | nil =>
      refine ⟨a0, _, ?_, h1, rfl, by simp [Tree.addrs], r.keys, ?_⟩
      · simp only [minimumLoop, h1, Tree.ptr_nil]
      · simp [Tree.keys, Tree.toList]
    | node b cb lb kb vb rb =>
      have hh : (Tree.node b cb lb kb vb rb).height ≤ fuel := by omega
      obtain ⟨m, mn, e, hm, hl, hmem, rest, hk⟩ := ihl (some a0) b fuel h2 rfl hh
      refine ⟨m, mn, ?_, hm, hl, ?_, rest ++ k :: r.keys, ?_⟩
      · simp only [minimumLoop, h1, Tree.ptr_node]
        exact e
      · simp only [Tree.addrs, List.mem_append, List.mem_cons] at hmem ⊢
        exact Or.inl hmem
      · rw [Tree.keys_node, hk]
        rfl

/-- In a search tree the first key in order is the smallest. -/
theorem Tree.BST.head_le [LinearOrder K] {t : Tree K V} (hb : t.BST) {k0 : K} {rest : List K}
    (hk : t.keys = k0 :: rest) : ∀ x ∈ t.keys, k0 ≤ x := by
  have hpw := (Tree.bst_iff t).1 hb
  rw [hk] at hpw ⊢
  intro x hx
  rcases List.mem_cons.1 hx with rfl | hx
  · exact le_refl _
  · exact le_of_lt ((List.pairwise_cons.1 hpw).1 x hx)

end Rbt

namespace Rbt

variable {K V : Type}

/-! ## The effect of `transplant` on the heap -/

/-- The state after `transplant(x, y)`, field by field. -/
theorem transplant_effect (s : RedBlackTree K V) (x : Nat) (y : Ptr) (xn : Node K V)
    (hx : s.mem x = some xn)
    (hp : ∀ p, xn.parent = some p → p ≠ x ∧ y ≠ some p ∧ ∃ pn, s.mem p = some pn)
    (hy : ∀ b, y = some b → ∃ yn, s.mem b = some yn) :
    ∃ s', s.transplant (some x) y = some s' ∧ s'.size = s.size ∧ s'.next = s.next ∧
      (xn.parent = none → s'.root = y) ∧
      (∀ p pn, xn.parent = some p → s.mem p = some pn →
        s'.root = s.root ∧
        s'.mem p = some (if some x = pn.left then { pn with left := y }
          else { pn with right := y })) ∧
      (∀ b yn, y = some b → s.mem b = some yn →
        s'.mem b = some { yn with parent := xn.parent }) ∧
      s'.mem x = some xn ∧
      (∀ a, xn.parent ≠ some a → y ≠ some a → s'.mem a = s.mem a) := by
  cases hpar : xn.parent with
  | none =>
    cases y with
    | none =>
      refine ⟨{ s with root := none }, ?_, rfl, rfl, fun _ => rfl, ?_, ?_, hx, fun _ _ _ => rfl⟩
      · simp only [RedBlackTree.transplant, RedBlackTree.get_some, hx, hpar, Option.bind_eq_bind,
          Option.some_bind]
      · intro p pn h
        cases h
      · intro b yn h
        cases h
    | some b =>
      obtain ⟨yn, hyn⟩ := hy b rfl
      refine ⟨({ s with root := some b } : RedBlackTree K V).put b { yn with parent := none },
        ?_, rfl, rfl, fun _ => rfl, ?_, ?_, ?_, ?_⟩
      · simp only [RedBlackTree.transplant, RedBlackTree.get_some, hx, hpar,
          Option.bind_eq_bind, Option.some_bind, RedBlackTree.modify_some, hyn, Option.map_some']
      · intro p pn h
        cases h
      · intro b' yn' h hm
        simp only [Option.some.injEq] at h
        subst h
        rw [hyn, Option.some.injEq] at hm
        subst hm
        exact RedBlackTree.mem_put_same _ _ _
      · by_cases hbx : x = b
        · subst hbx
          rw [hx, Option.some.injEq] at hyn
          subst hyn
          rw [RedBlackTree.mem_put_same, ← hpar]
        · rw [RedBlackTree.mem_put_ne _ _ hbx]
          exact hx
      · intro a _ ha
        have : a ≠ b := fun e => ha (by rw [e])
        exact RedBlackTree.mem_put_ne _ _ this
  | some p =>
    obtain ⟨hpx, hyp, pn, hpn⟩ := hp p hpar
    have hxp : x ≠ p := fun e => hpx e.symm
    cases y with
    | none =>
      refine ⟨s.put p (if some x = pn.left then { pn with left := none }
          else { pn with right := none }), ?_, rfl, rfl, (fun h => by cases h), ?_, ?_, ?_, ?_⟩
      · simp only [RedBlackTree.transplant, RedBlackTree.get_some, hx, hpar, hpn,
          Option.bind_eq_bind, Option.some_bind]
        split <;> rfl
      · intro p' pn' h hm
        simp only [Option.some.injEq] at h
        subst h
        rw [hpn, Option.some.injEq] at hm
        subst hm
        exact ⟨rfl, RedBlackTree.mem_put_same _ _ _⟩
      · intro b yn h
        cases h
      · rw [RedBlackTree.mem_put_ne _ _ hxp]
        exact hx
      · intro a ha _
        have : a ≠ p := fun e => ha (by rw [e])
        exact RedBlackTree.mem_put_ne _ _ this
    | some b =>
      obtain ⟨yn, hyn⟩ := hy b rfl
      have hbp : b ≠ p := fun e => hyp (by rw [e])
      refine ⟨(s.put p (if some x = pn.left then { pn with left := some b }
          else { pn with right := some b })).put b { yn with parent := some p },
        ?_, rfl, rfl, (fun h => by cases h), ?_, ?_, ?_, ?_⟩
      · simp only [RedBlackTree.transplant, RedBlackTree.get_some, hx, hpar, hpn,
          Option.bind_eq_bind, Option.some_bind]
        split <;>
          simp only [Option.some_bind, RedBlackTree.get_some, RedBlackTree.modify_some,
            RedBlackTree.mem_put_ne _ _ hxp, RedBlackTree.mem_put_ne _ _ hbp, hx, hyn, hpar,
            Option.map_some', Option.bind_eq_bind]
      · intro p' pn' h hm
        simp only [Option.some.injEq] at h
        subst h
        rw [hpn, Option.some.injEq] at hm
        subst hm
        refine ⟨rfl, ?_⟩
        rw [RedBlackTree.mem_put_ne' _ _ hbp]
        exact RedBlackTree.mem_put_same _ _ _
      · intro b' yn' h hm
        simp only [Option.some.injEq] at h
        subst h
        rw [hyn, Option.some.injEq] at hm
        subst hm
        exact RedBlackTree.mem_put_same _ _ _
      · by_cases hbx : x = b
        · subst hbx
          rw [hx, Option.some.injEq] at hyn
          subst hyn
          rw [RedBlackTree.mem_put_same, ← hpar]
        · rw [RedBlackTree.mem_put_ne _ _ hbx, RedBlackTree.mem_put_ne _ _ hxp]
          exact hx
      · intro a ha1 ha2
        have h1 : a ≠ p := fun e => ha1 (by rw [e])
        have h2 : a ≠ b := fun e => ha2 (by rw [e])
        rw [RedBlackTree.mem_put_ne _ _ h2, RedBlackTree.mem_put_ne _ _ h1]

/-! ## More fuel for the fixup loops -/

theorem insertFixup_mono {fuel fuel' : Nat} {t r : RedBlackTree K V} {n : Ptr}
    (hle : fuel ≤ fuel') (h : insertFixup fuel t n = some r) :
    insertFixup fuel' t n = some r := by
  induction hle with
  | refl => exact h
  | step _ ih => exact insertFixup_succ _ _ _ _ ih

theorem deleteFixup_mono {fuel fuel' : Nat} {t r : RedBlackTree K V} {n parent : Ptr}
    (hle : fuel ≤ fuel') (h : deleteFixup fuel t n parent = some r) :
    deleteFixup fuel' t n parent = some r := by
  induction hle with
  | refl => exact h
  | step _ ih => exact deleteFixup_succ _ _ _ _ _ ih

end Rbt

namespace Rbt

variable {K V : Type}

/-! ## The contract of `Insert`, `Remove`, `Search`, `Keys` and `Size` -/

/-- Claim C1: `Insert` preserves the red-black colour invariants. For every
state that holds a tree `T` with consistent links (`Holds`), whose root is
black, in which no red node has a red child, in which the black heights agree
at every node and which is a binary search tree, `Insert(k, v)` returns, and
the state after it again holds a tree with consistent links, a black root, no
red node with a red child and equal black heights at every node. -/
theorem insert_preserves_colour_invariants [LinearOrder K] (s : RedBlackTree K V)
    (T : Tree K V) (k : K) (v : V) (fuel : Nat) (h : Holds s T)
    (hroot : T.color = Color.black) (hrr : T.NoRedRed) (hbh : T.BlackBalanced) (hb : T.BST)
    (hf : T.height < fuel) :
    ∃ s' T', s.Insert fuel k v = some s' ∧ Holds s' T' ∧
      T'.color = Color.black ∧ T'.NoRedRed ∧ T'.BlackBalanced := by
  obtain ⟨s', T', e, h', hrb', -, -⟩ := h.insert ⟨hroot, hrr, hbh⟩ hb k v fuel hf
  exact ⟨s', T', e, h', hrb'.1, hrb'.2.1, hrb'.2.2⟩

theorem insert_preserves_colour_invariants_witness :
    Holds demo demoTree ∧
      ∃ s' T', demo.Insert 8 4 40 = some s' ∧ Holds s' T' ∧
        T'.color = Color.black ∧ T'.NoRedRed ∧ T'.BlackBalanced :=
  ⟨demo_holds,
    insert_preserves_colour_invariants demo demoTree 4 40 8 demo_holds rfl
      (by simp [demoTree, Tree.NoRedRed, Tree.color])
      (by simp [demoTree, Tree.BlackBalanced, Tree.blackHeight])
      (by simp [demoTree, Tree.BST, Tree.keys, Tree.toList])
      (by decide)⟩

/-- Claim C2: `Remove` preserves the red-black colour invariants. For every
state that holds a tree `T` with consistent links, a black root, no red node
with a red child, equal black heights and the search tree ordering,
`Remove(k)` returns, and the state after it again holds a tree with
consistent links, a black root, no red node with a red child and equal black
heights at every node; the empty tree, which `Remove` may leave, counts as
black and has the three properties as well. -/
theorem remove_preserves_colour_invariants [LinearOrder K] (s : RedBlackTree K V)
    (T : Tree K V) (k : K) (fuel : Nat) (h : Holds s T)
    (hroot : T.color = Color.black) (hrr : T.NoRedRed) (hbh : T.BlackBalanced) (hb : T.BST)
    (hf : T.height < fuel) :
    ∃ s' T', s.Remove fuel k = some s' ∧ Holds s' T' ∧
      T'.color = Color.black ∧ T'.NoRedRed ∧ T'.BlackBalanced := by
  obtain ⟨s', T', e, h', hrb', -, -⟩ := h.remove ⟨hroot, hrr, hbh⟩ hb k fuel hf
  exact ⟨s', T', e, h', hrb'.1, hrb'.2.1, hrb'.2.2⟩

theorem remove_preserves_colour_invariants_witness :
    Holds demo demoTree ∧
      ∃ s' T', demo.Remove 8 2 = some s' ∧ Holds s' T' ∧
        T'.color = Color.black ∧ T'.NoRedRed ∧ T'.BlackBalanced :=
  ⟨demo_holds,
    remove_preserves_colour_invariants demo demoTree 2 8 demo_holds rfl
      (by simp [demoTree, Tree.NoRedRed, Tree.color])
      (by simp [demoTree, Tree.BlackBalanced, Tree.blackHeight])
      (by simp [demoTree, Tree.BST, Tree.keys, Tree.toList])
      (by decide)⟩

/-- Claim C3: for every state reachable from `Make()` by `Insert` and `Remove`
calls, `Keys()` returns (given fuel above `Size()`), its result is strictly
ascending, so sorted and without duplicates, and its length equals `Size()`. -/
theorem keys_strictly_ascending_length_size [LinearOrder K] (s : RedBlackTree K V)
    (fuel : Nat) (hr : Reachable s) (hf : s.Size < fuel) :
    ∃ ks, s.Keys fuel = some ks ∧ ks.Pairwise (· < ·) ∧ (ks.length : Int) = s.Size := by
  obtain ⟨T, h, -, hb, hsz, hh⟩ := hr.tree
  refine ⟨T.keys, h.keys (hh fuel hf), (Tree.bst_iff T).1 hb, ?_⟩
  rw [Tree.length_keys, RedBlackTree.Size, hsz]

theorem keys_strictly_ascending_length_size_witness :
    Reachable demo ∧ demo.Size < (8 : Nat) ∧
      ∃ ks, demo.Keys 8 = some ks ∧ ks.Pairwise (· < ·) ∧ (ks.length : Int) = demo.Size :=
  ⟨demo_reachable, by decide,
    keys_strictly_ascending_length_size demo 8 demo_reachable (by decide)⟩

/-- Claim C4: for every reachable state, every key `k` and every value `v`,
`Insert(k, v)` returns and `Search(k)` right after it returns `(v, true)`,
whether `k` was absent before or present with another value. -/
theorem search_after_insert [LinearOrder K] (s : RedBlackTree K V) (k : K) (v : V)
    (fuel : Nat) (hr : Reachable s) (hf : s.Size < fuel) :
    ∃ s', s.Insert fuel k v = some s' ∧
      ∀ fuel' : Nat, s'.Size < fuel' → s'.Search fuel' k = some (some v, true) := by
  obtain ⟨T, h, hrb, hb, hsz, hh⟩ := hr.tree
  obtain ⟨s', T', e, h', -, hb', hsz', hc⟩ := Inv.insert_spec h hrb hb hsz k v fuel (hh fuel hf)
  refine ⟨s', e, fun fuel' hf' => ?_⟩
  have hm : (k, v) ∈ T'.toList := by
    rcases hc with ⟨-, -, l1, l2, -, e3, -, -⟩ | ⟨hk, -, e3⟩
    · rw [e3]; simp
    · obtain ⟨x, hx, hxk⟩ := Tree.exists_of_mem_keys hk
      obtain ⟨k0, w⟩ := x
      simp only at hxk
      subst hxk
      rw [e3]
      exact Tree.mem_setValue hx
  exact h'.Search_found hb' hm fuel' (height_lt_of_size_lt hsz' hf')

theorem search_after_insert_witness :
    (Reachable demo ∧ demo.Size < (8 : Nat) ∧
      ∃ s', demo.Insert 8 4 40 = some s' ∧
        ∀ fuel' : Nat, s'.Size < fuel' → s'.Search fuel' 4 = some (some 40, true)) ∧
    (∃ s', demo.Insert 8 1 11 = some s' ∧
        ∀ fuel' : Nat, s'.Size < fuel' → s'.Search fuel' 1 = some (some 11, true)) :=
  ⟨⟨demo_reachable, by decide, search_after_insert demo 4 40 8 demo_reachable (by decide)⟩,
    search_after_insert demo 1 11 8 demo_reachable (by decide)⟩

/-- Claim C5: for every reachable state and every key `k`, `Remove(k)`
returns and `Search(k)` right after it reports that `k` is not found, whether
or not `k` was present before. -/
theorem search_after_remove [LinearOrder K] (s : RedBlackTree K V) (k : K)
    (fuel : Nat) (hr : Reachable s) (hf : s.Size < fuel) :
    ∃ s', s.Remove fuel k = some s' ∧
      ∀ fuel' : Nat, s'.Size < fuel' → s'.Search fuel' k = some (none, false) := by
  obtain ⟨T, h, hrb, hb, hsz, hh⟩ := hr.tree
  obtain ⟨s', T', e, h', -, hb', hsz', hc⟩ := Inv.remove_spec h hrb hb hsz k fuel (hh fuel hf)
  refine ⟨s', e, fun fuel' hf' => ?_⟩
  have hm : k ∉ T'.keys := by
    rcases hc with ⟨hk, -, rfl⟩ | ⟨-, l1, l2, v0, e2, e3⟩
    · exact hk
    · exact not_mem_of_erased hb e2 e3
  exact h'.Search_absent hb' hm fuel' (height_lt_of_size_lt hsz' hf')

theorem search_after_remove_witness :
    (Reachable demo ∧ demo.Size < (8 : Nat) ∧
      ∃ s', demo.Remove 8 2 = some s' ∧
        ∀ fuel' : Nat, s'.Size < fuel' → s'.Search fuel' 2 = some (none, false)) ∧
    (∃ s', demo.Remove 8 7 = some s' ∧
        ∀ fuel' : Nat, s'.Size < fuel' → s'.Search fuel' 7 = some (none, false)) :=
  ⟨⟨demo_reachable, by decide, search_after_remove demo 2 8 demo_reachable (by decide)⟩,
    search_after_remove demo 7 8 demo_reachable (by decide)⟩

/-- Claim C6: for every reachable state whose in-order sequence of key-value
pairs is `es` and every key `k` that is not among its keys, `Insert(k, v)`
returns, and the sequence after it is `es` with `(k, v)` put in at its sorted
position: `es` splits into the pairs with a smaller key and the pairs with a
greater key, all of them unchanged, with `(k, v)` between them; `Size()` has
grown by exactly 1. -/
theorem insert_absent_entries [LinearOrder K] (s : RedBlackTree K V) (k : K) (v : V)
    (fuel : Nat) (es : List (K × V)) (hr : Reachable s) (hf : s.Size < fuel)
    (hes : s.Entries fuel = some es) (hk : k ∉ es.map Prod.fst) :
    ∃ s' l1 l2, s.Insert fuel k v = some s' ∧ es = l1 ++ l2 ∧
      (∀ x ∈ l1, x.1 < k) ∧ (∀ x ∈ l2, k < x.1) ∧
      (∀ fuel' : Nat, s'.Size < fuel' → s'.Entries fuel' = some (l1 ++ (k, v) :: l2)) ∧
      s'.Size = s.Size + 1 := by
  obtain ⟨T, h, hrb, hb, hsz, hh⟩ := hr.tree
  have he := h.entries (hh fuel hf)
  rw [hes, Option.some.injEq] at he
  subst he
  obtain ⟨s', T', e, h', -, -, hsz', hc⟩ := Inv.insert_spec h hrb hb hsz k v fuel (hh fuel hf)
  rcases hc with ⟨-, e1, l1, l2, e2, e3, c1, c2⟩ | ⟨hk', -, -⟩
  · refine ⟨s', l1, l2, e, e2, c1, c2, fun fuel' hf' => ?_, e1⟩
    rw [← e3]
    exact h'.entries (height_lt_of_size_lt hsz' hf')
  · exact absurd hk' hk

theorem insert_absent_entries_witness :
    Reachable demo ∧ demo.Size < (8 : Nat) ∧ demo.Entries 8 = some [(1, 10), (2, 20), (3, 30)] ∧
      ∃ s' l1 l2, demo.Insert 8 4 40 = some s' ∧ [(1, 10), (2, 20), (3, 30)] = l1 ++ l2 ∧
        (∀ x ∈ l1, x.1 < 4) ∧ (∀ x ∈ l2, 4 < x.1) ∧
        (∀ fuel' : Nat, s'.Size < fuel' → s'.Entries fuel' = some (l1 ++ (4, 40) :: l2)) ∧
        s'.Size = demo.Size + 1 :=
  ⟨demo_reachable, by decide, by decide,
    insert_absent_entries demo 4 40 8 [(1, 10), (2, 20), (3, 30)] demo_reachable (by decide)
      (by decide) (by decide)⟩

/-- Claim C7: for every reachable state whose in-order sequence of key-value
pairs is `es` and every key `k` among its keys, `Remove(k)` returns, and the
sequence after it is `es` with the pair of `k` erased: the pairs before and
after it are unchanged, also when the removed node has two children and the
key and value of its successor are copied into it; `Size()` has shrunk by
exactly 1. -/
theorem remove_present_entries [LinearOrder K] (s : RedBlackTree K V) (k : K)
    (fuel : Nat) (es : List (K × V)) (hr : Reachable s) (hf : s.Size < fuel)
    (hes : s.Entries fuel = some es) (hk : k ∈ es.map Prod.fst) :
    ∃ s' l1 l2 v0, s.Remove fuel k = some s' ∧ es = l1 ++ (k, v0) :: l2 ∧
      k ∉ (l1 ++ l2).map Prod.fst ∧
      (∀ fuel' : Nat, s'.Size < fuel' → s'.Entries fuel' = some (l1 ++ l2)) ∧
      s'.Size = s.Size - 1 := by
  obtain ⟨T, h, hrb, hb, hsz, hh⟩ := hr.tree
  have he := h.entries (hh fuel hf)
  rw [hes, Option.some.injEq] at he
  subst he
  obtain ⟨s', T', e, h', -, -, hsz', hc⟩ := Inv.remove_spec h hrb hb hsz k fuel (hh fuel hf)
  rcases hc with ⟨hk', -, -⟩ | ⟨e1, l1, l2, v0, e2, e3⟩
  · exact absurd hk hk'
  · refine ⟨s', l1, l2, v0, e, e2, ?_, fun fuel' hf' => ?_, e1⟩
    · have := not_mem_of_erased hb e2 e3
      rw [Tree.keys, e3] at this
      exact this
    · rw [← e3]
      exact h'.entries (height_lt_of_size_lt hsz' hf')

theorem remove_present_entries_witness :
    Reachable demo ∧ demo.Size < (8 : Nat) ∧ demo.Entries 8 = some [(1, 10), (2, 20), (3, 30)] ∧
      ∃ s' l1 l2 v0, demo.Remove 8 2 = some s' ∧
        [(1, 10), (2, 20), (3, 30)] = l1 ++ (2, v0) :: l2 ∧
        2 ∉ (l1 ++ l2).map Prod.fst ∧
        (∀ fuel' : Nat, s'.Size < fuel' → s'.Entries fuel' = some (l1 ++ l2)) ∧
        s'.Size = demo.Size - 1 :=
  ⟨demo_reachable, by decide, by decide,
    remove_present_entries demo 2 8 [(1, 10), (2, 20), (3, 30)] demo_reachable (by decide)
      (by decide) (by decide)⟩

/-- Claim C8: for every reachable state that holds the tree `T` and every key
`k` of `T`, `Insert(k, v)` returns and only overwrites the value stored for
`k`: the state after it holds `T` with the value of `k` replaced by `v`, so
the shape, the nodes and their addresses, every colour, every key and the
value of every other key are unchanged, and so are the root pointer and
`Size()`. -/
theorem insert_present_overwrites_value [LinearOrder K] (s : RedBlackTree K V)
    (T : Tree K V) (k : K) (v : V) (fuel : Nat) (hr : Reachable s) (h : Holds s T)
    (hk : k ∈ T.keys) (hf : T.height < fuel) :
    ∃ s', s.Insert fuel k v = some s' ∧ Holds s' (T.setValue k v) ∧
      s'.Size = s.Size ∧ s'.root = s.root ∧
      (T.setValue k v).toList = T.toList.map (fun x => if x.1 = k then (x.1, v) else x) := by
  obtain ⟨T0, h0, hrb, hb, -, -⟩ := hr.tree
  have hT := h.tree_unique h0
  subst hT
  obtain ⟨s', T', e, h', -, -, hc⟩ := h.insert hrb hb k v fuel hf
  rcases hc with ⟨hk', -⟩ | ⟨-, e1, e2⟩
  · exact absurd hk hk'
  · subst e2
    refine ⟨s', e, h', e1, ?_, Tree.setValue_toList k v T⟩
    rw [h'.root_eq, h.root_eq]
    cases T <;> rfl

theorem insert_present_overwrites_value_witness :
    Reachable demo ∧ Holds demo demoTree ∧ 3 ∈ demoTree.keys ∧
      ∃ s', demo.Insert 8 3 33 = some s' ∧ Holds s' (demoTree.setValue 3 33) ∧
        s'.Size = demo.Size ∧ s'.root = demo.root ∧
        (demoTree.setValue 3 33).toList =
          demoTree.toList.map (fun x => if x.1 = 3 then (x.1, 33) else x) :=
  ⟨demo_reachable, demo_holds, by decide,
    insert_present_overwrites_value demo demoTree 3 33 8 demo_reachable demo_holds (by decide)
      (by decide)⟩

/-- Claim C9: for every reachable state and every key `k` that is not among
its keys, `Remove(k)` returns and is a no-op: the state after it is the state
before, so `Size()`, the shape of the tree and the key, value and colour of
every node are unchanged. -/
theorem remove_absent_noop [LinearOrder K] (s : RedBlackTree K V) (k : K) (fuel : Nat)
    (ks : List K) (hr : Reachable s) (hf : s.Size < fuel) (hks : s.Keys fuel = some ks)
    (hk : k ∉ ks) : s.Remove fuel k = some s := by
  obtain ⟨T, h, hrb, hb, hsz, hh⟩ := hr.tree
  have he := h.keys (hh fuel hf)
  rw [hks, Option.some.injEq] at he
  subst he
  obtain ⟨s', T', e, -, -, -, hc⟩ := h.remove hrb hb k fuel (hh fuel hf)
  rcases hc with ⟨-, rfl, -⟩ | ⟨-, l1, l2, v0, e2, -⟩
  · exact e
  · exact absurd (by rw [Tree.keys, e2]; simp) hk

theorem remove_absent_noop_witness :
    Reachable demo ∧ demo.Size < (8 : Nat) ∧ demo.Keys 8 = some [1, 2, 3] ∧
      demo.Remove 8 7 = some demo :=
  ⟨demo_reachable, by decide, by decide,
    remove_absent_noop demo 7 8 [1, 2, 3] demo_reachable (by decide) (by decide) (by decide)⟩

/-- Claim C10: for every finite sequence of `Insert` calls applied to the
empty tree of `Make()`, all calls return, `Size()` afterwards equals the
number of distinct keys in the sequence, and inserting once more a key that
is already present returns and does not change `Size()`. -/
theorem size_counts_distinct_keys [LinearOrder K] (kvs : List (K × V)) (fuel : Nat)
    (hf : kvs.length < fuel) :
    ∃ s, insertAll fuel kvs Make = some s ∧
      s.Size = ((kvs.map Prod.fst).dedup.length : Int) ∧
      ∀ k ∈ kvs.map Prod.fst, ∀ v : V,
        ∃ s', s.Insert fuel k v = some s' ∧ s'.Size = s.Size := by
  obtain ⟨s, T, e, h, hrb, hb, hsz, hle, hkeys⟩ :=
    insertAll_spec fuel kvs Make Tree.nil holds_make ⟨rfl, trivial, trivial⟩ trivial rfl
      (by simpa [Tree.count] using hf)
  simp only [Tree.count, Nat.zero_add] at hle
  have hmem : ∀ x, x ∈ T.keys ↔ x ∈ kvs.map Prod.fst := by
    intro x
    rw [hkeys]
    simp [Tree.keys, Tree.toList]
  refine ⟨s, e, ?_, fun k hk v => ?_⟩
  · rw [RedBlackTree.Size, hsz, ← Tree.length_keys,
      length_eq_dedup ((Tree.bst_iff T).1 hb) hmem]
  · have hh := Tree.height_le_count T
    obtain ⟨s', T', e', -, -, -, -, hc⟩ :=
      Inv.insert_spec h hrb hb hsz k v fuel (by omega)
    rcases hc with ⟨hk', -⟩ | ⟨-, e1, -⟩
    · exact absurd ((hmem k).2 hk) hk'
    · exact ⟨s', e', e1⟩

theorem size_counts_distinct_keys_witness :
    ([(2, 20), (1, 10), (2, 21), (3, 30), (1, 11)] : List (Nat × Nat)).length < 8 ∧
      ∃ s, insertAll 8 [(2, 20), (1, 10), (2, 21), (3, 30), (1, 11)] Make = some s ∧
        s.Size = ((([(2, 20), (1, 10), (2, 21), (3, 30), (1, 11)] :
          List (Nat × Nat)).map Prod.fst).dedup.length : Int) ∧
        ∀ k ∈ ([(2, 20), (1, 10), (2, 21), (3, 30), (1, 11)] : List (Nat × Nat)).map Prod.fst,
          ∀ v : Nat, ∃ s', s.Insert 8 k v = some s' ∧ s'.Size = s.Size :=
  ⟨by decide,
    size_counts_distinct_keys [(2, 20), (1, 10), (2, 21), (3, 30), (1, 11)] 8 (by decide)⟩

end Rbt

namespace Rbt

variable {K V : Type}

/-! ## The validator, fault freedom and the scenarios of the tests -/

/-- Claim C11, counterexample: with `uint64` keys, `Insert(0, 1)` on the empty
tree of `Make()` returns a tree that is not empty, has size 1 and the keys
`[0]`, and on which `IsValidRBTree()` answers false, although the tree is a
single black root: the ordering check compares the key 0 with `MinValue` by
`<=`. -/
theorem isValidRBTree_false_after_insert_zero :
    (Make : RedBlackTree Nat Nat).Insert 2 0 1 = some zeroKeyState ∧
      Reachable zeroKeyState ∧ zeroKeyState.root ≠ none ∧ zeroKeyState.Size = 1 ∧
      zeroKeyState.Keys 2 = some [0] ∧
      zeroKeyState.PreorderKeys 2 = some [(0, Color.black)] ∧
      zeroKeyState.IsValidRBTree MinValueUint MaxValueUint 2 = some false :=
  ⟨rfl, Reachable.insert 2 0 1 Reachable.make rfl, by decide, by decide, by decide, by decide,
    by decide⟩

/-- Claim C11, as amended: for every state reachable from `Make()` by `Insert`
and `Remove` calls that is not empty and whose keys all lie strictly between
`MinValue` and `MaxValue` of the key type, `IsValidRBTree()` returns true. -/
theorem isValidRBTree_true_within_bounds [LinearOrder K] (s : RedBlackTree K V)
    (minValue maxValue : K) (fuel : Nat) (ks : List K) (hr : Reachable s)
    (hf : s.Size < fuel) (hne : s.root ≠ none) (hks : s.Keys fuel = some ks)
    (hb : ∀ x ∈ ks, minValue < x ∧ x < maxValue) :
    s.IsValidRBTree minValue maxValue fuel = some true := by
  obtain ⟨T, h, hrb, hbst, hsz, hh⟩ := hr.tree
  have he := h.keys (hh fuel hf)
  rw [hks, Option.some.injEq] at he
  subst he
  rw [IsValidRBTree_spec h.root_eq h.repDown minValue maxValue fuel (hh fuel hf)]
  congr 1
  rw [Tree.IsValidRBTree_iff]
  refine ⟨?_, hrb.1, hbst, hb, hrb.2.1, hrb.2.2⟩
  rintro rfl
  exact hne h.root_eq

theorem isValidRBTree_true_within_bounds_witness :
    (Reachable demo ∧ demo.Size < (8 : Nat) ∧ demo.root ≠ none ∧
      demo.Keys 8 = some [1, 2, 3] ∧
      ∀ x ∈ [1, 2, 3], MinValueUint < x ∧ x < MaxValueUint) ∧
    demo.IsValidRBTree MinValueUint MaxValueUint 8 = some true :=
  ⟨⟨demo_reachable, by decide, by decide, by decide, by decide⟩,
    isValidRBTree_true_within_bounds demo MinValueUint MaxValueUint 8 [1, 2, 3]
      demo_reachable (by decide) (by decide) (by decide) (by decide)⟩

/-- Claim C12: the empty tree of `Make()` has `Size() = 0`, and on every tree
whose root is absent `IsValidRBTree()` answers false, whatever the bounds. -/
theorem empty_tree_size_zero_not_valid [LinearOrder K] (s : RedBlackTree K V)
    (minValue maxValue : K) (fuel : Nat) (h : s.root = none) :
    (Make : RedBlackTree K V).Size = 0 ∧ (Make : RedBlackTree K V).root = none ∧
      s.IsValidRBTree minValue maxValue fuel = some false := by
  refine ⟨rfl, rfl, ?_⟩
  simp only [RedBlackTree.IsValidRBTree, h]

theorem empty_tree_size_zero_not_valid_witness :
    (Make : RedBlackTree Int Int).root = none ∧
      ((Make : RedBlackTree Int Int).Size = 0 ∧ (Make : RedBlackTree Int Int).root = none ∧
        (Make : RedBlackTree Int Int).IsValidRBTree MinValueInt MaxValueInt 0 = some false) :=
  ⟨rfl, empty_tree_size_zero_not_valid Make MinValueInt MaxValueInt 0 rfl⟩

/-- Claim C13: `IsValidRBTree()` decides the red-black invariants. For every
heap that holds a tree `T` through its child links (the parent links are not
read), whose keys all lie strictly between `MinValue` and `MaxValue`, the
validator returns, and it answers true if and only if the root is present and
black, `T` is a binary search tree, no red node has a red child, and for every
node every way down to an absent child passes the same number of black nodes.
In particular `hasSameBlackHeight`, which compares only the black counts of
the leftmost ways of the two children of every node, answers true exactly
when the counts agree over all ways. -/
theorem isValidRBTree_decides_invariants [LinearOrder K] (s : RedBlackTree K V) (T : Tree K V)
    (minValue maxValue : K) (fuel : Nat) (hroot : s.root = T.ptr) (h : RepDown s.mem T)
    (hkeys : ∀ x ∈ T.keys, minValue < x ∧ x < maxValue) (hf : T.height < fuel) :
    (∃ b, s.IsValidRBTree minValue maxValue fuel = some b ∧
      (b = true ↔ s.root ≠ none ∧ T.color = Color.black ∧ T.BST ∧ T.NoRedRed ∧
        T.AllPathsEqual)) ∧
    (∃ b, hasSameBlackHeight s.mem fuel s.root = some b ∧ (b = true ↔ T.AllPathsEqual)) := by
  constructor
  · refine ⟨_, IsValidRBTree_spec hroot h minValue maxValue fuel hf, ?_⟩
    rw [Tree.IsValidRBTree_iff, Tree.allPathsEqual_iff, hroot]
    have hne : T ≠ Tree.nil ↔ T.ptr ≠ none := by
      cases T <;> simp [Tree.ptr]
    rw [hne]
    constructor
    · rintro ⟨h1, h2, h3, -, h5, h6⟩
      exact ⟨h1, h2, h3, h5, h6⟩
    · rintro ⟨h1, h2, h3, h5, h6⟩
      exact ⟨h1, h2, h3, hkeys, h5, h6⟩
  · rw [hroot]
    refine ⟨_, hasSameBlackHeight_spec T fuel h hf, ?_⟩
    rw [Tree.hasSameBlackHeight_iff, Tree.allPathsEqual_iff]

theorem isValidRBTree_decides_invariants_witness :
    (demo.root = demoTree.ptr ∧ RepDown demo.mem demoTree ∧
      (∀ x ∈ demoTree.keys, MinValueUint < x ∧ x < MaxValueUint) ∧ demoTree.height < 8) ∧
    ((∃ b, demo.IsValidRBTree MinValueUint MaxValueUint 8 = some b ∧
      (b = true ↔ demo.root ≠ none ∧ demoTree.color = Color.black ∧ demoTree.BST ∧
        demoTree.NoRedRed ∧ demoTree.AllPathsEqual)) ∧
    (∃ b, hasSameBlackHeight demo.mem 8 demo.root = some b ∧
      (b = true ↔ demoTree.AllPathsEqual))) :=
  ⟨⟨rfl, demo_holds.repDown, by decide, by decide⟩,
    isValidRBTree_decides_invariants demo demoTree MinValueUint MaxValueUint 8 rfl
      demo_holds.repDown (by decide) (by decide)⟩

/-- Claim C14: `Insert` never reaches a fatal state on a reachable tree. In
the model a nil dereference and the panic "parent has no grandparent" make
the operation answer `none`; for every reachable state, every key and every
value, `Insert(k, v)` answers `some` state once the fuel exceeds `Size()`,
the answer is the same for every larger fuel, and the state is reachable
again. So every read through the parent, the grandparent and the rotated-up
child in `insertFixup` and the rotations meets a node that is present. -/
theorem insert_never_faults [LinearOrder K] (s : RedBlackTree K V) (k : K) (v : V)
    (fuel : Nat) (hr : Reachable s) (hf : s.Size < fuel) :
    ∃ s', s.Insert fuel k v = some s' ∧ Reachable s' ∧
      ∀ fuel', fuel ≤ fuel' → s.Insert fuel' k v = some s' := by
  obtain ⟨T, h, hrb, hb, hsz, hh⟩ := hr.tree
  obtain ⟨s', T', e, -⟩ := Inv.insert_spec h hrb hb hsz k v fuel (hh fuel hf)
  exact ⟨s', e, Reachable.insert fuel k v hr e, fun fuel' hle => Insert_mono hle e⟩

theorem insert_never_faults_witness :
    Reachable demo ∧ demo.Size < (8 : Nat) ∧
      ∃ s', demo.Insert 8 0 5 = some s' ∧ Reachable s' ∧
        ∀ fuel', 8 ≤ fuel' → demo.Insert fuel' 0 5 = some s' :=
  ⟨demo_reachable, by decide, insert_never_faults demo 0 5 8 demo_reachable (by decide)⟩

/-- Claim C15: `Remove` never reaches a fatal state on a reachable tree. In
the model every read through an absent node makes the operation answer
`none`: the sibling in `deleteFixup`, its children when they are recoloured
in cases 3 and 4, the parent whose `left` is compared with `n`. For every
reachable state and every key, `Remove(k)` answers `some` state once the fuel
exceeds `Size()`, the same for every larger fuel, and the state is reachable
again. -/
theorem remove_never_faults [LinearOrder K] (s : RedBlackTree K V) (k : K)
    (fuel : Nat) (hr : Reachable s) (hf : s.Size < fuel) :
    ∃ s', s.Remove fuel k = some s' ∧ Reachable s' ∧
      ∀ fuel', fuel ≤ fuel' → s.Remove fuel' k = some s' := by
  obtain ⟨T, h, hrb, hb, hsz, hh⟩ := hr.tree
  obtain ⟨s', T', e, -⟩ := Inv.remove_spec h hrb hb hsz k fuel (hh fuel hf)
  exact ⟨s', e, Reachable.remove fuel k hr e, fun fuel' hle => Remove_mono hle e⟩

theorem remove_never_faults_witness :
    Reachable demo ∧ demo.Size < (8 : Nat) ∧
      ∃ s', demo.Remove 8 1 = some s' ∧ Reachable s' ∧
        ∀ fuel', 8 ≤ fuel' → demo.Remove fuel' 1 = some s' :=
  ⟨demo_reachable, by decide, remove_never_faults demo 1 8 demo_reachable (by decide)⟩

/-- Claim C16: for every reachable state with the keys `ks`, removing each of
its keys once, one at a time and in any order `ks'`, ends with the empty
tree: all calls return, `Size()` is 0, `Keys()` is empty and
`IsValidRBTree()` answers false. -/
theorem remove_every_key_empties [LinearOrder K] (s : RedBlackTree K V) (ks ks' : List K)
    (minValue maxValue : K) (fuel : Nat) (hr : Reachable s) (hf : s.Size < fuel)
    (hks : s.Keys fuel = some ks) (hp : ks'.Perm ks) :
    ∃ s', removeAll fuel ks' s = some s' ∧ s'.Size = 0 ∧ s'.root = none ∧
      s'.Keys fuel = some [] ∧ s'.IsValidRBTree minValue maxValue fuel = some false := by
  obtain ⟨T, h, hrb, hb, hsz, hh⟩ := hr.tree
  have he := h.keys (hh fuel hf)
  rw [hks, Option.some.injEq] at he
  subst he
  have hc : T.count < fuel := by
    have : (T.count : Int) < fuel := by rw [← hsz]; exact hf
    omega
  obtain ⟨s', e, h', hsz'⟩ := removeAll_spec fuel ks' s T h hrb hb hsz hc hp
  have hpos : (Tree.nil : Tree K V).height < fuel := by
    simp only [Tree.height]; omega
  refine ⟨s', e, hsz', h'.root_nil, h'.keys hpos, ?_⟩
  rw [IsValidRBTree_spec h'.root_eq h'.repDown minValue maxValue fuel hpos]
  rfl

theorem remove_every_key_empties_witness :
    Reachable demo ∧ demo.Size < (8 : Nat) ∧ demo.Keys 8 = some [1, 2, 3] ∧
      ([3, 1, 2] : List Nat).Perm [1, 2, 3] ∧
      ∃ s', removeAll 8 [3, 1, 2] demo = some s' ∧ s'.Size = 0 ∧ s'.root = none ∧
        s'.Keys 8 = some [] ∧ s'.IsValidRBTree MinValueUint MaxValueUint 8 = some false :=
  ⟨demo_reachable, by decide, by decide, by decide,
    remove_every_key_empties demo [1, 2, 3] [3, 1, 2] MinValueUint MaxValueUint 8
      demo_reachable (by decide) (by decide) (by decide)⟩

/-- Claim C17: inserting the keys 8, 18, 5, 15, 17, 25, 40, 80 in that order
into the empty `int` tree gives the tree whose `Preorder()` is 17 black,
8 red, 5 black, 15 black, 25 red, 18 black, 40 black, 80 red, with the root
17 black, its left child 8 red and its right child 25 red;
`IsValidRBTree()` answers true after each of the eight insertions; inserting
the same keys in the order 17, 8, 5, 15, 25, 18, 40, 80 gives the same
`Preorder()` keys and colours. -/
theorem scenario_insert_eight :
    insertAll 20 scenarioEight Make = some eightState ∧
      insertAll 20 scenarioPreorder Make = some preorderState ∧
      eightState.PreorderKeys 20 = some [(17, Color.black), (8, Color.red), (5, Color.black),
        (15, Color.black), (25, Color.red), (18, Color.black), (40, Color.black),
        (80, Color.red)] ∧
      eightState.keyColor eightState.root = some (17, Color.black) ∧
      (eightState.leftOf eightState.root).bind eightState.keyColor = some (8, Color.red) ∧
      (eightState.rightOf eightState.root).bind eightState.keyColor = some (25, Color.red) ∧
      insertAllValid MinValueInt MaxValueInt 20 scenarioEight Make =
        some [true, true, true, true, true, true, true, true] ∧
      preorderState.PreorderKeys 20 = eightState.PreorderKeys 20 :=
  ⟨eq_some_getD Make (by decide), eq_some_getD Make (by decide), by decide, by decide,
    by decide, by decide, by decide,
    (show preorderState.PreorderKeys 20 = some [(17, Color.black), (8, Color.red),
        (5, Color.black), (15, Color.black), (25, Color.red), (18, Color.black),
        (40, Color.black), (80, Color.red)] by decide).trans
      (show eightState.PreorderKeys 20 = some [(17, Color.black), (8, Color.red),
        (5, Color.black), (15, Color.black), (25, Color.red), (18, Color.black),
        (40, Color.black), (80, Color.red)] by decide).symm⟩

/-- Claim C18: from the `int` tree built by inserting 8, 18, 5, 15, 17, 25,
40, 80, 3, 1, -3, 60 in that order, removing 8, then 80, then 60 keeps
`IsValidRBTree()` true after each removal and gives the `Keys()`
`[-3,1,3,5,15,17,18,25,40,60,80]`, then `[-3,1,3,5,15,17,18,25,40,60]`, then
`[-3,1,3,5,15,17,18,25,40]`; after removing 8 the left child of the root has
the key 3 and is black, and at the end the root is 17 black with the
children 3 black and 25 black. -/
theorem scenario_remove_three :
    insertAll 20 scenarioTwelve Make = some twelveState ∧
      twelveState.Remove 20 8 = some removed8 ∧ removed8.Remove 20 80 = some removed80 ∧
      removed80.Remove 20 60 = some removed60 ∧
      removed8.IsValidRBTree MinValueInt MaxValueInt 20 = some true ∧
      removed80.IsValidRBTree MinValueInt MaxValueInt 20 = some true ∧
      removed60.IsValidRBTree MinValueInt MaxValueInt 20 = some true ∧
      removed8.Keys 20 = some [-3, 1, 3, 5, 15, 17, 18, 25, 40, 60, 80] ∧
      removed80.Keys 20 = some [-3, 1, 3, 5, 15, 17, 18, 25, 40, 60] ∧
      removed60.Keys 20 = some [-3, 1, 3, 5, 15, 17, 18, 25, 40] ∧
      (removed8.leftOf removed8.root).bind removed8.keyColor = some (3, Color.black) ∧
      removed60.keyColor removed60.root = some (17, Color.black) ∧
      (removed60.leftOf removed60.root).bind removed60.keyColor = some (3, Color.black) ∧
      (removed60.rightOf removed60.root).bind removed60.keyColor = some (25, Color.black) :=
  ⟨eq_some_getD Make (by decide), eq_some_getD Make (by decide),
    eq_some_getD Make (by decide), eq_some_getD Make (by decide), by decide, by decide,
    by decide, by decide, by decide, by decide, by decide, by decide, by decide, by decide⟩

/-- Claim C19: the ordering check of the validator uses an open interval. For
every heap that holds a tree through its child links and every key of the
tree that equals `MinValue` or `MaxValue`, `IsValidRBTree()` returns and
answers false, also when the tree is a single black root. -/
theorem isValidRBTree_false_on_boundary_key [LinearOrder K] (s : RedBlackTree K V)
    (T : Tree K V) (minValue maxValue k : K) (fuel : Nat) (hroot : s.root = T.ptr)
    (h : RepDown s.mem T) (hk : k ∈ T.keys) (hb : k = minValue ∨ k = maxValue)
    (hf : T.height < fuel) :
    s.IsValidRBTree minValue maxValue fuel = some false := by
  rw [IsValidRBTree_spec hroot h minValue maxValue fuel hf]
  congr 1
  have hbst : T.isBinarySearchTree minValue maxValue = false :=
    Tree.isBinarySearchTree_boundary hk (hb.imp le_of_eq ge_of_eq)
  cases T with
  | nil => rfl
  | node a c l k' v r =>
    simp only [Tree.IsValidRBTree, hbst]
    cases c <;> simp

theorem isValidRBTree_false_on_boundary_key_witness :
    (minKeyState.root = minKeyTree.ptr ∧ RepDown minKeyState.mem minKeyTree ∧
      MinValueInt ∈ minKeyTree.keys ∧ minKeyTree.height < 2) ∧
    minKeyTree.color = Color.black ∧
    minKeyState.IsValidRBTree MinValueInt MaxValueInt 2 = some false :=
  ⟨⟨rfl, ⟨⟨_, rfl, rfl, rfl, rfl, rfl, rfl⟩, trivial, trivial⟩, by decide, by decide⟩, rfl,
    isValidRBTree_false_on_boundary_key minKeyState minKeyTree MinValueInt MaxValueInt
      MinValueInt 2 rfl ⟨⟨_, rfl, rfl, rfl, rfl, rfl, rfl⟩, trivial, trivial⟩ (by decide)
      (Or.inl rfl) (by decide)⟩

/-- Claim C20: rotations preserve the in-order sequence. For every state that
holds a tree `T` with consistent links and every node `n` of it, if the right
child of `n` is present then `leftRotate(n)` returns, the state after it
again holds a tree with consistent links, and the in-order sequence of the
nodes, each with its address, key, value and colour, is the one before; so
the in-order sequence of key-value pairs is unchanged and every node keeps
its colour. The same holds for `rightRotate(n)` when the left child of `n` is
present. -/
theorem rotations_preserve_inorder (s : RedBlackTree K V) (T : Tree K V) (n : Nat)
    (nd : Node K V) (h : Holds s T) (hn : n ∈ T.addrs) (hnd : s.mem n = some nd) :
    (nd.right ≠ none → ∃ s' T', s.leftRotate (some n) = some s' ∧ Holds s' T' ∧
      T'.inList = T.inList ∧
      ∀ fuel, T.count < fuel →
        s'.Entries fuel = s.Entries fuel ∧ s'.Nodes fuel = s.Nodes fuel ∧
        s.Entries fuel = some T.toList) ∧
    (nd.left ≠ none → ∃ s' T', s.rightRotate (some n) = some s' ∧ Holds s' T' ∧
      T'.inList = T.inList ∧
      ∀ fuel, T.count < fuel →
        s'.Entries fuel = s.Entries fuel ∧ s'.Nodes fuel = s.Nodes fuel ∧
        s.Entries fuel = some T.toList) := by
  have key : ∀ (s' : RedBlackTree K V) (T' : Tree K V), Holds s' T' → T'.inList = T.inList →
      ∀ fuel, T.count < fuel →
        s'.Entries fuel = s.Entries fuel ∧ s'.Nodes fuel = s.Nodes fuel ∧
        s.Entries fuel = some T.toList := by
    intro s' T' h' e fuel hf
    have h1 := Tree.height_le_count T
    have h2 := Tree.height_le_count T'
    have h3 : T'.count = T.count := by rw [← Tree.length_inList, e, Tree.length_inList]
    have hf1 : T.height < fuel := by omega
    have hf2 : T'.height < fuel := by omega
    refine ⟨?_, ?_, h.entries hf1⟩
    · rw [h'.entries hf2, h.entries hf1, ← Tree.inList_toList, e, Tree.inList_toList]
    · rw [h'.nodes hf2, h.nodes hf1, e]
  constructor
  · intro hr
    obtain ⟨s', T', e, h', el⟩ := h.leftRotate hn hnd hr
    exact ⟨s', T', e, h', el, key s' T' h' el⟩
  · intro hl
    obtain ⟨s', T', e, h', el⟩ := h.rightRotate hn hnd hl
    exact ⟨s', T', e, h', el, key s' T' h' el⟩

theorem rotations_preserve_inorder_witness :
    (Holds demo demoTree ∧ 0 ∈ demoTree.addrs ∧
      demo.mem 0 = some (Node.mk none (some 1) (some 2) 2 20 Color.black)) ∧
    (∃ s' T', demo.leftRotate (some 0) = some s' ∧ Holds s' T' ∧
      T'.inList = demoTree.inList ∧
      ∀ fuel, demoTree.count < fuel →
        s'.Entries fuel = demo.Entries fuel ∧ s'.Nodes fuel = demo.Nodes fuel ∧
        demo.Entries fuel = some demoTree.toList) ∧
    (∃ s' T', demo.rightRotate (some 0) = some s' ∧ Holds s' T' ∧
      T'.inList = demoTree.inList ∧
      ∀ fuel, demoTree.count < fuel →
        s'.Entries fuel = demo.Entries fuel ∧ s'.Nodes fuel = demo.Nodes fuel ∧
        demo.Entries fuel = some demoTree.toList) :=
  ⟨⟨demo_holds, by decide, rfl⟩,
    (rotations_preserve_inorder demo demoTree 0 _ demo_holds (by decide) rfl).1 (by decide),
    (rotations_preserve_inorder demo demoTree 0 _ demo_holds (by decide) rfl).2 (by decide)⟩

end Rbt

namespace Rbt

variable {K V : Type}

/-! ## Internal operations: `transplant`, the fixup loops, `Preorder`, balance,
parent links and `minimum` -/

/-- Claim C21: `transplant(x, y)` changes only the slot that held `x` and the
parent link of `y`. For a present node `x` whose parent, if any, is another
node and is not `y`, the call returns, and afterwards: the size is unchanged;
the root (if `x` had no parent) or the child slot of the parent of `x` chosen
by the test `x == x.parent.left` holds `y`, the rest of the parent node is
unchanged; the parent link of `y` (if `y` is present) equals the parent link
of `x`, the rest of `y` is unchanged; the node `x` is unchanged, with its
child links and its own parent link; every other node is unchanged; and every
node keeps its key, value and colour. -/
theorem transplant_changes_only_slot (s : RedBlackTree K V) (x : Nat) (y : Ptr)
    (xn : Node K V) (hx : s.mem x = some xn)
    (hp : ∀ p, xn.parent = some p → p ≠ x ∧ y ≠ some p ∧ ∃ pn, s.mem p = some pn)
    (hy : ∀ b, y = some b → ∃ yn, s.mem b = some yn) :
    ∃ s', s.transplant (some x) y = some s' ∧ s'.size = s.size ∧
      (xn.parent = none → s'.root = y) ∧
      (∀ p pn, xn.parent = some p → s.mem p = some pn →
        s'.root = s.root ∧
        s'.mem p = some (if some x = pn.left then { pn with left := y }
          else { pn with right := y })) ∧
      (∀ b yn, y = some b → s.mem b = some yn →
        s'.mem b = some { yn with parent := xn.parent }) ∧
      s'.mem x = some xn ∧
      (∀ a, xn.parent ≠ some a → y ≠ some a → s'.mem a = s.mem a) ∧
      (∀ a, (s'.mem a).map (fun n => (n.key, n.value, n.color)) =
        (s.mem a).map (fun n => (n.key, n.value, n.color))) := by
  obtain ⟨s', e, h1, -, h3, h4, h5, h6, h7⟩ := transplant_effect s x y xn hx hp hy
  refine ⟨s', e, h1, h3, h4, h5, h6, h7, fun a => ?_⟩
  by_cases ha : xn.parent = some a
  · obtain ⟨-, -, pn, hpn⟩ := hp a ha
    rw [(h4 a pn ha hpn).2, hpn]
    split <;> rfl
  · by_cases hb : y = some a
    · obtain ⟨yn, hyn⟩ := hy a hb
      rw [h5 a yn hb hyn, hyn]
      rfl
    · rw [h7 a ha hb]

theorem transplant_changes_only_slot_witness :
    (demo.mem 1 = some (Node.mk (some 0) none none 1 10 Color.red) ∧
      demo.mem 0 = some (Node.mk none (some 1) (some 2) 2 20 Color.black) ∧
      demo.mem 2 = some (Node.mk (some 0) none none 3 30 Color.red)) ∧
    ∃ s', demo.transplant (some 1) (some 2) = some s' ∧ s'.size = demo.size ∧
      s'.root = demo.root ∧
      s'.mem 0 = some (Node.mk none (some 2) (some 2) 2 20 Color.black) ∧
      s'.mem 2 = some (Node.mk (some 0) none none 3 30 Color.red) ∧
      s'.mem 1 = some (Node.mk (some 0) none none 1 10 Color.red) := by
  refine ⟨⟨rfl, rfl, rfl⟩, ?_⟩
  obtain ⟨s', e, h1, -, h3, h4, h5, -, -⟩ :=
    transplant_changes_only_slot demo 1 (some 2) (Node.mk (some 0) none none 1 10 Color.red) rfl
      (fun p hp => by
        simp only [Option.some.injEq] at hp
        subst hp
        exact ⟨by decide, by decide, _, rfl⟩)
      (fun b hb => by
        simp only [Option.some.injEq] at hb
        subst hb
        exact ⟨_, rfl⟩)
  exact ⟨s', e, h1, (h3 0 _ rfl rfl).1, (h3 0 _ rfl rfl).2, h4 2 _ rfl rfl, h5⟩

/-- Claim C22: both fixup loops terminate. At a position `path` of a tree with
consistent links, under the preconditions with which `Insert` calls
`insertFixup` (a red node on red-black subtrees, in a red-black tree up to
that node) and `Remove` calls `deleteFixup` (a subtree one black node short
of the other ways through the position), the loop stops after at most
`path.length + 1` rounds, one for every node above the position and one to
leave: with that much fuel, and with any more, the fixup returns the same
state. A round either leaves the loop or moves the position closer to the
root. The example after the theorem runs it where the loops do iterate: on
the state `Insert` hands to `insertFixup` with a red parent above the new
node, and on the state `Remove` hands to `deleteFixup` after a black leaf is
spliced out; there one round of fuel is not enough. -/
theorem fixup_loops_terminate {nx : Nat} {sz : Int} (s : RedBlackTree K V) (path : Path K V) :
    (∀ (n : Nat) (l r : Tree K V) (k : K) (v : V) (c0 : Color) (m : Nat),
      Models nx sz s path (Tree.node n Color.red l k v r) →
      RB l Color.black m → RB r Color.black m → PathRB path c0 m →
      ∃ s', insertFixup (path.length + 1) s (some n) = some s' ∧
        ∀ fuel, path.length + 1 ≤ fuel → insertFixup fuel s (some n) = some s') ∧
    (∀ (x : Tree K V) (cx : Color) (m : Nat),
      Models nx sz s path x → RB x cx m → PathRB path Color.black (m + 1) →
      ∃ s', deleteFixup (path.length + 1) s x.ptr (Path.ptr path) = some s' ∧
        ∀ fuel, path.length + 1 ≤ fuel →
          deleteFixup fuel s x.ptr (Path.ptr path) = some s') := by
  constructor
  · intro n l r k v c0 m h hl hr hp
    obtain ⟨s', T', e, -⟩ :=
      insertFixup_spec path.length path (path.length + 1) s n l r k v c0 m (le_refl _)
        (Nat.lt_succ_self _) h hl hr hp
    exact ⟨s', e, fun fuel hle => insertFixup_mono hle e⟩
  · intro x cx m h hx hp
    obtain ⟨s', T', e, -⟩ :=
      deleteFixup_spec path.length path (path.length + 1) s x cx m (le_refl _)
        (Nat.lt_succ_self _) h hx hp
    exact ⟨s', e, fun fuel hle => deleteFixup_mono hle e⟩

theorem fixup_loops_terminate_witness :
    ((attachedState.insertRound (some 3)).bind id).isSome = true ∧
    (insertFixup 1 attachedState (some 3)).isSome = false ∧
    (∃ s', insertFixup 3 attachedState (some 3) = some s' ∧
      ∀ fuel, 3 ≤ fuel → insertFixup fuel attachedState (some 3) = some s') ∧
    ((splicedState.deleteRound none (some 1)).bind id).isSome = true ∧
    (deleteFixup 1 splicedState none (some 1)).isSome = false ∧
    (∃ s', deleteFixup 2 splicedState none (some 1) = some s' ∧
      ∀ fuel, 2 ≤ fuel → deleteFixup fuel splicedState none (some 1) = some s') :=
  ⟨by decide, by decide,
    (fixup_loops_terminate attachedState
      [Frame.left 1 Color.red 1 10 Tree.nil,
        Frame.left 0 Color.black 2 20 (Tree.node 2 Color.red Tree.nil 3 30 Tree.nil)]).1
      3 Tree.nil Tree.nil 0 5 Color.black 0
      ⟨(by decide : attachedState.next = 4), (by decide : attachedState.size = 3), by decide,
        ⟨by decide, trivial, ⟨by decide, ⟨by decide, trivial, trivial⟩, trivial⟩⟩,
        ⟨by decide, trivial, trivial⟩, by decide, by decide⟩
      RB.nil RB.nil
      (PathRB.redL RB.nil (PathRB.blackL (RB.red RB.nil RB.nil) PathRB.root)),
    by decide, by decide,
    (fixup_loops_terminate splicedState
      [Frame.left 1 Color.black 2 20 (Tree.node 2 Color.black Tree.nil 3 30 Tree.nil)]).2
      Tree.nil Color.black 0
      ⟨(by decide : splicedState.next = 4), (by decide : splicedState.size = 3), by decide,
        ⟨by decide, ⟨by decide, trivial, trivial⟩, trivial⟩,
        trivial, by decide, by decide⟩
      RB.nil (PathRB.blackL (RB.black RB.nil RB.nil) PathRB.root)⟩

/-- Claim C23: `Preorder()` lists every node exactly once, each node before
the nodes of its left subtree and those before the nodes of its right
subtree, with the key, value and colour of the node. For every reachable
state holding the tree `T` it returns, its key-value-colour entries are the
pre-order list of `T`, its length equals `Size()`, and the keys it lists are
a permutation of `Keys()` without repetition. -/
theorem preorder_lists_every_node [LinearOrder K] (s : RedBlackTree K V) (fuel : Nat)
    (hr : Reachable s) (hf : s.Size < fuel) :
    ∃ ns ks T, s.Preorder fuel = some ns ∧ s.Keys fuel = some ks ∧ Holds s T ∧
      ns.map (fun n => (n.key, n.value, n.color)) = T.preList.map (fun x => x.2) ∧
      (ns.length : Int) = s.Size ∧
      (ns.map (fun n => n.key)).Perm ks ∧ (ns.map (fun n => n.key)).Nodup := by
  obtain ⟨T, h, -, hb, hsz, hh⟩ := hr.tree
  have hkeys : (T.preRecs none).map (fun n => n.key) = T.preList.map (fun x => x.2.1) := by
    have := congrArg (List.map (fun x : K × V × Color => x.1)) (Tree.preRecs_nodes T none)
    simpa only [List.map_map, Function.comp_def] using this
  have hperm : ((T.preRecs none).map (fun n => n.key)).Perm T.keys := by
    rw [hkeys]; exact Tree.preList_keys_perm T
  refine ⟨T.preRecs none, T.keys, T, h.preorder (hh fuel hf), h.keys (hh fuel hf), h,
    Tree.preRecs_nodes T none, ?_, hperm, ?_⟩
  · have hlen : (T.preRecs none).length = T.count := by
      have := congrArg List.length (Tree.preRecs_nodes T none)
      simpa only [List.length_map, Tree.length_preList] using this
    rw [hlen, RedBlackTree.Size, hsz]
  · exact hperm.nodup_iff.2 (((Tree.bst_iff T).1 hb).imp (fun h => ne_of_lt h))

theorem preorder_lists_every_node_witness :
    (Reachable demo ∧ demo.Size < (8 : Nat)) ∧
    ∃ ns ks T, demo.Preorder 8 = some ns ∧ demo.Keys 8 = some ks ∧ Holds demo T ∧
      ns.map (fun n => (n.key, n.value, n.color)) = T.preList.map (fun x => x.2) ∧
      (ns.length : Int) = demo.Size ∧
      (ns.map (fun n => n.key)).Perm ks ∧ (ns.map (fun n => n.key)).Nodup :=
  ⟨⟨demo_reachable, by decide⟩, preorder_lists_every_node demo 8 demo_reachable (by decide)⟩

/-- Claim C24: balance bound. For every tree that satisfies the red-black
invariants (black root, no red node with a red child, equal black heights),
the height `h` (the number of nodes on the longest way from the root down to
an absent child) and the number of nodes `n` satisfy `2^h <= (n + 1)^2` and
`h <= 2 * log2 (n + 1)`; hence the same holds for the tree of every state
reachable by `Insert` and `Remove`, with `n = Size()`. -/
theorem balance_bound [LinearOrder K] (T : Tree K V) (hroot : T.color = Color.black)
    (hrr : T.NoRedRed) (hbh : T.BlackBalanced) :
    2 ^ T.height ≤ (T.count + 1) ^ 2 ∧ T.height ≤ 2 * Nat.log 2 (T.count + 1) ∧
    ∀ s : RedBlackTree K V, Reachable s →
      ∃ T', Holds s T' ∧ (T'.count : Int) = s.Size ∧
        2 ^ T'.height ≤ (T'.count + 1) ^ 2 ∧ T'.height ≤ 2 * Nat.log 2 (T'.count + 1) := by
  have hb := Tree.RedBlack.balance (T := T) ⟨hroot, hrr, hbh⟩
  refine ⟨hb.1, hb.2, fun s hr => ?_⟩
  obtain ⟨T', h, hrb, -, hsz, -⟩ := hr.tree
  exact ⟨T', h, hsz.symm, hrb.balance.1, hrb.balance.2⟩

theorem balance_bound_witness :
    (demoTree.color = Color.black ∧ demoTree.NoRedRed ∧ demoTree.BlackBalanced) ∧
    (2 ^ demoTree.height ≤ (demoTree.count + 1) ^ 2 ∧
      demoTree.height ≤ 2 * Nat.log 2 (demoTree.count + 1) ∧
      ∀ s : RedBlackTree Nat Nat, Reachable s →
        ∃ T', Holds s T' ∧ (T'.count : Int) = s.Size ∧
          2 ^ T'.height ≤ (T'.count + 1) ^ 2 ∧ T'.height ≤ 2 * Nat.log 2 (T'.count + 1)) :=
  ⟨⟨rfl, by simp [demoTree, Tree.NoRedRed, Tree.color],
      by simp [demoTree, Tree.BlackBalanced, Tree.blackHeight]⟩,
    balance_bound demoTree rfl (by simp [demoTree, Tree.NoRedRed, Tree.color])
      (by simp [demoTree, Tree.BlackBalanced, Tree.blackHeight])⟩

/-- Claim C25: parent links stay consistent. For every state reachable from
`Make()` by `Insert` and `Remove`, the parent link of the root is absent and,
for every node of the tree, the node is stored and the parent link of its
left child and of its right child, when present, points back to the node. -/
theorem parent_links_consistent [LinearOrder K] (s : RedBlackTree K V) (hr : Reachable s) :
    (∀ r, s.root = some r → ∃ rn, s.mem r = some rn ∧ rn.parent = none) ∧
    ∀ a, IsNode s a → ∃ n, s.mem a = some n ∧
      (∀ l, n.left = some l → ∃ ln, s.mem l = some ln ∧ ln.parent = some a) ∧
      (∀ r, n.right = some r → ∃ rn, s.mem r = some rn ∧ rn.parent = some a) := by
  obtain ⟨T, h, -⟩ := hr.tree
  constructor
  · intro r hroot
    have hp : T.ptr = some r := h.root_eq.symm.trans hroot
    cases T with
    | nil => simp [Tree.ptr] at hp
    | node a c l k v rt =>
      simp only [Tree.ptr_node, Option.some.injEq] at hp
      subst hp
      exact ⟨_, h.onTree.1, rfl⟩
  · intro a ha
    obtain ⟨n, hn, hl, hrt⟩ := Rep.links T none h.onTree a (h.isNode_mem ha)
    exact ⟨n, hn, fun l e => (hl l e).2, fun r e => (hrt r e).2⟩

theorem parent_links_consistent_witness :
    Reachable demo ∧ IsNode demo 0 ∧
    ((∀ r, demo.root = some r → ∃ rn, demo.mem r = some rn ∧ rn.parent = none) ∧
    ∀ a, IsNode demo a → ∃ n, demo.mem a = some n ∧
      (∀ l, n.left = some l → ∃ ln, demo.mem l = some ln ∧ ln.parent = some a) ∧
      (∀ r, n.right = some r → ∃ rn, demo.mem r = some rn ∧ rn.parent = some a)) :=
  ⟨demo_reachable, IsNode.root rfl, parent_links_consistent demo demo_reachable⟩

/-- Claim C26: `minimum()` returns the leftmost node of a subtree. It returns
absent for an absent node; for the root of a subtree `t` that the heap holds
it returns a node of `t` that has no left child and whose key is the first in
order, so in a binary search tree the smallest key of `t`. For a node with
two children the minimum of its right subtree therefore is the in-order
successor of the node, the key right after its own and the smallest of the
greater keys, and it has at most one child, its right child. -/
theorem minimum_is_leftmost [LinearOrder K] (s : RedBlackTree K V) (par : Ptr) (t : Tree K V)
    (fuel : Nat) (h : Rep s.mem par t) (hf : t.height ≤ fuel) :
    s.minimum fuel none = some none ∧
    (∀ a, t.ptr = some a → ∃ m mn, s.minimum fuel (some a) = some (some m) ∧
      m ∈ t.addrs ∧ s.mem m = some mn ∧ mn.left = none ∧
      (∃ rest, t.keys = mn.key :: rest) ∧ (t.BST → ∀ x ∈ t.keys, mn.key ≤ x)) ∧
    (∀ a c l k v r, t = Tree.node a c l k v r → l ≠ Tree.nil → r ≠ Tree.nil →
      ∃ m mn, s.minimum fuel r.ptr = some (some m) ∧ m ∈ r.addrs ∧
        s.mem m = some mn ∧ mn.left = none ∧
        (∃ rest, t.keys = l.keys ++ k :: mn.key :: rest) ∧
        (t.BST → k < mn.key ∧ ∀ x ∈ t.keys, k < x → mn.key ≤ x)) := by
  refine ⟨rfl, ?_, ?_⟩
  · intro a ha
    obtain ⟨m, mn, e, hm, hl, hmem, rest, hk⟩ := minimumLoop_leftmost t par a fuel h ha hf
    refine ⟨m, mn, ?_, hmem, hm, hl, ⟨rest, hk⟩, fun hb => hb.head_le hk⟩
    simp only [RedBlackTree.minimum, e, Option.map_some']
  · rintro a c l k v r rfl - hr
    obtain ⟨h1, h2, h3⟩ := h
    simp only [Tree.height] at hf
    cases r with
    | nil => exact absurd rfl hr
    | node b cb rl kb vb rr =>
      have hh : (Tree.node b cb rl kb vb rr).height ≤ fuel := by omega
      obtain ⟨m, mn, e, hm, hl, hmem, rest, hk⟩ :=
        minimumLoop_leftmost (Tree.node b cb rl kb vb rr) (some a) b fuel h3 rfl hh
      refine ⟨m, mn, ?_, hmem, hm, hl, ⟨rest, by rw [Tree.keys_node, hk]⟩, fun hb => ?_⟩
      · simp only [Tree.ptr_node, RedBlackTree.minimum, e, Option.map_some']
      · obtain ⟨b1, b2, b3, b4⟩ := hb
        have hmk : mn.key ∈ (Tree.node b cb rl kb vb rr).keys := by rw [hk]; simp
        refine ⟨b2 _ hmk, fun x hx hlt => ?_⟩
        rw [Tree.keys_node, List.mem_append, List.mem_cons] at hx
        rcases hx with hx | rfl | hx
        · exact absurd (b1 x hx) (not_lt.2 (le_of_lt hlt))
        · exact absurd hlt (lt_irrefl _)
        · exact b4.head_le hk x hx

theorem minimum_is_leftmost_witness :
    (Rep demo.mem none demoTree ∧ demoTree.height ≤ 8) ∧
    (demo.minimum 8 none = some none ∧
    (∀ a, demoTree.ptr = some a → ∃ m mn, demo.minimum 8 (some a) = some (some m) ∧
      m ∈ demoTree.addrs ∧ demo.mem m = some mn ∧ mn.left = none ∧
      (∃ rest, demoTree.keys = mn.key :: rest) ∧
      (demoTree.BST → ∀ x ∈ demoTree.keys, mn.key ≤ x)) ∧
    (∀ a c l k v r, demoTree = Tree.node a c l k v r → l ≠ Tree.nil → r ≠ Tree.nil →
      ∃ m mn, demo.minimum 8 r.ptr = some (some m) ∧ m ∈ r.addrs ∧
        demo.mem m = some mn ∧ mn.left = none ∧
        (∃ rest, demoTree.keys = l.keys ++ k :: mn.key :: rest) ∧
        (demoTree.BST → k < mn.key ∧ ∀ x ∈ demoTree.keys, k < x → mn.key ≤ x))) :=
  ⟨⟨demo_holds.onTree, by decide⟩,
    minimum_is_leftmost demo none demoTree 8 demo_holds.onTree (by decide)⟩

end Rbt
